import Mathlib

/-!
# static-indexes: a shallow embedding of `main.go`

The program walks a directory tree and writes an `index.html` listing into
every directory it visits.  This file embeds the functions of `main.go`
(`paresStList`, `safeToReplace`, `generateTable`, `generateIndex`, `row`,
`process`, `main`) as Lean functions and proves properties of them.

Conventions of the embedding:

* a Go `string` / `[]byte` is a list of bytes, each byte a natural number;
* the file system is a tree of nodes; the directory a call works on is passed
  as a value and the updated directory is returned;
* what the program takes from outside `main.go` and cannot be written down
  from it (the two embedded assets, the Unicode tables of the standard
  library, the time formatter with the process time zone, `path.Join`) is a
  field of the structure `Lib`;
* a Go run-time panic is the failure `Failure.nilEntry`;
* the calls of `process` made during a run are listed by `visitsNode`, which
  follows the control flow of `process` and returns the `dir` arguments.
-/

namespace StaticIndexes

/-! ## Strings -/

/-- A Go string or byte slice. -/
abbrev Str := List Nat

/-- The bytes of an ASCII literal of the source text. -/
def ascii (s : String) : Str := s.data.map Char.toNat

/-- Go `strings.HasPrefix`. -/
def HasPrefix (s p : Str) : Bool := p.isPrefixOf s

/-- Go `bytes.Contains`: `sub` occurs in `b` as a contiguous run of bytes. -/
def bytesContains : Str → Str → Bool
  | [], sub => sub.isPrefixOf []
  | c :: rest, sub => sub.isPrefixOf (c :: rest) || bytesContains rest sub

/-- Go `<` on strings: byte-wise lexicographic comparison. -/
def strLess : Str → Str → Bool
  | _, [] => false
  | [], _ :: _ => true
  | a :: as, b :: bs => decide (a < b) || (decide (a = b) && strLess as bs)

/-- The order `sort.Strings` sorts by: `a` may stand before `b`. -/
def strLE (a b : Str) : Prop := strLess b a = false

instance : DecidableRel strLE := fun a b => by unfold strLE; exact inferInstance

/-- Go `sort.Strings`: the ascending rearrangement of the slice.  The order is
total and antisymmetric on byte strings, so every correct sorting algorithm
returns this list. -/
def sortStrings (names : List Str) : List Str := names.insertionSort strLE

/-- The standard library's lower-casing of one ASCII byte. -/
def lowerByte (c : Nat) : Nat := if 65 ≤ c ∧ c ≤ 90 then c + 32 else c

/-- The replacement `html.EscapeString` makes for one byte. -/
def escapeByte (c : Nat) : Str :=
  if c = 38 then ascii "&amp;"
  else if c = 39 then ascii "&#39;"
  else if c = 60 then ascii "&lt;"
  else if c = 62 then ascii "&gt;"
  else if c = 34 then ascii "&#34;"
  else [c]

/-- Go `html.EscapeString`: a byte-wise replacement of the five special
characters. -/
def EscapeString : Str → Str
  | [] => []
  | c :: rest => escapeByte c ++ EscapeString rest

/-- The digit table `lowerhex` of `strconv`. -/
def lowerhex (n : Nat) : Nat := (ascii "0123456789abcdef").getD n 0

/-- The branch of `strconv.appendEscapedRune` for a rune below `utf8.RuneSelf`
with the double quote as the quote character. -/
def quoteByte (c : Nat) : Str :=
  if c = 34 ∨ c = 92 then [92, c]
  else if 32 ≤ c ∧ c < 127 then [c]
  else if c = 7 then ascii "\\a"
  else if c = 8 then ascii "\\b"
  else if c = 12 then ascii "\\f"
  else if c = 10 then ascii "\\n"
  else if c = 13 then ascii "\\r"
  else if c = 9 then ascii "\\t"
  else if c = 11 then ascii "\\v"
  else ascii "\\x" ++ [lowerhex (c / 16), lowerhex (c % 16)]

/-! ## What the program takes from outside `main.go` -/

/-- The parts of the program's environment that `main.go` uses and does not
define. -/
structure Lib where
  /-- The embedded asset `assets/head.header`. -/
  headAsset : Str
  /-- The embedded asset `assets/body.footer`. -/
  bodyAsset : Str
  /-- The layout `2006-01-02 15:04:05 MST` applied to a modification time
  in the time zone of the process. -/
  formatTime : Int → Str
  /-- The function `strings.Map(unicode.ToLower, s)`, which `strings.ToLower`
  applies to a string that is not pure ASCII. -/
  unicodeToLower : Str → Str
  /-- What `strconv.Quote` emits for the rune that starts at a byte not below
  `utf8.RuneSelf`, and the number of bytes the rune takes. -/
  quoteRune : Str → Str × Nat
  /-- Go `path.Join` of a directory and a name. -/
  pathJoin : Str → Str → Str

/-- Go `strings.ToLower`: the byte-wise fast path for an ASCII string, the
Unicode mapping otherwise. -/
def ToLower (lib : Lib) (s : Str) : Str :=
  if s.all (fun c => decide (c < 128)) then s.map lowerByte else lib.unicodeToLower s

/-- The loop of `strconv.appendQuotedWith`; the first argument counts the
bytes still to skip of a multi-byte rune already emitted. -/
def quoteLoop (lib : Lib) : Nat → Str → Str
  | _, [] => []
  | skip + 1, _ :: rest => quoteLoop lib skip rest
  | 0, c :: rest =>
    if c < 128 then quoteByte c ++ quoteLoop lib 0 rest
    else (lib.quoteRune (c :: rest)).1 ++ quoteLoop lib ((lib.quoteRune (c :: rest)).2 - 1) rest

/-- Go `strconv.Quote`, which is what the verb `%q` formats a string with. -/
def Quote (lib : Lib) (s : Str) : Str := 34 :: quoteLoop lib 0 s ++ [34]

/-! ## Directory entries and the file-system tree -/

/-- The three methods of `os.FileInfo` the program calls. -/
structure FileInfo where
  name : Str
  isDir : Bool
  modTime : Int
deriving DecidableEq

/-- A node of the file-system tree.  A directory lists its children in
readdir order. -/
inductive Node where
  | file (content : Str) (modTime : Int) (readable writable : Bool)
  | dir (entries : List (Str × Node)) (modTime : Int) (openable listable creatable : Bool)

/-- The part of a directory that `generateIndex` reads and changes. -/
structure DirState where
  entries : List (Str × Node)
  modTime : Int
  creatable : Bool

/-- Whether a node is a directory. -/
def Node.isDir : Node → Bool
  | .file .. => false
  | .dir .. => true

/-- The modification time of a node. -/
def Node.modTime : Node → Int
  | .file _ t _ _ => t
  | .dir _ t _ _ _ => t

/-- The `os.FileInfo` that `Readdir` reports for a child. -/
def infoOf (e : Str × Node) : FileInfo := ⟨e.1, e.2.isDir, e.2.modTime⟩

/-- The child of the given name. -/
def lookupNode : List (Str × Node) → Str → Option Node
  | [], _ => none
  | (n, x) :: rest, name => if n = name then some x else lookupNode rest name

/-- The listing with the child of the given name replaced. -/
def replaceNode : List (Str × Node) → Str → Node → List (Str × Node)
  | [], _, _ => []
  | (n, x) :: rest, name, y =>
    if n = name then (n, y) :: rest else (n, x) :: replaceNode rest name y

/-- Go `ioutil.ReadFile` on a name inside the directory: the bytes of a
readable regular file, `none` for every failure. -/
def ReadFile (es : List (Str × Node)) (name : Str) : Option Str :=
  match lookupNode es name with
  | some (.file content _ true _) => some content
  | _ => none

/-- Go `ioutil.WriteFile` on a name inside the directory at time `now`:
creates the file when the name is free and the directory allows it,
truncates and rewrites a writable regular file, and fails (`none`)
otherwise.  The failures covered are those of opening the file (the name is
a directory, the file is not writable, the directory admits no new file);
they happen before the truncation and leave the directory as it was.  A
write that fails after the file was opened and truncated (a full disk, an
I/O error) has no counterpart here: `none` says nothing about such a file,
and no statement below should be read as describing its content. -/
def WriteFile (now : Int) (d : DirState) (name data : Str) : Option DirState :=
  match lookupNode d.entries name with
  | none =>
    if d.creatable then
      some ⟨d.entries ++ [(name, .file data now true true)], now, d.creatable⟩
    else none
  | some (.file _ _ r true) =>
    some ⟨replaceNode d.entries name (.file data now r true), d.modTime, d.creatable⟩
  | some _ => none

/-- The bytes stored under a name, whatever its permissions. -/
def contentOf (es : List (Str × Node)) (name : Str) : Option Str :=
  match lookupNode es name with
  | some (.file content _ _ _) => some content
  | _ => none

/-! ## The program -/

/-- The two command-line flags. -/
structure Flags where
  recursiveOpt : Bool
  hidden : Bool

/-- The errors `process` returns, and the run-time panic of a method call
on a nil `os.FileInfo`. -/
inductive Failure where
  | stat (dir : Str)
  | notDir (dir : Str)
  | openDir (dir : Str)
  | readDir (dir : Str)
  | write (fn : Str)
  | nilEntry
deriving DecidableEq

/-- The map literal `icons`. -/
def icons : List (Str × Str) :=
  [ (ascii "default", ascii "file-alt"),
    (ascii ".epub", ascii "book"),
    (ascii ".jpeg", ascii "file-image"),
    (ascii ".jpg", ascii "file-image"),
    (ascii ".gif", ascii "file-image"),
    (ascii ".tiff", ascii "file-image"),
    (ascii ".pdf", ascii "file-pdf"),
    (ascii ".mov", ascii "file-movie"),
    (ascii ".avi", ascii "file-movie"),
    (ascii ".zip", ascii "file-archive"),
    (ascii ".rar", ascii "file-archive"),
    (ascii ".tar", ascii "file-archive"),
    (ascii ".tgz", ascii "file-archive") ]

/-- A Go map read `m[k]` on a map of strings: the value, or the empty string
for a missing key. -/
def mapGet : List (Str × Str) → Str → Str
  | [], _ => []
  | (k, v) :: rest, key => if k = key then v else mapGet rest key

/-- The constant `magic`. -/
def magic : Str := ascii "<!-- generated by static-indexes -->"

/-- A Go `map[string]os.FileInfo`; a missing key reads as nil. -/
abbrev InfoMap := Str → Option FileInfo

/-- The assignment `m[k] = v`. -/
def InfoMap.set (m : InfoMap) (k : Str) (v : FileInfo) : InfoMap :=
  fun key => if key = k then some v else m key

/-- One iteration of the loop of `paresStList`. -/
def paresStep (hidden : Bool) (acc : InfoMap × List Str) (fi : FileInfo) : InfoMap × List Str :=
  let fileName := fi.name
  if HasPrefix fileName (ascii ".") && !hidden then acc
  else (acc.1.set fileName fi, acc.2 ++ [fileName])

/-- The function `paresStList`. -/
def paresStList (hidden : Bool) (stList : List FileInfo) : List Str × InfoMap :=
  let acc := stList.foldl (paresStep hidden) (fun _ => none, [])
  (sortStrings acc.2, acc.1)

/-- The function `row`. -/
def row (lib : Lib) (fi : FileInfo) : Str :=
  let fn := fi.name
  let isDir := fi.isDir
  let lc := ToLower lib fn
  let icon := mapGet icons lc
  let icon := if icon = [] then mapGet icons (ascii "default") else icon
  let icon := if isDir then ascii "folder-open" else icon
  let fn := if isDir then fn ++ ascii "/" else fn
  let fontAwesome := ascii "\t<i class=\"fas fa-" ++ icon ++ ascii "\"></i>"
  let link := ascii "<a href=" ++ Quote lib fn ++ ascii ">" ++ EscapeString fn ++ ascii "</a>"
  let when := lib.formatTime fi.modTime
  ascii "\n<tr>\n<td>" ++ fontAwesome ++ ascii "</td>\n<td>" ++ link
    ++ ascii "</td>\n<td>" ++ when ++ ascii "</td>\n</tr>"

/-- The first literal `generateTable` writes. -/
def tableOpen : Str :=
  ascii ("<table class=\"sortable\">\n\t<thead>\n\t\t<tr>\n\t\t\t<th class=\"no-sort\"></th>\n"
    ++ "\t\t\t<th>Name</th>\n\t\t\t<th>Date</th>\n\t\t</tr>\n\t</thead>\n\t<tbody>\n")

/-- The last literal `generateTable` writes. -/
def tableClose : Str :=
  ascii "\n\t\t<tr>\n\t\t\t<td></td>\n\t\t</tr>\n\t</tbody>\n</table>"

/-- One iteration of the loop of `generateTable`; `none` is the panic of
`row` on a nil entry. -/
def tableStep (lib : Lib) (m : InfoMap) (builder : Option Str) (name : Str) : Option Str :=
  if name ≠ ascii "index.htm;" then
    match builder, m name with
    | some b, some fi => some (b ++ row lib fi)
    | _, _ => none
  else builder

/-- The function `generateTable`; `none` is a panic. -/
def generateTable (lib : Lib) (flags : Flags) (_dir : Str) (stList : List FileInfo) : Option Str :=
  let nm := paresStList flags.hidden stList
  let builder := nm.1.foldl (tableStep lib nm.2) (some tableOpen)
  builder.map (fun b => b ++ tableClose)

/-- The function `safeToReplace`, on the name of a file inside the directory. -/
def safeToReplace (es : List (Str × Node)) (fn : Str) : Bool :=
  match ReadFile es fn with
  | none => true
  | some b => if bytesContains b magic then true else false

/-- The result of reading an optional override file: its bytes, or nothing. -/
def readOrEmpty (es : List (Str × Node)) (name : Str) : Str :=
  match ReadFile es name with
  | some b => b
  | none => []

/-- The function `generateIndex` on directory `dir` at time `now`: the
directory afterwards and the error returned. -/
def generateIndex (lib : Lib) (flags : Flags) (now : Int) (dir : Str) (d : DirState)
    (stList : List FileInfo) : DirState × Option Failure :=
  let fn := ascii "index.html"
  if !safeToReplace d.entries fn then (d, none)
  else
    let builder := ascii "<html>"
    let builder := builder ++ magic
    let builder := builder ++ ascii "<head>"
    let builder := builder ++ lib.headAsset
    let builder := builder ++ readOrEmpty d.entries (ascii "HEADER.html")
    let builder := builder ++ ascii "</head>"
    let builder := builder ++ ascii "<body>"
    let builder := builder ++ lib.bodyAsset
    let builder := builder ++ (ascii "<div><a href=\"..\"><i class=\"fas fa-" ++ ascii "up-arrow"
      ++ ascii "\"></i> up</a></div>")
    match generateTable lib flags dir stList with
    | none => (d, some .nilEntry)
    | some table =>
      let builder := builder ++ table
      let builder := builder ++ readOrEmpty d.entries (ascii "README.html")
      let builder := builder ++ ascii "</body>"
      let builder := builder ++ ascii "</html>"
      match WriteFile now d fn builder with
      | some d1 => (d1, none)
      | none => (d, some (.write (lib.pathJoin dir fn)))

mutual
/-- The function `process` from the point where `os.Stat` has succeeded, on
the node found at `dir`: the node afterwards and the error returned. -/
def processNode (lib : Lib) (flags : Flags) (now : Int) (dir : Str) : Node → Node × Option Failure
  | .file content t r w => (.file content t r w, some (.notDir dir))
  | .dir es t o l c =>
    if !o then (.dir es t o l c, some (.openDir dir))
    else if !l then (.dir es t o l c, some (.readDir dir))
    else
      let stList := es.map infoOf
      match generateIndex lib flags now dir ⟨es, t, c⟩ stList with
      | (d1, some err) => (.dir d1.entries d1.modTime o l c, some err)
      | (d1, none) =>
        if !flags.recursiveOpt then (.dir d1.entries d1.modTime o l c, none)
        else
          let r := processChildren lib flags now dir es d1.entries
          (.dir r.1 d1.modTime o l c, r.2)
/-- The loop of `process` over the listing read before the index was written;
the second list is the current content of the directory. -/
def processChildren (lib : Lib) (flags : Flags) (now : Int) (dir : Str) :
    List (Str × Node) → List (Str × Node) → List (Str × Node) × Option Failure
  | [], cur => (cur, none)
  | (name, child) :: rest, cur =>
    if child.isDir then
      if HasPrefix name (ascii ".") && flags.hidden then
        processChildren lib flags now dir rest cur
      else
        match processNode lib flags now (lib.pathJoin dir name) child with
        | (child1, some err) => (replaceNode cur name child1, some err)
        | (child1, none) => processChildren lib flags now dir rest (replaceNode cur name child1)
    else processChildren lib flags now dir rest cur
end

/-- The function `process`: `none` is a path that `os.Stat` fails on. -/
def process (lib : Lib) (flags : Flags) (now : Int) (dir : Str) (_top : Bool) :
    Option Node → Option Node × Option Failure
  | none => (none, some (.stat dir))
  | some n => (some (processNode lib flags now dir n).1, (processNode lib flags now dir n).2)

/-- The function `main` on the roots named on the command line, each with
the tree found there (`none` where there is none); the roots are taken to be
separate trees.  The run ends at the first error (`log.Fatal`). -/
def main (lib : Lib) (flags : Flags) (now : Int) :
    List (Str × Option Node) → List (Str × Option Node) × Option Failure
  | [] => ([], none)
  | (dest, n) :: rest =>
    match process lib flags now dest true n with
    | (n1, some err) => ((dest, n1) :: rest, some err)
    | (n1, none) => ((dest, n1) :: (main lib flags now rest).1, (main lib flags now rest).2)

mutual
/-- The calls of `process` that a call on this node makes, itself first: the
`dir` argument of each call, in the order the calls are made. -/
def visitsNode (lib : Lib) (flags : Flags) (now : Int) (dir : Str) : Node → List Str
  | .file _ _ _ _ => [dir]
  | .dir es t o l c =>
    if !o then [dir]
    else if !l then [dir]
    else
      match (generateIndex lib flags now dir ⟨es, t, c⟩ (es.map infoOf)).2 with
      | some _ => [dir]
      | none =>
        if !flags.recursiveOpt then [dir]
        else dir :: visitsChildren lib flags now dir es
/-- The calls of `process` made by the loop of `process` over a listing. -/
def visitsChildren (lib : Lib) (flags : Flags) (now : Int) (dir : Str) :
    List (Str × Node) → List Str
  | [] => []
  | (name, child) :: rest =>
    if child.isDir then
      if HasPrefix name (ascii ".") && flags.hidden then
        visitsChildren lib flags now dir rest
      else
        match (processNode lib flags now (lib.pathJoin dir name) child).2 with
        | some _ => visitsNode lib flags now (lib.pathJoin dir name) child
        | none =>
          visitsNode lib flags now (lib.pathJoin dir name) child
            ++ visitsChildren lib flags now dir rest
    else visitsChildren lib flags now dir rest
end

/-! ## Notions used in the statements -/

/-- Whether `paresStList` keeps an entry. -/
def shown (hidden : Bool) (fi : FileInfo) : Bool := !(HasPrefix fi.name (ascii ".") && !hidden)

/-- The last entry of a listing that has the given name. -/
def lastNamed : List FileInfo → Str → Option FileInfo
  | [], _ => none
  | fi :: rest, key =>
    match lastNamed rest key with
    | some x => some x
    | none => if key = fi.name then some fi else none

/-- The rows of a sequence of entries, one after the other. -/
def rowsOf (lib : Lib) : List FileInfo → Str
  | [] => []
  | fi :: rest => row lib fi ++ rowsOf lib rest

/-- The entries the loop of `generateTable` renders, in the order of the
loop: the sorted names other than `index.htm;`, each looked up in the map. -/
def tableEntries (hidden : Bool) (stList : List FileInfo) : List FileInfo :=
  ((paresStList hidden stList).1.filter (fun n => decide (n ≠ ascii "index.htm;"))).filterMap
    (paresStList hidden stList).2

/-- A sample environment, used to evaluate the program on concrete inputs. -/
def sampleLib : Lib where
  headAsset := ascii "<title>index</title>"
  bodyAsset := ascii "<h1>index</h1>"
  formatTime := fun t => ascii "t=" ++ (Nat.toDigits 10 t.toNat).map Char.toNat
  unicodeToLower := fun s => s
  quoteRune := fun s => (s.take 1, 1)
  pathJoin := fun d n => d ++ ascii "/" ++ n

/-- The page of claim C10: the fixed parts around the content of
`HEADER.html`, the table and the content of `README.html`. -/
def pageOf (lib : Lib) (header table readme : Str) : Str :=
  ascii "<html>" ++ magic ++ ascii "<head>" ++ lib.headAsset ++ header ++ ascii "</head>"
    ++ ascii "<body>" ++ lib.bodyAsset
    ++ ascii "<div><a href=\"..\"><i class=\"fas fa-up-arrow\"></i> up</a></div>"
    ++ table ++ readme ++ ascii "</body>" ++ ascii "</html>"

/-- The page `generateIndex` composes for a directory and a listing. -/
def composed (lib : Lib) (flags : Flags) (d : DirState) (stList : List FileInfo) : Str :=
  pageOf lib
    (match ReadFile d.entries (ascii "HEADER.html") with | some b => b | none => [])
    (tableOpen ++ rowsOf lib (tableEntries flags.hidden stList) ++ tableClose)
    (match ReadFile d.entries (ascii "README.html") with | some b => b | none => [])

/-- A directory whose `index.html` carries the marker and is read-only. -/
def readOnlyIndexDir : DirState :=
  ⟨[(ascii "index.html", .file magic 0 true false)], 0, true⟩

/-- A directory whose `index.html` has no marker and is writable but not
readable. -/
def unreadableIndexDir : DirState :=
  ⟨[(ascii "index.html", .file (ascii "hand-written") 0 false true)], 0, true⟩

/-- A directory with a file, a `HEADER.html` and no `index.html`. -/
def headerDir : DirState :=
  ⟨[(ascii "a.txt", .file (ascii "hello") 5 true true),
    (ascii "HEADER.html", .file (ascii "<style></style>") 6 true true)], 9, true⟩

/-- The link target `row` computes: the name, with `/` appended for a
directory. -/
def linkTarget (fi : FileInfo) : Str := if fi.isDir then fi.name ++ ascii "/" else fi.name

/-- The icon `row` computes. -/
def iconOf (lib : Lib) (fi : FileInfo) : Str :=
  if fi.isDir then ascii "folder-open"
  else if mapGet icons (ToLower lib fi.name) = [] then mapGet icons (ascii "default")
  else mapGet icons (ToLower lib fi.name)

/-- The shape of a row: the fixed text of the two format strings of `row`
around the icon, the `href` attribute, the link text and the time. -/
def rowWith (icon href text time : Str) : Str :=
  ascii "\n<tr>\n<td>\t<i class=\"fas fa-" ++ icon ++ ascii "\"></i></td>\n<td><a href=" ++ href
    ++ ascii ">" ++ text ++ ascii "</a></td>\n<td>" ++ time ++ ascii "</td>\n</tr>"

/-- The five entity references `html.EscapeString` produces. -/
def entities : List Str :=
  [ascii "&amp;", ascii "&#39;", ascii "&lt;", ascii "&gt;", ascii "&#34;"]

/-- Whether every `&` of a text begins one of the five entity references. -/
def ampsBeginEntities : Str → Bool
  | [] => true
  | c :: rest =>
    (c != 38 || entities.any (fun e => e.isPrefixOf (c :: rest))) && ampsBeginEntities rest

/-- The inverse replacement: each of the five entity references is replaced
by its character, scanning from the left. -/
def unescapeEntities : Str → Str
  | 38 :: 97 :: 109 :: 112 :: 59 :: rest => 38 :: unescapeEntities rest
  | 38 :: 35 :: 51 :: 57 :: 59 :: rest => 39 :: unescapeEntities rest
  | 38 :: 108 :: 116 :: 59 :: rest => 60 :: unescapeEntities rest
  | 38 :: 103 :: 116 :: 59 :: rest => 62 :: unescapeEntities rest
  | 38 :: 35 :: 51 :: 52 :: 59 :: rest => 34 :: unescapeEntities rest
  | c :: rest => c :: unescapeEntities rest
  | [] => []

/-- The content of `index.html` in a directory node. -/
def indexOf : Option Node → Option Str
  | some (.dir es _ _ _ _) => contentOf es (ascii "index.html")
  | _ => none

/-- A directory that holds the single file `a.txt` and no `index.html`. -/
def oneFileDir (c : Str) (t t0 : Int) : Node :=
  .dir [(ascii "a.txt", .file c t true true)] t0 true true true

/-- The table of the scenario of claim C9 as the program renders it. -/
def scenarioTable (lib : Lib) (ta tb ts : Int) : Str :=
  tableOpen
    ++ rowWith (ascii "file-alt") (ascii "\"a.txt\"") (ascii "a.txt") (lib.formatTime ta)
    ++ rowWith (ascii "file-alt") (ascii "\"b.jpg\"") (ascii "b.jpg") (lib.formatTime tb)
    ++ rowWith (ascii "folder-open") (ascii "\"sub/\"") (ascii "sub/") (lib.formatTime ts)
    ++ tableClose

/-- The node found by following a path of names down from a node. -/
def nodeAt : List Str → Node → Option Node
  | [], n => some n
  | _ :: _, .file _ _ _ _ => none
  | name :: rest, .dir es _ _ _ _ =>
    match lookupNode es name with
    | some x => nodeAt rest x
    | none => none

/-- The bytes of the file found at a path below a node. -/
def contentAt (path : List Str) (n : Node) : Option Str :=
  match nodeAt path n with
  | some (.file content _ _ _) => some content
  | _ => none

mutual
/-- Whether the names in every directory of a tree are pairwise distinct, as
a file system guarantees. -/
def distinctNames : Node → Bool
  | .file _ _ _ _ => true
  | .dir es _ _ _ _ => decide ((es.map Prod.fst).Nodup) && distinctNamesIn es
/-- Whether every tree of a listing has pairwise distinct names in every
directory. -/
def distinctNamesIn : List (Str × Node) → Bool
  | [] => true
  | (_, x) :: rest => distinctNames x && distinctNamesIn rest
end

/-- Whether the loop of `process` recurses into a child: a directory, and not
a dot-named one when the hidden flag is on. -/
def recursedInto (flags : Flags) (e : Str × Node) : Bool :=
  e.2.isDir && !(HasPrefix e.1 (ascii ".") && flags.hidden)

/-- A directory with `a.txt` and an unreadable `HEADER.html`. -/
def lockedHeaderDir : DirState :=
  ⟨[(ascii "a.txt", .file (ascii "hello") 5 true true),
    (ascii "HEADER.html", .file (ascii "<style></style>") 6 false true)], 9, true⟩

/-- A directory with `a.txt` and an empty `HEADER.html`. -/
def emptyHeaderDir : DirState :=
  ⟨[(ascii "a.txt", .file (ascii "hello") 5 true true),
    (ascii "HEADER.html", .file [] 6 true true)], 9, true⟩

/-- A tree with a file, the two override files, a subdirectory `sub` that
holds `x.txt`, and a dot-named subdirectory `.g`. -/
def sampleTree : Node :=
  .dir [(ascii "a.txt", .file (ascii "hello") 5 true true),
    (ascii "HEADER.html", .file (ascii "<style></style>") 6 true true),
    (ascii "README.html", .file (ascii "<p>read me</p>") 6 true true),
    (ascii "sub", .dir [(ascii "x.txt", .file (ascii "x") 7 true true)] 7 true true true),
    (ascii ".g", .dir [] 8 true true true)] 9 true true true

/-- A directory that holds nothing. -/
def emptyDir : Node := .dir [] 0 true true true

/-- A directory that cannot be opened. -/
def lockedDir : Node := .dir [] 0 false true true

/-- A directory with a hand-written `index.html` and a subdirectory. -/
def handWrittenDir : List (Str × Node) :=
  [(ascii "index.html", .file (ascii "<h1>mine</h1>") 3 true true),
    (ascii "sub", .dir [] 4 true true true)]

/-- Whether the recursion rule of `process` lets the walk from a node reach
the directory at a path: every step is into a child directory that the loop
recurses into, in recursive mode. -/
def walkReaches (flags : Flags) : List Str → Node → Bool
  | [], _ => true
  | _ :: _, .file _ _ _ _ => false
  | name :: rest, .dir es _ _ _ _ =>
    flags.recursiveOpt &&
      match lookupNode es name with
      | some child => recursedInto flags (name, child) && walkReaches flags rest child
      | none => false

/-! ## Lemmas: strings and sorting -/

theorem bytesContains_iff (b sub : Str) : bytesContains b sub = true ↔ sub <:+: b := by
  induction b with
  | nil =>
    simp [bytesContains]
  | cons c rest ih =>
    rw [bytesContains, Bool.or_eq_true, ih, List.infix_cons_iff]
    simp

theorem strLess_irrefl (a : Str) : strLess a a = false := by
  induction a with
  | nil => rfl
  | cons x xs ih => simp [strLess, ih]

theorem strLess_asymm : ∀ (a b : Str), strLess a b = true → strLess b a = false
  | [], [] => by simp [strLess]
  | [], _ :: _ => by simp [strLess]
  | _ :: _, [] => by simp [strLess]
  | x :: xs, y :: ys => by
    intro h
    simp only [strLess, Bool.or_eq_true, Bool.and_eq_true, decide_eq_true_eq] at h
    simp only [strLess, Bool.or_eq_false_iff, Bool.and_eq_false_imp, decide_eq_false_iff_not,
      decide_eq_true_eq]
    rcases h with h | ⟨h1, h2⟩
    · exact ⟨by omega, fun e => by omega⟩
    · exact ⟨by omega, fun _ => strLess_asymm xs ys h2⟩

theorem strLess_connex : ∀ (a b : Str), strLess a b = false → strLess b a = false → a = b
  | [], [] => by simp
  | [], _ :: _ => by simp [strLess]
  | _ :: _, [] => by simp [strLess]
  | x :: xs, y :: ys => by
    intro h1 h2
    simp only [strLess, Bool.or_eq_false_iff, Bool.and_eq_false_imp, decide_eq_false_iff_not,
      decide_eq_true_eq] at h1 h2
    have hxy : x = y := by omega
    rw [hxy, strLess_connex xs ys (h1.2 hxy) (h2.2 hxy.symm)]

theorem strLess_trans : ∀ (a b c : Str), strLess a b = true → strLess b c = true → strLess a c = true
  | _, [], _ => by simp [strLess]
  | _, _ :: _, [] => by simp [strLess]
  | [], _ :: _, _ :: _ => by simp [strLess]
  | x :: xs, y :: ys, z :: zs => by
    intro h1 h2
    simp only [strLess, Bool.or_eq_true, Bool.and_eq_true, decide_eq_true_eq] at h1 h2 ⊢
    rcases h1 with h1 | ⟨e1, h1⟩ <;> rcases h2 with h2 | ⟨e2, h2⟩
    · left; omega
    · left; omega
    · left; omega
    · right; exact ⟨by omega, strLess_trans xs ys zs h1 h2⟩

instance : IsTotal Str strLE := ⟨fun a b => by
  unfold strLE
  cases h : strLess b a
  · exact Or.inl rfl
  · exact Or.inr (strLess_asymm b a h)⟩

instance : IsTrans Str strLE := ⟨fun a b c hab hbc => by
  unfold strLE at *
  cases h : strLess c a
  · rfl
  · cases h3 : strLess b c
    · have e := strLess_connex b c h3 hbc
      subst e
      rw [h] at hab; exact absurd hab (by simp)
    · have := strLess_trans b c a h3 h
      rw [this] at hab; exact absurd hab (by simp)⟩

instance : IsAntisymm Str strLE := ⟨fun a b hab hba => strLess_connex a b hba hab⟩

theorem sortStrings_sorted (l : List Str) : (sortStrings l).Sorted strLE :=
  List.sorted_insertionSort strLE l

theorem sortStrings_perm (l : List Str) : (sortStrings l).Perm l :=
  List.perm_insertionSort strLE l

theorem sortStrings_congr {l₁ l₂ : List Str} (h : l₁.Perm l₂) : sortStrings l₁ = sortStrings l₂ :=
  List.eq_of_perm_of_sorted ((sortStrings_perm l₁).trans (h.trans (sortStrings_perm l₂).symm))
    (sortStrings_sorted l₁) (sortStrings_sorted l₂)

theorem strLess_iff_lex (a b : Str) : strLess a b = true ↔ List.Lex (· < ·) a b := by
  induction a generalizing b with
  | nil =>
    cases b with
    | nil => simp [strLess]
    | cons y ys => simp [strLess, List.Lex.nil]
  | cons x xs ih =>
    cases b with
    | nil => simp [strLess]
    | cons y ys =>
      simp only [strLess, Bool.or_eq_true, Bool.and_eq_true, decide_eq_true_eq, ih]
      constructor
      · rintro (h | ⟨rfl, h⟩)
        · exact List.Lex.rel h
        · exact List.Lex.cons h
      · intro h
        cases h with
        | cons h => exact Or.inr ⟨rfl, h⟩
        | rel h => exact Or.inl h

/-! ## Lemmas: the listing and the table -/

theorem foldl_paresStep (hidden : Bool) (l : List FileInfo) (acc : InfoMap × List Str) :
    (l.foldl (paresStep hidden) acc).2 = acc.2 ++ (l.filter (shown hidden)).map FileInfo.name ∧
    ∀ key, (l.foldl (paresStep hidden) acc).1 key =
      match lastNamed (l.filter (shown hidden)) key with
      | some x => some x
      | none => acc.1 key := by
  induction l generalizing acc with
  | nil => simp [lastNamed]
  | cons fi rest ih =>
    rw [List.foldl_cons]
    by_cases hs : shown hidden fi = true
    · have hstep : paresStep hidden acc fi = (acc.1.set fi.name fi, acc.2 ++ [fi.name]) := by
        unfold shown at hs
        simp only [paresStep]
        rw [if_neg]
        cases hp : HasPrefix fi.name (ascii ".") <;> cases hidden <;> simp_all
      rw [hstep, List.filter_cons_of_pos hs]
      refine ⟨by simp [(ih _).1], fun key => ?_⟩
      rw [(ih _).2 key]
      simp only [lastNamed, InfoMap.set]
      cases lastNamed (List.filter (shown hidden) rest) key with
      | some y => rfl
      | none => by_cases hk : key = fi.name <;> simp [hk]
    · have hstep : paresStep hidden acc fi = acc := by
        unfold shown at hs
        simp only [paresStep]
        rw [if_pos]
        cases hp : HasPrefix fi.name (ascii ".") <;> cases hidden <;> simp_all
      rw [hstep, List.filter_cons_of_neg hs]
      exact ih acc

theorem paresStList_names (hidden : Bool) (l : List FileInfo) :
    (paresStList hidden l).1 = sortStrings ((l.filter (shown hidden)).map FileInfo.name) := by
  simp [paresStList, (foldl_paresStep hidden l _).1]

theorem paresStList_map (hidden : Bool) (l : List FileInfo) (key : Str) :
    (paresStList hidden l).2 key = lastNamed (l.filter (shown hidden)) key := by
  simp only [paresStList, (foldl_paresStep hidden l _).2 key]
  cases lastNamed (List.filter (shown hidden) l) key <;> rfl

theorem lastNamed_some {l : List FileInfo} {key : Str} {fi : FileInfo}
    (h : lastNamed l key = some fi) : fi ∈ l ∧ fi.name = key := by
  induction l with
  | nil => simp [lastNamed] at h
  | cons x rest ih =>
    simp only [lastNamed] at h
    cases hr : lastNamed rest key with
    | some y =>
      rw [hr] at h
      simp only [Option.some.injEq] at h
      subst h
      exact ⟨List.mem_cons_of_mem _ (ih hr).1, (ih hr).2⟩
    | none =>
      rw [hr] at h
      by_cases hk : key = x.name
      · simp only [hk, if_true, Option.some.injEq] at h
        subst h
        exact ⟨List.mem_cons_self _ _, hk.symm⟩
      · simp [hk] at h

theorem lastNamed_isSome {l : List FileInfo} {key : Str} (h : key ∈ l.map FileInfo.name) :
    ∃ fi, lastNamed l key = some fi := by
  induction l with
  | nil => simp at h
  | cons x rest ih =>
    simp only [lastNamed]
    cases hr : lastNamed rest key with
    | some y => exact ⟨y, rfl⟩
    | none =>
      simp only [List.map_cons, List.mem_cons] at h
      rcases h with h | h
      · exact ⟨x, by simp [h]⟩
      · obtain ⟨fi, hfi⟩ := ih h
        rw [hr] at hfi
        cases hfi

theorem lastNamed_of_nodup {l : List FileInfo} (hn : (l.map FileInfo.name).Nodup)
    {fi : FileInfo} (h : fi ∈ l) : lastNamed l fi.name = some fi := by
  obtain ⟨x, hx⟩ := lastNamed_isSome (List.mem_map_of_mem FileInfo.name h)
  obtain ⟨hmem, hname⟩ := lastNamed_some hx
  rw [hx, List.inj_on_of_nodup_map hn hmem h hname]

theorem lastNamed_perm {l₁ l₂ : List FileInfo} (hn : (l₁.map FileInfo.name).Nodup)
    (hp : l₁.Perm l₂) (key : Str) : lastNamed l₁ key = lastNamed l₂ key := by
  have hn2 : (l₂.map FileInfo.name).Nodup := (hp.map _).nodup_iff.1 hn
  cases h1 : lastNamed l₁ key with
  | some fi =>
    obtain ⟨hmem, hname⟩ := lastNamed_some h1
    rw [← hname, lastNamed_of_nodup hn2 (hp.mem_iff.1 hmem)]
  | none =>
    cases h2 : lastNamed l₂ key with
    | none => rfl
    | some fi =>
      obtain ⟨hmem, hname⟩ := lastNamed_some h2
      rw [← hname, lastNamed_of_nodup hn (hp.mem_iff.2 hmem)] at h1
      cases h1

theorem foldl_tableStep (lib : Lib) (m : InfoMap) (names : List Str) (b : Str)
    (h : ∀ n ∈ names, ∃ fi, m n = some fi) :
    names.foldl (tableStep lib m) (some b) =
      some (b ++ rowsOf lib ((names.filter (fun n => decide (n ≠ ascii "index.htm;"))).filterMap m)) := by
  induction names generalizing b with
  | nil => simp [rowsOf]
  | cons n rest ih =>
    obtain ⟨fi, hfi⟩ := h n (List.mem_cons_self _ _)
    have hrest : ∀ n ∈ rest, ∃ fi, m n = some fi := fun k hk => h k (List.mem_cons_of_mem _ hk)
    rw [List.foldl_cons]
    by_cases hn : n = ascii "index.htm;"
    · have : tableStep lib m (some b) n = some b := by simp [tableStep, hn]
      rw [this, ih b hrest, List.filter_cons_of_neg (by simp [hn])]
    · have : tableStep lib m (some b) n = some (b ++ row lib fi) := by simp [tableStep, hn, hfi]
      rw [this, ih _ hrest, List.filter_cons_of_pos (by simp [hn])]
      simp [List.filterMap_cons, hfi, rowsOf]

theorem paresStList_lookup (hidden : Bool) (l : List FileInfo) :
    ∀ n ∈ (paresStList hidden l).1, ∃ fi, (paresStList hidden l).2 n = some fi := by
  intro n hn
  rw [paresStList_names] at hn
  rw [paresStList_map]
  exact lastNamed_isSome ((sortStrings_perm _).mem_iff.1 hn)

theorem generateTable_eq (lib : Lib) (flags : Flags) (dir : Str) (l : List FileInfo) :
    generateTable lib flags dir l =
      some (tableOpen ++ rowsOf lib (tableEntries flags.hidden l) ++ tableClose) := by
  simp only [generateTable, tableEntries]
  rw [foldl_tableStep lib _ _ _ (paresStList_lookup flags.hidden l)]
  simp

theorem mem_tableEntries {hidden : Bool} {l : List FileInfo} {fi : FileInfo}
    (h : fi ∈ tableEntries hidden l) : fi ∈ l ∧ shown hidden fi = true := by
  simp only [tableEntries, List.mem_filterMap] at h
  obtain ⟨n, _, hn⟩ := h
  rw [paresStList_map] at hn
  have := (lastNamed_some hn).1
  rw [List.mem_filter] at this
  exact this

theorem tableEntries_perm {hidden : Bool} {l₁ l₂ : List FileInfo}
    (hn : (l₁.map FileInfo.name).Nodup) (hp : l₁.Perm l₂) :
    tableEntries hidden l₁ = tableEntries hidden l₂ := by
  have hf : (l₁.filter (shown hidden)).Perm (l₂.filter (shown hidden)) := hp.filter _
  have hnf : ((l₁.filter (shown hidden)).map FileInfo.name).Nodup :=
    hn.sublist ((List.filter_sublist l₁).map _)
  have hm : (paresStList hidden l₁).2 = (paresStList hidden l₂).2 := by
    funext key
    rw [paresStList_map, paresStList_map, lastNamed_perm hnf hf]
  simp only [tableEntries, hm, paresStList_names, sortStrings_congr (hf.map _)]

theorem hasPrefix_of_not_shown {fi : FileInfo} (h : shown false fi = true) :
    HasPrefix fi.name (ascii ".") = false := by
  unfold shown at h
  cases hp : HasPrefix fi.name (ascii ".") <;> simp_all

/-! ## Lemmas: rows -/

theorem row_eq (lib : Lib) (fi : FileInfo) :
    row lib fi = rowWith (iconOf lib fi) (Quote lib (linkTarget fi))
      (EscapeString (linkTarget fi)) (lib.formatTime fi.modTime) := by
  have e1 : ∀ x : Str, ascii "\n<tr>\n<td>" ++ (ascii "\t<i class=\"fas fa-" ++ x)
      = ascii "\n<tr>\n<td>\t<i class=\"fas fa-" ++ x := fun _ => rfl
  have e2 : ∀ x : Str, ascii "\"></i>" ++ (ascii "</td>\n<td>" ++ (ascii "<a href=" ++ x))
      = ascii "\"></i></td>\n<td><a href=" ++ x := fun _ => rfl
  have e3 : ∀ x : Str, ascii "</a>" ++ (ascii "</td>\n<td>" ++ x)
      = ascii "</a></td>\n<td>" ++ x := fun _ => rfl
  simp only [row, rowWith, iconOf, linkTarget, List.append_assoc, e1, e2, e3]

theorem rowWith_length_pos (icon href text time : Str) :
    0 < (rowWith icon href text time).length := by
  simp [rowWith, ascii]

theorem row_length_pos (lib : Lib) (fi : FileInfo) : 0 < (row lib fi).length := by
  rw [row_eq]
  exact rowWith_length_pos _ _ _ _

theorem mem_escapeByte {c x : Nat} (h : x ∈ escapeByte c) :
    x ≠ 60 ∧ x ≠ 62 ∧ x ≠ 34 ∧ x ≠ 39 := by
  unfold escapeByte at h
  split at h
  · revert x; decide
  split at h
  · revert x; decide
  split at h
  · revert x; decide
  split at h
  · revert x; decide
  split at h
  · revert x; decide
  · simp only [List.mem_singleton] at h
    subst h
    omega

theorem mem_EscapeString {s : Str} {x : Nat} (h : x ∈ EscapeString s) :
    x ≠ 60 ∧ x ≠ 62 ∧ x ≠ 34 ∧ x ≠ 39 := by
  induction s with
  | nil => simp [EscapeString] at h
  | cons c rest ih =>
    simp only [EscapeString, List.mem_append] at h
    rcases h with h | h
    · exact mem_escapeByte h
    · exact ih h

theorem ampsBeginEntities_escapeByte (c : Nat) (t : Str) (h : ampsBeginEntities t = true) :
    ampsBeginEntities (escapeByte c ++ t) = true := by
  unfold escapeByte
  split
  · simp [ascii, ampsBeginEntities, entities, h]
  split
  · simp [ascii, ampsBeginEntities, entities, h]
  split
  · simp [ascii, ampsBeginEntities, entities, h]
  split
  · simp [ascii, ampsBeginEntities, entities, h]
  split
  · simp [ascii, ampsBeginEntities, entities, h]
  · rename_i h38 _ _ _ _
    simp [ampsBeginEntities, h, h38]

theorem ampsBeginEntities_EscapeString (s : Str) : ampsBeginEntities (EscapeString s) = true := by
  induction s with
  | nil => rfl
  | cons c rest ih => exact ampsBeginEntities_escapeByte c _ ih

theorem ampsBeginEntities_spec {t : Str} (h : ampsBeginEntities t = true) (p q : Str)
    (e : t = p ++ 38 :: q) : ∃ r ∈ entities, r <+: 38 :: q := by
  induction p generalizing t with
  | nil =>
    subst e
    simp only [List.nil_append, ampsBeginEntities, bne_self_eq_false, Bool.false_or,
      Bool.and_eq_true, List.any_eq_true] at h
    obtain ⟨⟨r, hr, hp⟩, _⟩ := h
    exact ⟨r, hr, List.isPrefixOf_iff_prefix.1 hp⟩
  | cons x p ih =>
    subst e
    simp only [List.cons_append, ampsBeginEntities, Bool.and_eq_true] at h
    exact ih h.2 rfl

theorem unescapeEntities_escapeByte (c : Nat) (t : Str) :
    unescapeEntities (escapeByte c ++ t) = c :: unescapeEntities t := by
  unfold escapeByte
  split
  · subst_vars; simp [ascii, unescapeEntities]
  split
  · subst_vars; simp [ascii, unescapeEntities]
  split
  · subst_vars; simp [ascii, unescapeEntities]
  split
  · subst_vars; simp [ascii, unescapeEntities]
  split
  · subst_vars; simp [ascii, unescapeEntities]
  · rename_i h38 _ _ _ _
    rw [List.singleton_append, unescapeEntities]
    all_goals simp_all

theorem unescapeEntities_EscapeString (s : Str) : unescapeEntities (EscapeString s) = s := by
  induction s with
  | nil => rfl
  | cons c rest ih => rw [EscapeString, unescapeEntities_escapeByte, ih]

theorem quoteLoop_plain (lib : Lib) (s : Str)
    (h : ∀ c ∈ s, 32 ≤ c ∧ c < 127 ∧ c ≠ 34 ∧ c ≠ 92) : quoteLoop lib 0 s = s := by
  induction s with
  | nil => rfl
  | cons c rest ih =>
    obtain ⟨h1, h2, h3, h4⟩ := h c (List.mem_cons_self _ _)
    have hq : quoteByte c = [c] := by
      unfold quoteByte
      rw [if_neg (by omega), if_pos ⟨h1, h2⟩]
    rw [quoteLoop, if_pos (by omega), hq, ih (fun x hx => h x (List.mem_cons_of_mem _ hx))]
    rfl

theorem mapGet_of_not_mem {m : List (Str × Str)} {k : Str} (h : k ∉ m.map Prod.fst) :
    mapGet m k = [] := by
  induction m with
  | nil => rfl
  | cons e rest ih =>
    obtain ⟨k1, v⟩ := e
    simp only [List.map_cons, List.mem_cons, not_or] at h
    simp [mapGet, Ne.symm h.1, ih h.2]

/-! ## Lemmas: files and pages -/

theorem lookupNode_append_of_none {es : List (Str × Node)} {name : Str} (x : Node)
    (h : lookupNode es name = none) : lookupNode (es ++ [(name, x)]) name = some x := by
  induction es with
  | nil => simp [lookupNode]
  | cons e rest ih =>
    obtain ⟨n, y⟩ := e
    simp only [lookupNode] at h
    by_cases hn : n = name
    · simp [hn] at h
    · simp only [hn, if_false] at h
      simp [lookupNode, hn, ih h]

theorem lookupNode_replaceNode {es : List (Str × Node)} {name : Str} {x : Node} (y : Node)
    (h : lookupNode es name = some x) : lookupNode (replaceNode es name y) name = some y := by
  induction es with
  | nil => simp [lookupNode] at h
  | cons e rest ih =>
    obtain ⟨n, z⟩ := e
    simp only [lookupNode] at h
    by_cases hn : n = name
    · simp [replaceNode, lookupNode, hn]
    · simp only [hn, if_false] at h
      simp [replaceNode, lookupNode, hn, ih h]

theorem WriteFile_eq_some {now : Int} {d d1 : DirState} {name data : Str}
    (h : WriteFile now d name data = some d1) :
    lookupNode d1.entries name = some (.file data now
      (match lookupNode d.entries name with | some (.file _ _ r _) => r | _ => true) true) := by
  unfold WriteFile at h
  split at h
  · rename_i hl
    split at h
    · cases h
      simp [hl, lookupNode_append_of_none _ hl]
    · cases h
  · rename_i hl
    cases h
    simp [hl, lookupNode_replaceNode _ hl]
  · cases h

theorem contentOf_WriteFile {now : Int} {d d1 : DirState} {name data : Str}
    (h : WriteFile now d name data = some d1) : contentOf d1.entries name = some data := by
  simp [contentOf, WriteFile_eq_some h]

theorem WriteFile_replace {now : Int} {d : DirState} {name : Str} {c0 : Str} {t0 : Int} {r : Bool}
    (data : Str) (h : lookupNode d.entries name = some (.file c0 t0 r true)) :
    WriteFile now d name data =
      some ⟨replaceNode d.entries name (.file data now r true), d.modTime, d.creatable⟩ := by
  simp [WriteFile, h]

theorem WriteFile_create {now : Int} {d : DirState} {name : Str}
    (data : Str) (h : lookupNode d.entries name = none) (hc : d.creatable = true) :
    WriteFile now d name data =
      some ⟨d.entries ++ [(name, .file data now true true)], now, d.creatable⟩ := by
  simp [WriteFile, h, hc]

theorem readOrEmpty_eq (es : List (Str × Node)) (name : Str) :
    readOrEmpty es name = (match ReadFile es name with | some b => b | none => []) := rfl

theorem safeToReplace_of_read {es : List (Str × Node)} {fn b : Str}
    (h : ReadFile es fn = some b) : safeToReplace es fn = true ↔ magic <:+: b := by
  simp only [safeToReplace, h, ← bytesContains_iff]
  cases bytesContains b magic <;> simp

theorem magic_infix_pageOf (lib : Lib) (header table readme : Str) :
    magic <:+: pageOf lib header table readme := by
  simp only [pageOf, List.append_assoc]
  exact ⟨ascii "<html>", _, List.append_assoc _ _ _⟩

theorem magic_infix_composed (lib : Lib) (flags : Flags) (d : DirState) (stList : List FileInfo) :
    magic <:+: composed lib flags d stList := by
  simp only [composed, pageOf, List.append_assoc]
  exact ⟨ascii "<html>", _, List.append_assoc _ _ _⟩

theorem composed_eq (lib : Lib) (flags : Flags) (d : DirState) (stList L : List FileInfo)
    (hH : ReadFile d.entries (ascii "HEADER.html") = none)
    (hR : ReadFile d.entries (ascii "README.html") = none)
    (hte : tableEntries flags.hidden stList = L) :
    composed lib flags d stList = pageOf lib [] (tableOpen ++ rowsOf lib L ++ tableClose) [] := by
  simp only [composed, hH, hR, hte]

theorem generateIndex_safe (lib : Lib) (flags : Flags) (now : Int) (dir : Str) (d : DirState)
    (stList : List FileInfo) (h : safeToReplace d.entries (ascii "index.html") = true) :
    generateIndex lib flags now dir d stList =
      match WriteFile now d (ascii "index.html") (composed lib flags d stList) with
      | some d1 => (d1, none)
      | none => (d, some (.write (lib.pathJoin dir (ascii "index.html")))) := by
  have hup : ascii "<div><a href=\"..\"><i class=\"fas fa-" ++ ascii "up-arrow"
      ++ ascii "\"></i> up</a></div>"
      = ascii "<div><a href=\"..\"><i class=\"fas fa-up-arrow\"></i> up</a></div>" := by decide
  simp only [generateIndex, h, generateTable_eq, composed, pageOf, readOrEmpty_eq, hup,
    Bool.not_true, Bool.false_eq_true, if_false, List.append_assoc]

theorem generateIndex_skip (lib : Lib) (flags : Flags) (now : Int) (dir : Str) (d : DirState)
    (stList : List FileInfo) (h : safeToReplace d.entries (ascii "index.html") = false) :
    generateIndex lib flags now dir d stList = (d, none) := by
  simp [generateIndex, h]

theorem generateIndex_create (lib : Lib) (flags : Flags) (now : Int) (dir : Str) (d : DirState)
    (stList : List FileInfo) (h : lookupNode d.entries (ascii "index.html") = none)
    (hc : d.creatable = true) :
    generateIndex lib flags now dir d stList =
      (⟨d.entries ++ [(ascii "index.html", .file (composed lib flags d stList) now true true)],
        now, d.creatable⟩, none) := by
  have hs : safeToReplace d.entries (ascii "index.html") = true := by
    simp [safeToReplace, ReadFile, h]
  rw [generateIndex_safe _ _ _ _ _ _ hs, WriteFile_create _ h hc]

theorem generateIndex_rewrite (lib : Lib) (flags : Flags) (now : Int) (dir : Str) (d : DirState)
    (stList : List FileInfo) (c0 : Str) (t0 : Int)
    (h : lookupNode d.entries (ascii "index.html") = some (.file c0 t0 true true))
    (hm : magic <:+: c0) :
    generateIndex lib flags now dir d stList =
      (⟨replaceNode d.entries (ascii "index.html")
          (.file (composed lib flags d stList) now true true), d.modTime, d.creatable⟩, none) := by
  have hr : ReadFile d.entries (ascii "index.html") = some c0 := by simp [ReadFile, h]
  have hs : safeToReplace d.entries (ascii "index.html") = true :=
    (safeToReplace_of_read hr).2 hm
  rw [generateIndex_safe _ _ _ _ _ _ hs, WriteFile_replace _ h]

/-! ## Lemmas: the walk -/

theorem processChildren_files (lib : Lib) (flags : Flags) (now : Int) (dir : Str)
    (es cur : List (Str × Node)) (h : ∀ e ∈ es, e.2.isDir = false) :
    processChildren lib flags now dir es cur = (cur, none) := by
  induction es with
  | nil => rw [processChildren]
  | cons e rest ih =>
    obtain ⟨n, x⟩ := e
    have hx : x.isDir = false := h (n, x) (List.mem_cons_self _ _)
    rw [processChildren]
    simp only [hx, Bool.false_eq_true, if_false]
    exact ih (fun e he => h e (List.mem_cons_of_mem _ he))

theorem processNode_files (lib : Lib) (flags : Flags) (now : Int) (dir : Str)
    (es : List (Str × Node)) (t : Int) (c : Bool) (h : ∀ e ∈ es, e.2.isDir = false) :
    processNode lib flags now dir (.dir es t true true c) =
      (.dir (generateIndex lib flags now dir ⟨es, t, c⟩ (es.map infoOf)).1.entries
        (generateIndex lib flags now dir ⟨es, t, c⟩ (es.map infoOf)).1.modTime true true c,
       (generateIndex lib flags now dir ⟨es, t, c⟩ (es.map infoOf)).2) := by
  rw [processNode]
  simp only [Bool.not_true, Bool.false_eq_true, if_false]
  rcases hg : generateIndex lib flags now dir ⟨es, t, c⟩ (es.map infoOf) with ⟨d1, _ | err⟩
  · simp only [processChildren_files lib flags now dir es _ h]
    cases flags.recursiveOpt <;> rfl
  · rfl

/-! ## Claims C1 to C10 -/

/-- C1, as stated, fails in both directions.  A read-only `index.html` whose
content is the marker keeps that content, which is not the composed page,
although it contains the marker; and an unreadable, writable `index.html`
whose content has no marker is overwritten. -/
theorem generateIndex_overwrite_counterexample :
    (contentOf readOnlyIndexDir.entries (ascii "index.html") = some magic ∧
      magic <:+: magic ∧
      contentOf (generateIndex sampleLib ⟨false, false⟩ 1 (ascii "d") readOnlyIndexDir
          (readOnlyIndexDir.entries.map infoOf)).1.entries (ascii "index.html")
        ≠ some (composed sampleLib ⟨false, false⟩ readOnlyIndexDir
            (readOnlyIndexDir.entries.map infoOf))) ∧
    (contentOf unreadableIndexDir.entries (ascii "index.html") = some (ascii "hand-written") ∧
      ¬ magic <:+: ascii "hand-written" ∧
      contentOf (generateIndex sampleLib ⟨false, false⟩ 1 (ascii "d") unreadableIndexDir
          (unreadableIndexDir.entries.map infoOf)).1.entries (ascii "index.html")
        ≠ some (ascii "hand-written")) := by
  refine ⟨⟨by decide, ⟨[], [], by simp⟩, by decide⟩, by decide, ?_, by decide⟩
  rw [← bytesContains_iff]
  decide

/-- C1, amended. For a readable `index.html` with content `C`: when `C`
lacks the marker the call writes nothing, returns no error and leaves the
directory as it was, with `C` in `index.html`; when `C` contains the marker
and the call returns no error, the content is the composed page; so for a
call that returns no error the content afterwards is the composed page
exactly when `C` contains the marker.  The content is the composed page only
if `C` contains the marker, and an error is returned only if it does.
Nothing is stated about the content after a call that returns an error. -/
theorem generateIndex_overwrite (lib : Lib) (flags : Flags) (now : Int) (dir : Str)
    (d : DirState) (stList : List FileInfo) (C : Str) (t : Int) (w : Bool)
    (h : lookupNode d.entries (ascii "index.html") = some (.file C t true w)) :
    (¬ magic <:+: C →
      generateIndex lib flags now dir d stList = (d, none) ∧
      contentOf (generateIndex lib flags now dir d stList).1.entries (ascii "index.html")
        = some C) ∧
    (magic <:+: C → (generateIndex lib flags now dir d stList).2 = none →
      contentOf (generateIndex lib flags now dir d stList).1.entries (ascii "index.html")
        = some (composed lib flags d stList)) ∧
    ((generateIndex lib flags now dir d stList).2 = none →
      (contentOf (generateIndex lib flags now dir d stList).1.entries (ascii "index.html")
        = some (composed lib flags d stList) ↔ magic <:+: C)) ∧
    (contentOf (generateIndex lib flags now dir d stList).1.entries (ascii "index.html")
        = some (composed lib flags d stList) → magic <:+: C) ∧
    ((generateIndex lib flags now dir d stList).2 ≠ none → magic <:+: C) := by
  have hread : ReadFile d.entries (ascii "index.html") = some C := by simp [ReadFile, h]
  have hcont : contentOf d.entries (ascii "index.html") = some C := by simp [contentOf, h]
  have hsafe := safeToReplace_of_read hread
  have hno : ¬ magic <:+: C → generateIndex lib flags now dir d stList = (d, none) := by
    intro hm
    refine generateIndex_skip _ _ _ _ _ _ ?_
    cases hs : safeToReplace d.entries (ascii "index.html")
    · rfl
    · exact absurd (hsafe.1 hs) hm
  have hyes : magic <:+: C → (generateIndex lib flags now dir d stList).2 = none →
      contentOf (generateIndex lib flags now dir d stList).1.entries (ascii "index.html")
        = some (composed lib flags d stList) := by
    intro hm
    rw [generateIndex_safe _ _ _ _ _ _ (hsafe.2 hm)]
    cases hwr : WriteFile now d (ascii "index.html") (composed lib flags d stList) with
    | none => intro he; cases he
    | some d1 => exact fun _ => contentOf_WriteFile hwr
  have hpage : contentOf (generateIndex lib flags now dir d stList).1.entries
      (ascii "index.html") = some (composed lib flags d stList) → magic <:+: C := by
    intro hc
    by_contra hm
    rw [hno hm, hcont] at hc
    simp only [Option.some.injEq] at hc
    exact hm (hc ▸ magic_infix_composed lib flags d stList)
  refine ⟨fun hm => ⟨hno hm, by rw [hno hm]; exact hcont⟩, hyes,
    fun he => ⟨hpage, fun hm => hyes hm he⟩, hpage, ?_⟩
  intro he
  by_contra hm
  rw [hno hm] at he
  exact he rfl

/-- Witness for the amended C1: a writable `index.html` that carries the
marker is replaced by the composed page. -/
theorem generateIndex_overwrite_witness :
    lookupNode [(ascii "index.html", Node.file magic 0 true true)] (ascii "index.html")
      = some (.file magic 0 true true) ∧
    magic <:+: magic ∧
    (generateIndex sampleLib ⟨false, false⟩ 7 []
        ⟨[(ascii "index.html", .file magic 0 true true)], 0, true⟩ []).2 = none ∧
    contentOf (generateIndex sampleLib ⟨false, false⟩ 7 []
        ⟨[(ascii "index.html", .file magic 0 true true)], 0, true⟩ []).1.entries
        (ascii "index.html")
      = some (composed sampleLib ⟨false, false⟩
          ⟨[(ascii "index.html", .file magic 0 true true)], 0, true⟩ []) :=
  ⟨rfl, ⟨[], [], by simp⟩, rfl,
    (generateIndex_overwrite sampleLib ⟨false, false⟩ 7 []
      ⟨[(ascii "index.html", .file magic 0 true true)], 0, true⟩ [] magic 0 true rfl).2.1
      ⟨[], [], by simp⟩ rfl⟩

/-- C2. `safeToReplace` is true exactly when the read fails or the bytes read
contain the marker as a contiguous run; a file `p ++ marker ++ s` is safe, a
readable file without the marker is not. -/
theorem safeToReplace_iff (es : List (Str × Node)) (fn : Str) :
    (safeToReplace es fn = true ↔
      ReadFile es fn = none ∨ ∃ b, ReadFile es fn = some b ∧ magic <:+: b) ∧
    (∀ p s, ReadFile es fn = some (p ++ magic ++ s) → safeToReplace es fn = true) ∧
    (∀ b, ReadFile es fn = some b → ¬ magic <:+: b → safeToReplace es fn = false) := by
  have key : ∀ b, ReadFile es fn = some b →
      (safeToReplace es fn = true ↔ magic <:+: b) := fun b hb => safeToReplace_of_read hb
  refine ⟨?_, ?_, ?_⟩
  · cases hr : ReadFile es fn with
    | none => simp [safeToReplace, hr]
    | some b => simp [key b hr]
  · intro p s h
    exact (key _ h).2 ⟨p, s, rfl⟩
  · intro b h hn
    cases hs : safeToReplace es fn
    · rfl
    · exact absurd ((key b h).1 hs) hn

/-- C3. The names `paresStList` returns are in ascending byte-wise
lexicographic order (no later name is lexicographically less than an earlier
one) and are a permutation of the names of the entries that pass the hidden
filter; and two listings with pairwise distinct names that are permutations
of each other give the same table. -/
theorem paresStList_sorted_perm (hidden : Bool) (stList : List FileInfo) :
    (paresStList hidden stList).1.Pairwise (fun a b => ¬ List.Lex (· < ·) b a) ∧
    (paresStList hidden stList).1.Perm
      ((stList.filter (fun fi => !(HasPrefix fi.name (ascii ".") && !hidden))).map FileInfo.name) ∧
    ∀ (lib : Lib) (flags : Flags) (dir : Str) (other : List FileInfo),
      (stList.map FileInfo.name).Nodup → stList.Perm other →
      generateTable lib flags dir stList = generateTable lib flags dir other := by
  refine ⟨?_, ?_, ?_⟩
  · rw [paresStList_names]
    refine (sortStrings_sorted _).imp ?_
    intro a b hab hlex
    rw [← strLess_iff_lex] at hlex
    unfold strLE at hab
    rw [hab] at hlex
    cases hlex
  · rw [paresStList_names]
    exact sortStrings_perm _
  · intro lib flags dir other hn hp
    rw [generateTable_eq, generateTable_eq, tableEntries_perm hn hp]

/-- Witness for C3: the listing `sub, b.jpg, a.txt` and a rearrangement of it. -/
theorem paresStList_sorted_perm_witness :
    generateTable ⟨[], [], fun _ => [], id, fun s => (s, 1), fun d _ => d⟩ ⟨false, false⟩ []
        [⟨ascii "sub", true, 0⟩, ⟨ascii "b.jpg", false, 0⟩, ⟨ascii "a.txt", false, 0⟩] =
      generateTable ⟨[], [], fun _ => [], id, fun s => (s, 1), fun d _ => d⟩ ⟨false, false⟩ []
        [⟨ascii "a.txt", false, 0⟩, ⟨ascii "sub", true, 0⟩, ⟨ascii "b.jpg", false, 0⟩] :=
  (paresStList_sorted_perm false
      [⟨ascii "sub", true, 0⟩, ⟨ascii "b.jpg", false, 0⟩, ⟨ascii "a.txt", false, 0⟩]).2.2
    _ _ _ _ (by decide) (by decide)

/-- C4. With the hidden flag off no returned name starts with a dot and the
table is made of the rows of entries of the listing none of which starts
with a dot; with the hidden flag on the name of every entry of the listing
is returned. -/
theorem hidden_filter (lib : Lib) (recursiveOpt : Bool) (dir : Str) (stList : List FileInfo) :
    (∀ n ∈ (paresStList false stList).1, HasPrefix n (ascii ".") = false) ∧
    (generateTable lib ⟨recursiveOpt, false⟩ dir stList =
        some (tableOpen ++ rowsOf lib (tableEntries false stList) ++ tableClose) ∧
      ∀ fi ∈ tableEntries false stList, fi ∈ stList ∧ HasPrefix fi.name (ascii ".") = false) ∧
    (∀ fi ∈ stList, fi.name ∈ (paresStList true stList).1) := by
  refine ⟨?_, ⟨generateTable_eq _ _ _ _, ?_⟩, ?_⟩
  · intro n hn
    rw [paresStList_names] at hn
    have := (sortStrings_perm _).mem_iff.1 hn
    rw [List.mem_map] at this
    obtain ⟨fi, hfi, rfl⟩ := this
    exact hasPrefix_of_not_shown (List.mem_filter.1 hfi).2
  · intro fi hfi
    exact ⟨(mem_tableEntries hfi).1, hasPrefix_of_not_shown (mem_tableEntries hfi).2⟩
  · intro fi hfi
    rw [paresStList_names]
    refine (sortStrings_perm _).mem_iff.2 (List.mem_map_of_mem _ (List.mem_filter.2 ⟨hfi, ?_⟩))
    simp [shown]

/-- C5. The `href` attribute of a row does not carry the raw name when the
name holds a double quote or a backslash: `row` formats it with the verb
`%q`, so for the file named `a"b` the attribute is written `"a\"b"`, for
`a\b` it is written `"a\\b"`, and for the directory `a"b` it is written
`"a\"b/"`, whatever the library functions are, while the link text of the
same row is the HTML-escaped name. -/
theorem row_href_quoted (lib : Lib) :
    (row lib ⟨ascii "a\"b", false, 0⟩ =
        rowWith (ascii "file-alt") (ascii "\"a\\\"b\"") (ascii "a&#34;b") (lib.formatTime 0) ∧
      ascii "\"a\\\"b\"" ≠ [34] ++ ascii "a\"b" ++ [34]) ∧
    (row lib ⟨ascii "a\\b", false, 0⟩ =
        rowWith (ascii "file-alt") (ascii "\"a\\\\b\"") (ascii "a\\b") (lib.formatTime 0) ∧
      ascii "\"a\\\\b\"" ≠ [34] ++ ascii "a\\b" ++ [34]) ∧
    (row lib ⟨ascii "a\"b", true, 0⟩ =
        rowWith (ascii "folder-open") (ascii "\"a\\\"b/\"") (ascii "a&#34;b/")
          (lib.formatTime 0) ∧
      ascii "\"a\\\"b/\"" ≠ [34] ++ ascii "a\"b/" ++ [34]) :=
  ⟨⟨rfl, by decide⟩, ⟨rfl, by decide⟩, ⟨rfl, by decide⟩⟩

/-- Where the `href` attribute does carry the raw name: for an entry whose
name consists of printable ASCII characters other than the double quote and
the backslash, the characters between the enclosing double quotes of the
attribute are exactly the name, followed by `/` for a directory. -/
theorem row_href (lib : Lib) (fi : FileInfo)
    (h : ∀ c ∈ fi.name, 32 ≤ c ∧ c < 127 ∧ c ≠ 34 ∧ c ≠ 92) :
    row lib fi = rowWith (iconOf lib fi)
      ([34] ++ (if fi.isDir then fi.name ++ ascii "/" else fi.name) ++ [34])
      (EscapeString (linkTarget fi)) (lib.formatTime fi.modTime) := by
  have ht : ∀ c ∈ linkTarget fi, 32 ≤ c ∧ c < 127 ∧ c ≠ 34 ∧ c ≠ 92 := by
    intro c hc
    unfold linkTarget at hc
    split at hc
    · rw [List.mem_append] at hc
      rcases hc with hc | hc
      · exact h c hc
      · revert c; decide
    · exact h c hc
  rw [row_eq, Quote, quoteLoop_plain lib _ ht]
  rfl

/-- The row of the file `a<b>&c.txt`: the attribute holds the name as it is. -/
theorem row_href_witness :
    row sampleLib ⟨ascii "a<b>&c.txt", false, 3⟩ =
      rowWith (ascii "file-alt") (ascii "\"a<b>&c.txt\"") (ascii "a&lt;b&gt;&amp;c.txt")
        (ascii "t=3") :=
  row_href sampleLib ⟨ascii "a<b>&c.txt", false, 3⟩ (by decide)

/-- C6. The link text of a row is the HTML-escaped form of the string the
link target is made from (the name, plus `/` for a directory): it contains
none of `<`, `>`, the double quote and the single quote, every `&` in it
begins one of the five entity references, and replacing the entity references
by their characters gives that string back. -/
theorem row_link_text (lib : Lib) (fi : FileInfo) :
    row lib fi = rowWith (iconOf lib fi)
        (Quote lib (if fi.isDir then fi.name ++ ascii "/" else fi.name))
        (EscapeString (if fi.isDir then fi.name ++ ascii "/" else fi.name))
        (lib.formatTime fi.modTime) ∧
    (∀ c ∈ EscapeString (if fi.isDir then fi.name ++ ascii "/" else fi.name),
      c ≠ 60 ∧ c ≠ 62 ∧ c ≠ 34 ∧ c ≠ 39) ∧
    (∀ p q, EscapeString (if fi.isDir then fi.name ++ ascii "/" else fi.name) = p ++ 38 :: q →
      ∃ r ∈ entities, r <+: 38 :: q) ∧
    unescapeEntities (EscapeString (if fi.isDir then fi.name ++ ascii "/" else fi.name))
      = (if fi.isDir then fi.name ++ ascii "/" else fi.name) :=
  ⟨row_eq lib fi, fun _ hc => mem_EscapeString hc,
    fun p q e => ampsBeginEntities_spec (ampsBeginEntities_EscapeString _) p q e,
    unescapeEntities_EscapeString _⟩

/-- C7. A non-directory entry whose lower-cased name is not a key of the icon
table gets the icon `file-alt`; a directory gets `folder-open` whatever its
name, `.JPG` included; and two non-directory entries whose names have the
same lower-cased form get the same icon. -/
theorem row_icon (lib : Lib) :
    (∀ fi : FileInfo, fi.isDir = false → ToLower lib fi.name ∉ icons.map Prod.fst →
      row lib fi = rowWith (ascii "file-alt") (Quote lib fi.name) (EscapeString fi.name)
        (lib.formatTime fi.modTime)) ∧
    (∀ fi : FileInfo, fi.isDir = true →
      row lib fi = rowWith (ascii "folder-open") (Quote lib (fi.name ++ ascii "/"))
        (EscapeString (fi.name ++ ascii "/")) (lib.formatTime fi.modTime)) ∧
    (∀ t : Int, row lib ⟨ascii ".JPG", true, t⟩ =
      rowWith (ascii "folder-open") (ascii "\".JPG/\"") (ascii ".JPG/") (lib.formatTime t)) ∧
    (∀ a b : FileInfo, a.isDir = false → b.isDir = false →
      ToLower lib a.name = ToLower lib b.name →
      ∃ icon, row lib a = rowWith icon (Quote lib a.name) (EscapeString a.name)
          (lib.formatTime a.modTime) ∧
        row lib b = rowWith icon (Quote lib b.name) (EscapeString b.name)
          (lib.formatTime b.modTime)) := by
  refine ⟨?_, ?_, ?_, ?_⟩
  · intro fi hd hk
    rw [row_eq]
    simp only [iconOf, linkTarget, hd, mapGet_of_not_mem hk, if_true, if_false,
      Bool.false_eq_true]
    rfl
  · intro fi hd
    rw [row_eq]
    simp only [iconOf, linkTarget, hd, if_true]
  · intro t
    rw [row_eq]
    rfl
  · intro a b ha hb hab
    refine ⟨iconOf lib a, ?_, ?_⟩
    · rw [row_eq]
      simp only [linkTarget, ha, if_false, Bool.false_eq_true]
    · rw [row_eq]
      simp only [iconOf, linkTarget, ha, hb, hab, if_false, Bool.false_eq_true]

/-- Witness for C7: `notes.txt` gets `file-alt`, and `.JPG` and `.jpg` get
the same icon, `file-image`. -/
theorem row_icon_witness :
    row sampleLib ⟨ascii "notes.txt", false, 1⟩ =
        rowWith (ascii "file-alt") (ascii "\"notes.txt\"") (ascii "notes.txt") (ascii "t=1") ∧
    ∃ icon, row sampleLib ⟨ascii ".JPG", false, 1⟩ =
          rowWith icon (ascii "\".JPG\"") (ascii ".JPG") (ascii "t=1") ∧
        row sampleLib ⟨ascii ".jpg", false, 2⟩ =
          rowWith icon (ascii "\".jpg\"") (ascii ".jpg") (ascii "t=2") :=
  ⟨(row_icon sampleLib).1 ⟨ascii "notes.txt", false, 1⟩ rfl (by decide),
    (row_icon sampleLib).2.2.2 ⟨ascii ".JPG", false, 1⟩ ⟨ascii ".jpg", false, 2⟩ rfl rfl
      (by decide)⟩

/-- C8. The second of two runs on a directory that holds one file and no
index writes another page than the first: both runs return no error, the
first page lists `a.txt`, the second lists `a.txt` and `index.html`. -/
theorem process_twice (lib : Lib) (flags : Flags) (now1 now2 : Int) (dir : Str) (top : Bool)
    (c : Str) (t t0 : Int) :
    (process lib flags now1 dir top (some (oneFileDir c t t0))).2 = none ∧
    (process lib flags now2 dir top
      (process lib flags now1 dir top (some (oneFileDir c t t0))).1).2 = none ∧
    indexOf (process lib flags now1 dir top (some (oneFileDir c t t0))).1 =
      some (pageOf lib []
        (tableOpen ++ row lib ⟨ascii "a.txt", false, t⟩ ++ tableClose) []) ∧
    indexOf (process lib flags now2 dir top
        (process lib flags now1 dir top (some (oneFileDir c t t0))).1).1 =
      some (pageOf lib []
        (tableOpen ++ (row lib ⟨ascii "a.txt", false, t⟩
          ++ row lib ⟨ascii "index.html", false, now1⟩) ++ tableClose) []) ∧
    indexOf (process lib flags now2 dir top
        (process lib flags now1 dir top (some (oneFileDir c t t0))).1).1 ≠
      indexOf (process lib flags now1 dir top (some (oneFileDir c t t0))).1 := by
  have hte1 : tableEntries flags.hidden [⟨ascii "a.txt", false, t⟩] =
      [⟨ascii "a.txt", false, t⟩] := by
    cases flags.hidden <;> rfl
  have hte2 : tableEntries flags.hidden
      [⟨ascii "a.txt", false, t⟩, ⟨ascii "index.html", false, now1⟩] =
      [⟨ascii "a.txt", false, t⟩, ⟨ascii "index.html", false, now1⟩] := by
    cases flags.hidden <;> rfl
  have hf1 : ∀ e ∈ [(ascii "a.txt", Node.file c t true true)], e.2.isDir = false := by
    intro e he
    simp only [List.mem_singleton] at he
    subst he
    rfl
  have h1 : process lib flags now1 dir top (some (oneFileDir c t t0)) =
      (some (.dir [(ascii "a.txt", .file c t true true),
        (ascii "index.html", .file (pageOf lib []
          (tableOpen ++ rowsOf lib [⟨ascii "a.txt", false, t⟩] ++ tableClose) []) now1 true true)]
        now1 true true true), none) := by
    simp only [process, oneFileDir, processNode_files lib flags now1 dir _ t0 true hf1]
    rw [generateIndex_create lib flags now1 dir _ _ (by rfl) (by rfl)]
    simp only [List.map, infoOf, Node.isDir, Node.modTime]
    rw [composed_eq lib flags _ _ _ (by rfl) (by rfl) hte1]
    rfl
  generalize hp1 : pageOf lib []
    (tableOpen ++ rowsOf lib [⟨ascii "a.txt", false, t⟩] ++ tableClose) [] = page1 at h1
  have hm1 : magic <:+: page1 := hp1 ▸ magic_infix_pageOf _ _ _ _
  have hf2 : ∀ e ∈ [(ascii "a.txt", Node.file c t true true),
      (ascii "index.html", Node.file page1 now1 true true)], e.2.isDir = false := by
    intro e he
    simp only [List.mem_cons, List.mem_singleton, List.not_mem_nil, or_false] at he
    rcases he with he | he <;> subst he <;> rfl
  have h2 : process lib flags now2 dir top (some (.dir [(ascii "a.txt", .file c t true true),
        (ascii "index.html", .file page1 now1 true true)] now1 true true true)) =
      (some (.dir [(ascii "a.txt", .file c t true true),
        (ascii "index.html", .file (pageOf lib []
          (tableOpen ++ rowsOf lib [⟨ascii "a.txt", false, t⟩,
            ⟨ascii "index.html", false, now1⟩] ++ tableClose) []) now2 true true)]
        now1 true true true), none) := by
    simp only [process, processNode_files lib flags now2 dir _ now1 true hf2]
    rw [generateIndex_rewrite lib flags now2 dir _ _ page1 now1 (by rfl) hm1]
    simp only [List.map, infoOf, Node.isDir, Node.modTime]
    rw [composed_eq lib flags _ _ _ (by rfl) (by rfl) hte2]
    rfl
  rw [h1]
  simp only [h2]
  subst hp1
  have hA : indexOf (some (Node.dir [(ascii "a.txt", Node.file c t true true),
      (ascii "index.html", Node.file (pageOf lib []
        (tableOpen ++ rowsOf lib [⟨ascii "a.txt", false, t⟩] ++ tableClose) []) now1 true true)]
      now1 true true true)) = some (pageOf lib []
        (tableOpen ++ row lib ⟨ascii "a.txt", false, t⟩ ++ tableClose) []) := by
    simp only [rowsOf, List.append_nil]
    rfl
  have hB : indexOf (some (Node.dir [(ascii "a.txt", Node.file c t true true),
      (ascii "index.html", Node.file (pageOf lib []
        (tableOpen ++ rowsOf lib [⟨ascii "a.txt", false, t⟩,
          ⟨ascii "index.html", false, now1⟩] ++ tableClose) []) now2 true true)]
      now1 true true true)) = some (pageOf lib []
        (tableOpen ++ (row lib ⟨ascii "a.txt", false, t⟩
          ++ row lib ⟨ascii "index.html", false, now1⟩) ++ tableClose) []) := by
    simp only [rowsOf, List.append_nil]
    rfl
  refine ⟨trivial, trivial, hA, hB, ?_⟩
  rw [hA, hB]
  intro h
  have hl := congrArg (fun o => (o.map List.length)) h
  have hp := row_length_pos lib ⟨ascii "index.html", false, now1⟩
  simp only [pageOf, Option.map_some', List.length_append, Option.some.injEq,
    List.length_nil] at hl
  omega

/-- C9. For the listing `a.txt`, `b.jpg`, `sub` in any readdir order and the
hidden flag off, the table has the three rows `a.txt`, `b.jpg`, `sub/` in
that order, and the row of `b.jpg` carries the icon `file-alt`, as the row of
`a.txt` does; a non-recursive run adds `index.html` with that table to the
directory and leaves `sub` as it was. -/
theorem scenario_table (lib : Lib) (recursiveOpt : Bool) (dir : Str) (ta tb ts : Int)
    (stList : List FileInfo)
    (hp : stList.Perm [⟨ascii "a.txt", false, ta⟩, ⟨ascii "b.jpg", false, tb⟩,
      ⟨ascii "sub", true, ts⟩]) :
    generateTable lib ⟨recursiveOpt, false⟩ dir stList = some (scenarioTable lib ta tb ts) ∧
    ∀ (now t0 : Int) (top : Bool) (ca cb : Str) (se : List (Str × Node)) (so sl sc : Bool),
      process lib ⟨false, false⟩ now dir top
        (some (.dir [(ascii "a.txt", .file ca ta true true), (ascii "b.jpg", .file cb tb true true),
          (ascii "sub", .dir se ts so sl sc)] t0 true true true)) =
      (some (.dir [(ascii "a.txt", .file ca ta true true), (ascii "b.jpg", .file cb tb true true),
          (ascii "sub", .dir se ts so sl sc),
          (ascii "index.html", .file (pageOf lib [] (scenarioTable lib ta tb ts) []) now true true)]
        now true true true), none) := by
  have hte : tableEntries false [⟨ascii "a.txt", false, ta⟩, ⟨ascii "b.jpg", false, tb⟩,
      ⟨ascii "sub", true, ts⟩] = [⟨ascii "a.txt", false, ta⟩, ⟨ascii "b.jpg", false, tb⟩,
      ⟨ascii "sub", true, ts⟩] := rfl
  have hrows : tableOpen ++ rowsOf lib [⟨ascii "a.txt", false, ta⟩, ⟨ascii "b.jpg", false, tb⟩,
      ⟨ascii "sub", true, ts⟩] ++ tableClose = scenarioTable lib ta tb ts := by
    simp only [scenarioTable, rowsOf, row_eq, List.append_nil, List.append_assoc]
    rfl
  constructor
  · have hn : (stList.map FileInfo.name).Nodup := by
      rw [(hp.map FileInfo.name).nodup_iff]
      simp only [List.map]
      decide
    rw [generateTable_eq, tableEntries_perm hn hp, hte, hrows]
  · intro now t0 top ca cb se so sl sc
    simp only [process]
    rw [processNode]
    simp only [Bool.not_true, Bool.false_eq_true, if_false, Bool.not_false, if_true]
    rw [generateIndex_create lib _ now dir _ _ (by rfl) (by rfl)]
    simp only [List.map, infoOf, Node.isDir, Node.modTime]
    rw [composed_eq lib _ _ _ _ (by rfl) (by rfl) hte, hrows]
    rfl

/-- Witness for C9: the readdir order `sub`, `b.jpg`, `a.txt`. -/
theorem scenario_table_witness :
    generateTable sampleLib ⟨false, false⟩ (ascii "d")
        [⟨ascii "sub", true, 3⟩, ⟨ascii "b.jpg", false, 2⟩, ⟨ascii "a.txt", false, 1⟩] =
      some (scenarioTable sampleLib 1 2 3) :=
  (scenario_table sampleLib false (ascii "d") 1 2 3
    [⟨ascii "sub", true, 3⟩, ⟨ascii "b.jpg", false, 2⟩, ⟨ascii "a.txt", false, 1⟩]
    (by decide)).1

/-- C10. When `index.html` is safe to replace, `generateIndex` hands to the
write exactly the concatenation of `<html>`, the marker, `<head>`, the head
asset, the bytes of `HEADER.html` if readable, `</head>`, `<body>`, the body
asset, the up-one-level link, the table of `generateTable`, the bytes of
`README.html` if readable, `</body>` and `</html>`; and when no error is
returned that concatenation is the content of `index.html`. -/
theorem generateIndex_page (lib : Lib) (flags : Flags) (now : Int) (dir : Str) (d : DirState)
    (stList : List FileInfo) (h : safeToReplace d.entries (ascii "index.html") = true) :
    ∃ table, generateTable lib flags dir stList = some table ∧
      generateIndex lib flags now dir d stList =
        (match WriteFile now d (ascii "index.html")
            (ascii "<html>" ++ magic ++ ascii "<head>" ++ lib.headAsset
              ++ (match ReadFile d.entries (ascii "HEADER.html") with | some b => b | none => [])
              ++ ascii "</head>" ++ ascii "<body>" ++ lib.bodyAsset
              ++ ascii "<div><a href=\"..\"><i class=\"fas fa-up-arrow\"></i> up</a></div>"
              ++ table
              ++ (match ReadFile d.entries (ascii "README.html") with | some b => b | none => [])
              ++ ascii "</body>" ++ ascii "</html>") with
          | some d1 => (d1, none)
          | none => (d, some (.write (lib.pathJoin dir (ascii "index.html"))))) ∧
      ((generateIndex lib flags now dir d stList).2 = none →
        contentOf (generateIndex lib flags now dir d stList).1.entries (ascii "index.html") =
          some (ascii "<html>" ++ magic ++ ascii "<head>" ++ lib.headAsset
              ++ (match ReadFile d.entries (ascii "HEADER.html") with | some b => b | none => [])
              ++ ascii "</head>" ++ ascii "<body>" ++ lib.bodyAsset
              ++ ascii "<div><a href=\"..\"><i class=\"fas fa-up-arrow\"></i> up</a></div>"
              ++ table
              ++ (match ReadFile d.entries (ascii "README.html") with | some b => b | none => [])
              ++ ascii "</body>" ++ ascii "</html>")) := by
  refine ⟨_, generateTable_eq lib flags dir stList, ?_, ?_⟩
  · exact generateIndex_safe lib flags now dir d stList h
  · rw [generateIndex_safe lib flags now dir d stList h]
    cases hw : WriteFile now d (ascii "index.html") (composed lib flags d stList) with
    | none => simp
    | some d1 =>
      intro _
      exact contentOf_WriteFile hw

/-- Witness for C10: a directory with a `HEADER.html` and no `index.html`. -/
theorem generateIndex_page_witness :
    safeToReplace headerDir.entries (ascii "index.html") = true ∧
    ∃ table, generateTable sampleLib ⟨false, false⟩ (ascii "d") (headerDir.entries.map infoOf)
        = some table ∧
      contentOf (generateIndex sampleLib ⟨false, false⟩ 10 (ascii "d") headerDir
          (headerDir.entries.map infoOf)).1.entries (ascii "index.html") =
        some (ascii "<html>" ++ magic ++ ascii "<head>" ++ sampleLib.headAsset
          ++ ascii "<style></style>"
          ++ ascii "</head>" ++ ascii "<body>" ++ sampleLib.bodyAsset
          ++ ascii "<div><a href=\"..\"><i class=\"fas fa-up-arrow\"></i> up</a></div>"
          ++ table ++ [] ++ ascii "</body>" ++ ascii "</html>") := by
  refine ⟨by decide, ?_⟩
  obtain ⟨table, ht, _, hc⟩ := generateIndex_page sampleLib ⟨false, false⟩ 10 (ascii "d")
    headerDir (headerDir.entries.map infoOf) (by decide)
  exact ⟨table, ht, hc (by decide)⟩

/-! ## Lemmas: the map of the listing -/

theorem lastNamed_eq_none {l : List FileInfo} {key : Str} (h : key ∉ l.map FileInfo.name) :
    lastNamed l key = none := by
  cases hl : lastNamed l key with
  | none => rfl
  | some fi =>
    obtain ⟨hmem, hname⟩ := lastNamed_some hl
    exact absurd (hname ▸ List.mem_map_of_mem FileInfo.name hmem) h

theorem lastNamed_split {l : List FileInfo} {key : Str} {fi : FileInfo}
    (h : lastNamed l key = some fi) :
    ∃ pre post, l = pre ++ fi :: post ∧ ∀ x ∈ post, x.name ≠ key := by
  induction l with
  | nil => simp [lastNamed] at h
  | cons x rest ih =>
    simp only [lastNamed] at h
    cases hr : lastNamed rest key with
    | some y =>
      rw [hr] at h
      simp only [Option.some.injEq] at h
      subst h
      obtain ⟨pre, post, e, hp⟩ := ih hr
      exact ⟨x :: pre, post, by rw [e]; rfl, hp⟩
    | none =>
      rw [hr] at h
      by_cases hk : key = x.name
      · simp only [hk, if_true, Option.some.injEq] at h
        subst h
        refine ⟨[], rest, rfl, fun z hz hzn => ?_⟩
        obtain ⟨w, hw⟩ := lastNamed_isSome (hzn ▸ List.mem_map_of_mem FileInfo.name hz)
        rw [hw] at hr
        cases hr
      · simp [hk] at h

theorem shown_congr (hidden : Bool) {a b : FileInfo} (h : a.name = b.name) :
    shown hidden a = shown hidden b := by
  simp [shown, h]

theorem lastNamed_filter {hidden : Bool} {l : List FileInfo} {key : Str} {fi : FileInfo}
    (h : lastNamed (l.filter (shown hidden)) key = some fi) : lastNamed l key = some fi := by
  induction l with
  | nil => simp [lastNamed] at h
  | cons x rest ih =>
    by_cases hs : shown hidden x = true
    · rw [List.filter_cons_of_pos hs] at h
      simp only [lastNamed] at h ⊢
      cases hr : lastNamed (rest.filter (shown hidden)) key with
      | some y =>
        rw [hr] at h
        simp only [Option.some.injEq] at h
        subst h
        rw [ih hr]
      | none =>
        rw [hr] at h
        have hrest : lastNamed rest key = none := by
          cases hz : lastNamed rest key with
          | none => rfl
          | some z =>
            obtain ⟨hzm, hzn⟩ := lastNamed_some hz
            by_cases hk : key = x.name
            · have hsz : shown hidden z = true := by
                rw [shown_congr hidden (hzn.trans hk)]
                exact hs
              have hmem : key ∈ (rest.filter (shown hidden)).map FileInfo.name :=
                hzn ▸ List.mem_map_of_mem FileInfo.name (List.mem_filter.2 ⟨hzm, hsz⟩)
              obtain ⟨w, hw⟩ := lastNamed_isSome hmem
              rw [hw] at hr
              cases hr
            · simp [hk] at h
        rw [hrest]
        exact h
    · rw [List.filter_cons_of_neg hs] at h
      simp only [lastNamed]
      rw [ih h]

theorem names_eq_map_tableEntries (hidden : Bool) (l : List FileInfo) :
    (tableEntries hidden l).map FileInfo.name =
      (paresStList hidden l).1.filter (fun n => decide (n ≠ ascii "index.htm;")) := by
  unfold tableEntries
  generalize hN : (paresStList hidden l).1.filter (fun n => decide (n ≠ ascii "index.htm;")) = N
  have hsub : ∀ n ∈ N, n ∈ (paresStList hidden l).1 := by
    intro n hn
    rw [← hN] at hn
    exact (List.mem_filter.1 hn).1
  clear hN
  induction N with
  | nil => rfl
  | cons n rest ih =>
    obtain ⟨fi, hfi⟩ := paresStList_lookup hidden l n (hsub n (List.mem_cons_self _ _))
    have hname : fi.name = n := by
      rw [paresStList_map] at hfi
      exact (lastNamed_some hfi).2
    rw [List.filterMap_cons, hfi]
    simp only [List.map_cons, hname]
    rw [ih (fun k hk => hsub k (List.mem_cons_of_mem _ hk))]

theorem mem_tableEntries_of {hidden : Bool} {l : List FileInfo} {fi : FileInfo}
    (hn : (l.map FileInfo.name).Nodup) (hfi : fi ∈ l) (hs : shown hidden fi = true)
    (hne : fi.name ≠ ascii "index.htm;") : fi ∈ tableEntries hidden l := by
  have hmem : fi.name ∈ (tableEntries hidden l).map FileInfo.name := by
    rw [names_eq_map_tableEntries, List.mem_filter, paresStList_names]
    exact ⟨(sortStrings_perm _).mem_iff.2 (List.mem_map_of_mem _ (List.mem_filter.2 ⟨hfi, hs⟩)),
      by simpa using hne⟩
  rw [List.mem_map] at hmem
  obtain ⟨e, he, hename⟩ := hmem
  exact (List.inj_on_of_nodup_map hn (mem_tableEntries he).1 hfi hename) ▸ he

theorem map_name_infoOf (es : List (Str × Node)) :
    (es.map infoOf).map FileInfo.name = es.map Prod.fst := by
  induction es with
  | nil => rfl
  | cons e rest ih => simp [infoOf, ih]

/-! ## Lemmas: the icon of a listed file -/

theorem lowerByte_eq_dot {c : Nat} : lowerByte c = 46 ↔ c = 46 := by
  unfold lowerByte
  split <;> omega

theorem hasPrefix_dot (s : Str) : HasPrefix s (ascii ".") = true ↔ s.head? = some 46 := by
  cases s with
  | nil => simp [HasPrefix, ascii]
  | cons c rest =>
    have : ascii "." = [46] := rfl
    rw [this]
    simp [HasPrefix, List.isPrefixOf]
    exact eq_comm

theorem hasPrefix_ToLower (lib : Lib)
    (hlib : ∀ s, HasPrefix s (ascii ".") = false →
      HasPrefix (lib.unicodeToLower s) (ascii ".") = false)
    (s : Str) (h : HasPrefix s (ascii ".") = false) :
    HasPrefix (ToLower lib s) (ascii ".") = false := by
  unfold ToLower
  split
  · cases s with
    | nil => rfl
    | cons c rest =>
      cases hp : HasPrefix (List.map lowerByte (c :: rest)) (ascii ".") with
      | false => rfl
      | true =>
        rw [hasPrefix_dot] at hp
        simp only [List.map_cons, List.head?_cons, Option.some.injEq, lowerByte_eq_dot] at hp
        have : HasPrefix (c :: rest) (ascii ".") = true := by
          rw [hasPrefix_dot, hp]
          rfl
        rw [this] at h
        cases h
  · exact hlib s h

theorem icons_keys : ∀ e ∈ icons, e.1 = ascii "default" ∨ HasPrefix e.1 (ascii ".") = true := by
  decide

theorem mapGet_mem {m : List (Str × Str)} {k : Str} (h : mapGet m k ≠ []) :
    (k, mapGet m k) ∈ m := by
  induction m with
  | nil => exact absurd rfl h
  | cons e rest ih =>
    obtain ⟨k1, v⟩ := e
    by_cases hk : k1 = k
    · simp [mapGet, hk]
    · simp only [mapGet, hk, if_false] at h ⊢
      exact List.mem_cons_of_mem _ (ih h)

theorem iconOf_plain (lib : Lib) (fi : FileInfo) (hd : fi.isDir = false)
    (h : HasPrefix (ToLower lib fi.name) (ascii ".") = false) :
    iconOf lib fi = ascii "file-alt" := by
  have hdef : mapGet icons (ascii "default") = ascii "file-alt" := by decide
  simp only [iconOf, hd, Bool.false_eq_true, if_false, hdef]
  split
  · rfl
  · rename_i hne
    rcases icons_keys _ (mapGet_mem hne) with hk | hk
    · simp only at hk
      rw [hk, hdef]
    · simp only at hk
      rw [hk] at h
      cases h

/-! ## Lemmas: writes and lookups in a directory -/

theorem generateIndex_error {lib : Lib} {flags : Flags} {now : Int} {dir : Str} {d : DirState}
    {stList : List FileInfo} {e : Failure}
    (h : (generateIndex lib flags now dir d stList).2 = some e) :
    safeToReplace d.entries (ascii "index.html") = true ∧
    WriteFile now d (ascii "index.html") (composed lib flags d stList) = none ∧
    e = .write (lib.pathJoin dir (ascii "index.html")) ∧
    (generateIndex lib flags now dir d stList).1 = d := by
  cases hs : safeToReplace d.entries (ascii "index.html") with
  | false =>
    rw [generateIndex_skip _ _ _ _ _ _ hs] at h
    cases h
  | true =>
    rw [generateIndex_safe _ _ _ _ _ _ hs] at h ⊢
    cases hw : WriteFile now d (ascii "index.html") (composed lib flags d stList) with
    | none =>
      rw [hw] at h
      simp only [Option.some.injEq] at h
      exact ⟨rfl, rfl, h.symm, rfl⟩
    | some d1 =>
      rw [hw] at h
      cases h

theorem generateIndex_written {lib : Lib} {flags : Flags} {now : Int} {dir : Str} {d : DirState}
    {stList : List FileInfo} (hs : safeToReplace d.entries (ascii "index.html") = true)
    (h : (generateIndex lib flags now dir d stList).2 = none) :
    WriteFile now d (ascii "index.html") (composed lib flags d stList) =
      some (generateIndex lib flags now dir d stList).1 := by
  rw [generateIndex_safe _ _ _ _ _ _ hs] at h ⊢
  cases hw : WriteFile now d (ascii "index.html") (composed lib flags d stList) with
  | none =>
    rw [hw] at h
    cases h
  | some d1 => rfl

theorem safeToReplace_after_write {now : Int} {d d1 : DirState} {page : Str}
    (hw : WriteFile now d (ascii "index.html") page = some d1) (hm : magic <:+: page) :
    safeToReplace d1.entries (ascii "index.html") = true := by
  have hl := WriteFile_eq_some hw
  cases hr : ReadFile d1.entries (ascii "index.html") with
  | none => simp [safeToReplace, hr]
  | some b =>
    have hb : b = page := by
      simp only [ReadFile, hl] at hr
      split at hr
      · rename_i heq
        simp only [Option.some.injEq, Node.file.injEq] at heq
        simp only [Option.some.injEq] at hr
        rw [← hr, heq.1]
      · cases hr
    exact (safeToReplace_of_read hr).2 (hb ▸ hm)

theorem lookupNode_replaceNode_ne {cur : List (Str × Node)} {n name : Str} (y : Node)
    (h : name ≠ n) : lookupNode (replaceNode cur n y) name = lookupNode cur name := by
  induction cur with
  | nil => rfl
  | cons e rest ih =>
    obtain ⟨k, x⟩ := e
    by_cases hk : k = n
    · have hkn : k ≠ name := fun e => h (e ▸ hk)
      simp [replaceNode, lookupNode, hk, hkn, Ne.symm h]
    · by_cases hkn : k = name
      · subst hkn
        simp [replaceNode, lookupNode, hk]
      · simp [replaceNode, lookupNode, hk, hkn, ih]

theorem replaceNode_of_none {cur : List (Str × Node)} {n : Str} (y : Node)
    (h : lookupNode cur n = none) : replaceNode cur n y = cur := by
  induction cur with
  | nil => rfl
  | cons e rest ih =>
    obtain ⟨k, x⟩ := e
    by_cases hk : k = n
    · simp [lookupNode, hk] at h
    · simp only [lookupNode, hk, if_false] at h
      simp [replaceNode, hk, ih h]

theorem map_fst_replaceNode (cur : List (Str × Node)) (n : Str) (y : Node) :
    (replaceNode cur n y).map Prod.fst = cur.map Prod.fst := by
  induction cur with
  | nil => rfl
  | cons e rest ih =>
    obtain ⟨k, x⟩ := e
    by_cases hk : k = n
    · simp [replaceNode, hk]
    · simp [replaceNode, hk, ih]

theorem lookupNode_isSome_replaceNode (cur : List (Str × Node)) (n name : Str) (y : Node) :
    (lookupNode (replaceNode cur n y) name).isSome = (lookupNode cur name).isSome := by
  by_cases h : name = n
  · subst h
    cases hl : lookupNode cur name with
    | none => rw [replaceNode_of_none y hl, hl]
    | some x => rw [lookupNode_replaceNode y hl]; rfl
  · rw [lookupNode_replaceNode_ne y h]

theorem lookupNode_append_ne {es : List (Str × Node)} {n name : Str} (x : Node)
    (h : name ≠ n) : lookupNode (es ++ [(n, x)]) name = lookupNode es name := by
  induction es with
  | nil => simp [lookupNode, Ne.symm h]
  | cons e rest ih =>
    obtain ⟨k, z⟩ := e
    by_cases hk : k = name
    · simp [lookupNode, hk]
    · simp [lookupNode, hk, ih]

theorem lookupNode_mem {es : List (Str × Node)} {name : Str} {x : Node}
    (h : lookupNode es name = some x) : (name, x) ∈ es := by
  induction es with
  | nil => simp [lookupNode] at h
  | cons e rest ih =>
    obtain ⟨k, z⟩ := e
    by_cases hk : k = name
    · simp only [lookupNode, hk, if_true, Option.some.injEq] at h
      subst h
      subst hk
      exact List.mem_cons_self _ _
    · simp only [lookupNode, hk, if_false] at h
      exact List.mem_cons_of_mem _ (ih h)

theorem lookupNode_of_mem {es : List (Str × Node)} {name : Str} {x : Node}
    (hn : (es.map Prod.fst).Nodup) (h : (name, x) ∈ es) : lookupNode es name = some x := by
  induction es with
  | nil => simp at h
  | cons e rest ih =>
    obtain ⟨k, z⟩ := e
    simp only [List.map_cons, List.nodup_cons] at hn
    simp only [List.mem_cons, Prod.mk.injEq] at h
    rcases h with ⟨h1, h2⟩ | h
    · simp [lookupNode, h1, h2]
    · have hk : k ≠ name := by
        intro e
        exact hn.1 (e ▸ List.mem_map_of_mem Prod.fst h)
      simp only [lookupNode, hk, if_false]
      exact ih hn.2 h

theorem WriteFile_lookup_ne {now : Int} {d d1 : DirState} {n data name : Str}
    (h : WriteFile now d n data = some d1) (hne : name ≠ n) :
    lookupNode d1.entries name = lookupNode d.entries name := by
  unfold WriteFile at h
  split at h
  · split at h
    · cases h
      exact lookupNode_append_ne _ hne
    · cases h
  · cases h
    exact lookupNode_replaceNode_ne _ hne
  · cases h

theorem generateIndex_cases (lib : Lib) (flags : Flags) (now : Int) (dir : Str) (d : DirState)
    (stList : List FileInfo) :
    (generateIndex lib flags now dir d stList).1 = d ∨
    ((generateIndex lib flags now dir d stList).2 = none ∧
      WriteFile now d (ascii "index.html") (composed lib flags d stList) =
        some (generateIndex lib flags now dir d stList).1) := by
  cases hs : safeToReplace d.entries (ascii "index.html") with
  | false => exact Or.inl (by rw [generateIndex_skip _ _ _ _ _ _ hs])
  | true =>
    rw [generateIndex_safe _ _ _ _ _ _ hs]
    cases hw : WriteFile now d (ascii "index.html") (composed lib flags d stList) with
    | none => exact Or.inl rfl
    | some d1 => exact Or.inr ⟨rfl, rfl⟩

theorem generateIndex_lookup_ne (lib : Lib) (flags : Flags) (now : Int) (dir : Str)
    (d : DirState) (stList : List FileInfo) {name : Str} (hne : name ≠ ascii "index.html") :
    lookupNode (generateIndex lib flags now dir d stList).1.entries name =
      lookupNode d.entries name := by
  rcases generateIndex_cases lib flags now dir d stList with h | ⟨_, h⟩
  · rw [h]
  · exact WriteFile_lookup_ne h hne

theorem generateIndex_index_file (lib : Lib) (flags : Flags) (now : Int) (dir : Str)
    (d : DirState) (stList : List FileInfo) :
    (generateIndex lib flags now dir d stList).1 = d ∨
    ∃ r, lookupNode (generateIndex lib flags now dir d stList).1.entries (ascii "index.html") =
      some (.file (composed lib flags d stList) now r true) := by
  rcases generateIndex_cases lib flags now dir d stList with h | ⟨_, h⟩
  · exact Or.inl h
  · exact Or.inr ⟨_, WriteFile_eq_some h⟩

/-! ## Lemmas: the loop over the children -/

theorem recursedInto_false_iff (flags : Flags) (name : Str) (child : Node) :
    recursedInto flags (name, child) = false ↔
      (child.isDir = false ∨ (HasPrefix name (ascii ".") && flags.hidden) = true) := by
  unfold recursedInto
  cases child.isDir <;> cases (HasPrefix name (ascii ".") && flags.hidden) <;> simp

theorem recursedInto_true_iff (flags : Flags) (name : Str) (child : Node) :
    recursedInto flags (name, child) = true ↔
      (child.isDir = true ∧ (HasPrefix name (ascii ".") && flags.hidden) = false) := by
  unfold recursedInto
  cases child.isDir <;> cases (HasPrefix name (ascii ".") && flags.hidden) <;> simp

theorem processChildren_cons_skip (lib : Lib) (flags : Flags) (now : Int) (dir : Str) (name : Str) (child : Node) (rest cur : List (Str × Node))
    (h : recursedInto flags (name, child) = false) :
    processChildren lib flags now dir ((name, child) :: rest) cur =
      processChildren lib flags now dir rest cur := by
  rw [processChildren]
  rcases (recursedInto_false_iff flags name child).1 h with h1 | h1
  · simp [h1]
  · cases child.isDir <;> simp [h1]

theorem processChildren_cons_ok (lib : Lib) (flags : Flags) (now : Int) (dir : Str) (name : Str) (child : Node) (rest cur : List (Str × Node))
    (h : recursedInto flags (name, child) = true)
    (hok : (processNode lib flags now (lib.pathJoin dir name) child).2 = none) :
    processChildren lib flags now dir ((name, child) :: rest) cur =
      processChildren lib flags now dir rest
        (replaceNode cur name (processNode lib flags now (lib.pathJoin dir name) child).1) := by
  obtain ⟨h1, h2⟩ := (recursedInto_true_iff flags name child).1 h
  rw [processChildren]
  simp only [h1, h2, if_true, Bool.false_eq_true, if_false]
  rcases hp : processNode lib flags now (lib.pathJoin dir name) child with ⟨c1, _ | err⟩
  · rfl
  · rw [hp] at hok
    cases hok

theorem processChildren_cons_err (lib : Lib) (flags : Flags) (now : Int) (dir : Str) (name : Str) (child : Node) (rest cur : List (Str × Node))
    (h : recursedInto flags (name, child) = true) (err : Failure)
    (herr : (processNode lib flags now (lib.pathJoin dir name) child).2 = some err) :
    processChildren lib flags now dir ((name, child) :: rest) cur =
      (replaceNode cur name (processNode lib flags now (lib.pathJoin dir name) child).1,
        some err) := by
  obtain ⟨h1, h2⟩ := (recursedInto_true_iff flags name child).1 h
  rw [processChildren]
  simp only [h1, h2, if_true, Bool.false_eq_true, if_false]
  rcases hp : processNode lib flags now (lib.pathJoin dir name) child with ⟨c1, _ | e2⟩
  · rw [hp] at herr
    cases herr
  · rw [hp] at herr
    simp only [Option.some.injEq] at herr
    rw [herr]

theorem visitsChildren_cons_skip (lib : Lib) (flags : Flags) (now : Int) (dir : Str) (name : Str) (child : Node) (rest : List (Str × Node))
    (h : recursedInto flags (name, child) = false) :
    visitsChildren lib flags now dir ((name, child) :: rest) =
      visitsChildren lib flags now dir rest := by
  rw [visitsChildren]
  rcases (recursedInto_false_iff flags name child).1 h with h1 | h1
  · simp [h1]
  · cases child.isDir <;> simp [h1]

theorem visitsChildren_cons_ok (lib : Lib) (flags : Flags) (now : Int) (dir : Str) (name : Str) (child : Node) (rest : List (Str × Node))
    (h : recursedInto flags (name, child) = true)
    (hok : (processNode lib flags now (lib.pathJoin dir name) child).2 = none) :
    visitsChildren lib flags now dir ((name, child) :: rest) =
      visitsNode lib flags now (lib.pathJoin dir name) child
        ++ visitsChildren lib flags now dir rest := by
  obtain ⟨h1, h2⟩ := (recursedInto_true_iff flags name child).1 h
  rw [visitsChildren]
  simp only [h1, h2, if_true, Bool.false_eq_true, if_false, hok]

theorem visitsChildren_cons_err (lib : Lib) (flags : Flags) (now : Int) (dir : Str) (name : Str) (child : Node) (rest : List (Str × Node))
    (h : recursedInto flags (name, child) = true) (err : Failure)
    (herr : (processNode lib flags now (lib.pathJoin dir name) child).2 = some err) :
    visitsChildren lib flags now dir ((name, child) :: rest) =
      visitsNode lib flags now (lib.pathJoin dir name) child := by
  obtain ⟨h1, h2⟩ := (recursedInto_true_iff flags name child).1 h
  rw [visitsChildren]
  simp only [h1, h2, if_true, Bool.false_eq_true, if_false, herr]

theorem processChildren_ok_iff (lib : Lib) (flags : Flags) (now : Int) (dir : Str)
    (es cur : List (Str × Node)) :
    (processChildren lib flags now dir es cur).2 = none ↔
      ∀ e ∈ es, recursedInto flags e = true →
        (processNode lib flags now (lib.pathJoin dir e.1) e.2).2 = none := by
  induction es generalizing cur with
  | nil => simp [processChildren]
  | cons e rest ih =>
    obtain ⟨name, child⟩ := e
    cases hr : recursedInto flags (name, child) with
    | false =>
      rw [processChildren_cons_skip lib flags now dir name child rest cur hr, ih]
      simp [hr]
    | true =>
      cases hp : (processNode lib flags now (lib.pathJoin dir name) child).2 with
      | none =>
        rw [processChildren_cons_ok lib flags now dir name child rest cur hr hp, ih]
        simp [hp]
      | some err =>
        rw [processChildren_cons_err lib flags now dir name child rest cur hr err hp]
        simp [hr, hp]

theorem map_fst_processChildren (lib : Lib) (flags : Flags) (now : Int) (dir : Str)
    (es cur : List (Str × Node)) :
    (processChildren lib flags now dir es cur).1.map Prod.fst = cur.map Prod.fst := by
  induction es generalizing cur with
  | nil => simp [processChildren]
  | cons e rest ih =>
    obtain ⟨name, child⟩ := e
    cases hr : recursedInto flags (name, child) with
    | false => rw [processChildren_cons_skip lib flags now dir name child rest cur hr, ih]
    | true =>
      cases hp : (processNode lib flags now (lib.pathJoin dir name) child).2 with
      | none =>
        rw [processChildren_cons_ok lib flags now dir name child rest cur hr hp, ih,
          map_fst_replaceNode]
      | some err =>
        rw [processChildren_cons_err lib flags now dir name child rest cur hr err hp]
        exact map_fst_replaceNode _ _ _

theorem processChildren_lookup_untouched (lib : Lib) (flags : Flags) (now : Int) (dir : Str)
    (es cur : List (Str × Node)) (name : Str)
    (h : ∀ child, (name, child) ∈ es → recursedInto flags (name, child) = false) :
    lookupNode (processChildren lib flags now dir es cur).1 name = lookupNode cur name := by
  induction es generalizing cur with
  | nil => simp [processChildren]
  | cons e rest ih =>
    obtain ⟨n, child⟩ := e
    have hrest : ∀ c, (name, c) ∈ rest → recursedInto flags (name, c) = false :=
      fun c hc => h c (List.mem_cons_of_mem _ hc)
    cases hr : recursedInto flags (n, child) with
    | false => rw [processChildren_cons_skip lib flags now dir n child rest cur hr, ih _ hrest]
    | true =>
      have hne : name ≠ n := by
        intro e
        subst e
        rw [h child (List.mem_cons_self _ _)] at hr
        cases hr
      cases hp : (processNode lib flags now (lib.pathJoin dir n) child).2 with
      | none =>
        rw [processChildren_cons_ok lib flags now dir n child rest cur hr hp, ih _ hrest,
          lookupNode_replaceNode_ne _ hne]
      | some err =>
        rw [processChildren_cons_err lib flags now dir n child rest cur hr err hp]
        exact lookupNode_replaceNode_ne _ hne

theorem processChildren_lookup_ok (lib : Lib) (flags : Flags) (now : Int) (dir : Str)
    (es cur : List (Str × Node)) (hn : (es.map Prod.fst).Nodup)
    (hok : (processChildren lib flags now dir es cur).2 = none)
    (name : Str) (child : Node) (hmem : (name, child) ∈ es)
    (hr : recursedInto flags (name, child) = true) (hcur : (lookupNode cur name).isSome = true) :
    lookupNode (processChildren lib flags now dir es cur).1 name =
      some (processNode lib flags now (lib.pathJoin dir name) child).1 := by
  induction es generalizing cur with
  | nil => simp at hmem
  | cons e rest ih =>
    obtain ⟨n, c⟩ := e
    simp only [List.map_cons, List.nodup_cons] at hn
    simp only [List.mem_cons, Prod.mk.injEq] at hmem
    rcases hmem with ⟨h1, h2⟩ | hmem
    · subst h1
      subst h2
      have hp : (processNode lib flags now (lib.pathJoin dir name) child).2 = none :=
        (processChildren_ok_iff lib flags now dir _ cur).1 hok _ (List.mem_cons_self _ _) hr
      rw [processChildren_cons_ok lib flags now dir name child rest cur hr hp]
      rw [processChildren_lookup_untouched]
      · obtain ⟨x, hx⟩ := Option.isSome_iff_exists.1 hcur
        exact lookupNode_replaceNode _ hx
      · intro c2 hc2
        exact absurd (List.mem_map_of_mem Prod.fst hc2) hn.1
    · have hne : name ≠ n := by
        intro e
        subst e
        exact hn.1 (List.mem_map_of_mem Prod.fst hmem)
      cases hrn : recursedInto flags (n, c) with
      | false =>
        rw [processChildren_cons_skip lib flags now dir n c rest cur hrn] at hok ⊢
        exact ih _ hn.2 hok hmem hcur
      | true =>
        have hp : (processNode lib flags now (lib.pathJoin dir n) c).2 = none :=
          (processChildren_ok_iff lib flags now dir _ cur).1 hok _ (List.mem_cons_self _ _) hrn
        rw [processChildren_cons_ok lib flags now dir n c rest cur hrn hp] at hok ⊢
        refine ih _ hn.2 hok hmem ?_
        rw [lookupNode_isSome_replaceNode]
        exact hcur

theorem processChildren_lookup_cases (lib : Lib) (flags : Flags) (now : Int) (dir : Str)
    (es cur : List (Str × Node)) (name : Str) :
    lookupNode (processChildren lib flags now dir es cur).1 name = lookupNode cur name ∨
    ∃ child, (name, child) ∈ es ∧ recursedInto flags (name, child) = true ∧
      lookupNode (processChildren lib flags now dir es cur).1 name =
        some (processNode lib flags now (lib.pathJoin dir name) child).1 := by
  induction es generalizing cur with
  | nil => exact Or.inl (by simp [processChildren])
  | cons e rest ih =>
    obtain ⟨n, c⟩ := e
    have lift : ∀ cur2 : List (Str × Node),
        (lookupNode (processChildren lib flags now dir rest cur2).1 name = lookupNode cur2 name ∨
          ∃ child, (name, child) ∈ rest ∧ recursedInto flags (name, child) = true ∧
            lookupNode (processChildren lib flags now dir rest cur2).1 name =
              some (processNode lib flags now (lib.pathJoin dir name) child).1) := fun cur2 => ih cur2
    have step : ∀ y : Node, recursedInto flags (n, c) = true →
        y = (processNode lib flags now (lib.pathJoin dir n) c).1 →
        (lookupNode (replaceNode cur n y) name = lookupNode cur name ∨
          ∃ child, (name, child) ∈ (n, c) :: rest ∧ recursedInto flags (name, child) = true ∧
            lookupNode (replaceNode cur n y) name =
              some (processNode lib flags now (lib.pathJoin dir name) child).1) := by
      intro y hrn hy
      by_cases hne : name = n
      · subst hne
        cases hl : lookupNode cur name with
        | none => exact Or.inl (by rw [replaceNode_of_none y hl, hl])
        | some x =>
          exact Or.inr ⟨c, List.mem_cons_self _ _, hrn, by rw [lookupNode_replaceNode y hl, hy]⟩
      · exact Or.inl (lookupNode_replaceNode_ne y hne)
    cases hrn : recursedInto flags (n, c) with
    | false =>
      rw [processChildren_cons_skip lib flags now dir n c rest cur hrn]
      rcases lift cur with h | ⟨child, hm, hr, h⟩
      · exact Or.inl h
      · exact Or.inr ⟨child, List.mem_cons_of_mem _ hm, hr, h⟩
    | true =>
      cases hp : (processNode lib flags now (lib.pathJoin dir n) c).2 with
      | none =>
        rw [processChildren_cons_ok lib flags now dir n c rest cur hrn hp]
        rcases lift (replaceNode cur n (processNode lib flags now (lib.pathJoin dir n) c).1)
          with h | ⟨child, hm, hr, h⟩
        · rw [h]
          exact step _ hrn rfl
        · exact Or.inr ⟨child, List.mem_cons_of_mem _ hm, hr, h⟩
      | some err =>
        rw [processChildren_cons_err lib flags now dir n c rest cur hrn err hp]
        exact step _ hrn rfl

/-! ## Lemmas: the walk and the tree -/

theorem visitsChildren_ok (lib : Lib) (flags : Flags) (now : Int) (dir : Str)
    (es : List (Str × Node))
    (h : ∀ e ∈ es, recursedInto flags e = true →
      (processNode lib flags now (lib.pathJoin dir e.1) e.2).2 = none) :
    visitsChildren lib flags now dir es =
      (es.filter (recursedInto flags)).flatMap
        (fun e => visitsNode lib flags now (lib.pathJoin dir e.1) e.2) := by
  induction es with
  | nil => simp [visitsChildren]
  | cons e rest ih =>
    obtain ⟨name, child⟩ := e
    have hrest := ih (fun e he => h e (List.mem_cons_of_mem _ he))
    cases hr : recursedInto flags (name, child) with
    | false =>
      rw [visitsChildren_cons_skip lib flags now dir name child rest hr, hrest,
        List.filter_cons_of_neg (by simp [hr])]
    | true =>
      rw [visitsChildren_cons_ok lib flags now dir name child rest hr
        (h _ (List.mem_cons_self _ _) hr), hrest, List.filter_cons_of_pos hr]
      simp

theorem processChildren_append_ok (lib : Lib) (flags : Flags) (now : Int) (dir : Str)
    (pre post cur : List (Str × Node))
    (h : (processChildren lib flags now dir pre cur).2 = none) :
    processChildren lib flags now dir (pre ++ post) cur =
      processChildren lib flags now dir post (processChildren lib flags now dir pre cur).1 := by
  induction pre generalizing cur with
  | nil => simp [processChildren]
  | cons e rest ih =>
    obtain ⟨name, child⟩ := e
    rw [List.cons_append]
    cases hr : recursedInto flags (name, child) with
    | false =>
      rw [processChildren_cons_skip lib flags now dir name child rest cur hr] at h ⊢
      rw [processChildren_cons_skip lib flags now dir name child _ cur hr]
      exact ih cur h
    | true =>
      have hp : (processNode lib flags now (lib.pathJoin dir name) child).2 = none :=
        (processChildren_ok_iff lib flags now dir _ cur).1 h _ (List.mem_cons_self _ _) hr
      rw [processChildren_cons_ok lib flags now dir name child rest cur hr hp] at h ⊢
      rw [processChildren_cons_ok lib flags now dir name child _ cur hr hp]
      exact ih _ h

theorem visitsChildren_append_ok (lib : Lib) (flags : Flags) (now : Int) (dir : Str)
    (pre post : List (Str × Node))
    (h : ∀ e ∈ pre, recursedInto flags e = true →
      (processNode lib flags now (lib.pathJoin dir e.1) e.2).2 = none) :
    visitsChildren lib flags now dir (pre ++ post) =
      visitsChildren lib flags now dir pre ++ visitsChildren lib flags now dir post := by
  induction pre with
  | nil => simp [visitsChildren]
  | cons e rest ih =>
    obtain ⟨name, child⟩ := e
    have hrest := ih (fun e he => h e (List.mem_cons_of_mem _ he))
    rw [List.cons_append]
    cases hr : recursedInto flags (name, child) with
    | false =>
      rw [visitsChildren_cons_skip lib flags now dir name child _ hr,
        visitsChildren_cons_skip lib flags now dir name child _ hr, hrest]
    | true =>
      have hp := h _ (List.mem_cons_self _ _) hr
      rw [visitsChildren_cons_ok lib flags now dir name child _ hr hp,
        visitsChildren_cons_ok lib flags now dir name child _ hr hp, hrest, List.append_assoc]

theorem processNode_dir_err (lib : Lib) (flags : Flags) (now : Int) (dir : Str)
    (es : List (Str × Node)) (t : Int) (c : Bool) (err : Failure)
    (h : (generateIndex lib flags now dir ⟨es, t, c⟩ (es.map infoOf)).2 = some err) :
    processNode lib flags now dir (.dir es t true true c) =
      (.dir es t true true c, some err) := by
  have hd := (generateIndex_error h).2.2.2
  rw [processNode]
  simp only [Bool.not_true, Bool.false_eq_true, if_false]
  rcases hg : generateIndex lib flags now dir ⟨es, t, c⟩ (es.map infoOf) with ⟨d1, _ | e2⟩
  · rw [hg] at h
    cases h
  · rw [hg] at h hd
    simp only [Option.some.injEq] at h
    simp only at hd
    rw [hd, h]

theorem processNode_dir_flat (lib : Lib) (flags : Flags) (now : Int) (dir : Str)
    (es : List (Str × Node)) (t : Int) (c : Bool)
    (h : (generateIndex lib flags now dir ⟨es, t, c⟩ (es.map infoOf)).2 = none)
    (hr : flags.recursiveOpt = false) :
    processNode lib flags now dir (.dir es t true true c) =
      (.dir (generateIndex lib flags now dir ⟨es, t, c⟩ (es.map infoOf)).1.entries
        (generateIndex lib flags now dir ⟨es, t, c⟩ (es.map infoOf)).1.modTime true true c,
        none) := by
  rw [processNode]
  simp only [Bool.not_true, Bool.false_eq_true, if_false, hr, Bool.not_false, if_true]
  rcases hg : generateIndex lib flags now dir ⟨es, t, c⟩ (es.map infoOf) with ⟨d1, _ | e2⟩
  · rfl
  · rw [hg] at h
    cases h

theorem processNode_dir_rec (lib : Lib) (flags : Flags) (now : Int) (dir : Str)
    (es : List (Str × Node)) (t : Int) (c : Bool)
    (h : (generateIndex lib flags now dir ⟨es, t, c⟩ (es.map infoOf)).2 = none)
    (hr : flags.recursiveOpt = true) :
    processNode lib flags now dir (.dir es t true true c) =
      (.dir (processChildren lib flags now dir es
          (generateIndex lib flags now dir ⟨es, t, c⟩ (es.map infoOf)).1.entries).1
        (generateIndex lib flags now dir ⟨es, t, c⟩ (es.map infoOf)).1.modTime true true c,
        (processChildren lib flags now dir es
          (generateIndex lib flags now dir ⟨es, t, c⟩ (es.map infoOf)).1.entries).2) := by
  rw [processNode]
  simp only [Bool.not_true, Bool.false_eq_true, if_false, hr]
  rcases hg : generateIndex lib flags now dir ⟨es, t, c⟩ (es.map infoOf) with ⟨d1, _ | e2⟩
  · rfl
  · rw [hg] at h
    cases h

theorem processNode_closed (lib : Lib) (flags : Flags) (now : Int) (dir : Str)
    (es : List (Str × Node)) (t : Int) (o l c : Bool) (h : o = false ∨ l = false) :
    (processNode lib flags now dir (.dir es t o l c)).1 = .dir es t o l c := by
  rw [processNode]
  rcases h with h | h
  · simp [h]
  · cases o <;> simp [h]

theorem visitsNode_dir_rec (lib : Lib) (flags : Flags) (now : Int) (dir : Str)
    (es : List (Str × Node)) (t : Int) (c : Bool)
    (h : (generateIndex lib flags now dir ⟨es, t, c⟩ (es.map infoOf)).2 = none)
    (hr : flags.recursiveOpt = true) :
    visitsNode lib flags now dir (.dir es t true true c) =
      dir :: visitsChildren lib flags now dir es := by
  rw [visitsNode]
  simp only [Bool.not_true, Bool.false_eq_true, if_false, hr, h]

theorem visitsNode_flat (lib : Lib) (flags : Flags) (now : Int) (dir : Str) (n : Node)
    (hr : flags.recursiveOpt = false) : visitsNode lib flags now dir n = [dir] := by
  cases n with
  | file content t r w => rw [visitsNode]
  | dir es t o l c =>
    rw [visitsNode]
    simp only [hr, Bool.not_false, if_true]
    split
    · rfl
    · split
      · rfl
      · split <;> rfl

theorem generateIndex_ok_index_not_dir {lib : Lib} {flags : Flags} {now : Int} {dir : Str}
    {d : DirState} {stList : List FileInfo}
    (h : (generateIndex lib flags now dir d stList).2 = none) {x : Node}
    (hx : lookupNode d.entries (ascii "index.html") = some x) : x.isDir = false := by
  cases x with
  | file content t r w => rfl
  | dir es t o l c =>
    exfalso
    have hs : safeToReplace d.entries (ascii "index.html") = true := by
      simp [safeToReplace, ReadFile, hx]
    rw [generateIndex_safe _ _ _ _ _ _ hs] at h
    simp [WriteFile, hx] at h

theorem distinctNames_dir {es : List (Str × Node)} {t : Int} {o l c : Bool}
    (h : distinctNames (.dir es t o l c) = true) :
    (es.map Prod.fst).Nodup ∧ distinctNamesIn es = true := by
  rw [distinctNames] at h
  simpa using h

theorem distinctNamesIn_mem {es : List (Str × Node)} (h : distinctNamesIn es = true)
    {name : Str} {x : Node} (hm : (name, x) ∈ es) : distinctNames x = true := by
  induction es with
  | nil => simp at hm
  | cons e rest ih =>
    obtain ⟨k, z⟩ := e
    rw [distinctNamesIn] at h
    simp only [Bool.and_eq_true] at h
    simp only [List.mem_cons, Prod.mk.injEq] at hm
    rcases hm with ⟨_, h2⟩ | hm
    · rw [h2]
      exact h.1
    · exact ih h.2 hm

theorem processNode_entries (lib : Lib) (flags : Flags) (now : Int) (dir : Str)
    (es : List (Str × Node)) (t : Int) (o l c : Bool) (hn : (es.map Prod.fst).Nodup) :
    ∃ es1 t1, (processNode lib flags now dir (.dir es t o l c)).1 = .dir es1 t1 o l c ∧
      (∀ name, name ≠ ascii "index.html" →
        lookupNode es1 name = lookupNode es name ∨
        ∃ child, (name, child) ∈ es ∧ recursedInto flags (name, child) = true ∧
          lookupNode es1 name =
            some (processNode lib flags now (lib.pathJoin dir name) child).1) ∧
      (lookupNode es1 (ascii "index.html") = lookupNode es (ascii "index.html") ∨
        ((∃ data tm r w, lookupNode es1 (ascii "index.html") = some (.file data tm r w)) ∧
          ∀ x, lookupNode es (ascii "index.html") = some x → x.isDir = false)) := by
  by_cases hol : o = false ∨ l = false
  · exact ⟨es, t, processNode_closed lib flags now dir es t o l c hol,
      fun _ _ => Or.inl rfl, Or.inl rfl⟩
  · have ho : o = true := by cases o <;> simp_all
    have hl : l = true := by cases l <;> simp_all
    subst ho
    subst hl
    cases hg : (generateIndex lib flags now dir ⟨es, t, c⟩ (es.map infoOf)).2 with
    | some err =>
      exact ⟨es, t, by rw [processNode_dir_err lib flags now dir es t c err hg],
        fun _ _ => Or.inl rfl, Or.inl rfl⟩
    | none =>
      have hne : ∀ name, name ≠ ascii "index.html" →
          lookupNode (generateIndex lib flags now dir ⟨es, t, c⟩ (es.map infoOf)).1.entries name
            = lookupNode es name :=
        fun name h => generateIndex_lookup_ne lib flags now dir ⟨es, t, c⟩ _ h
      have hidx : lookupNode (generateIndex lib flags now dir ⟨es, t, c⟩
            (es.map infoOf)).1.entries (ascii "index.html") = lookupNode es (ascii "index.html") ∨
          ((∃ data tm r w, lookupNode (generateIndex lib flags now dir ⟨es, t, c⟩
            (es.map infoOf)).1.entries (ascii "index.html") = some (.file data tm r w)) ∧
          ∀ x, lookupNode es (ascii "index.html") = some x → x.isDir = false) := by
        rcases generateIndex_index_file lib flags now dir ⟨es, t, c⟩ (es.map infoOf) with h | h
        · exact Or.inl (by rw [h])
        · obtain ⟨r, hr⟩ := h
          exact Or.inr ⟨⟨_, _, _, _, hr⟩, fun x hx => generateIndex_ok_index_not_dir hg hx⟩
      cases hrec : flags.recursiveOpt with
      | false =>
        refine ⟨_, _, by rw [processNode_dir_flat lib flags now dir es t c hg hrec], ?_, hidx⟩
        intro name h
        exact Or.inl (hne name h)
      | true =>
        refine ⟨_, _, by rw [processNode_dir_rec lib flags now dir es t c hg hrec], ?_, ?_⟩
        · intro name h
          rcases processChildren_lookup_cases lib flags now dir es
            (generateIndex lib flags now dir ⟨es, t, c⟩ (es.map infoOf)).1.entries name
            with h1 | h1
          · exact Or.inl (h1.trans (hne name h))
          · exact Or.inr h1
        · rcases processChildren_lookup_cases lib flags now dir es
            (generateIndex lib flags now dir ⟨es, t, c⟩ (es.map infoOf)).1.entries
            (ascii "index.html") with h1 | ⟨child, hm, hr, _⟩
          · rw [h1]
            exact hidx
          · exfalso
            have hd := generateIndex_ok_index_not_dir hg (lookupNode_of_mem hn hm)
            rw [(recursedInto_true_iff flags _ child).1 hr |>.1] at hd
            cases hd

theorem nodeAt_file_cons (name : Str) (rest : List Str) (content : Str) (t : Int) (r w : Bool) :
    nodeAt (name :: rest) (.file content t r w) = none := rfl

theorem contentAt_dir (name : Str) (rest : List Str) (es : List (Str × Node)) (t : Int)
    (o l c : Bool) :
    contentAt (name :: rest) (.dir es t o l c) =
      match lookupNode es name with
      | some x => contentAt rest x
      | none => none := by
  unfold contentAt
  rw [nodeAt]
  cases lookupNode es name <;> rfl

theorem contentAt_nil_dir (es : List (Str × Node)) (t : Int) (o l c : Bool) :
    contentAt [] (.dir es t o l c) = none := rfl

theorem contentAt_cons_not_dir (name : Str) (rest : List Str) (x : Node)
    (h : x.isDir = false) : contentAt (name :: rest) x = none := by
  cases x with
  | file content t r w => rfl
  | dir es t o l c => cases h

theorem processNode_frame (lib : Lib) (flags : Flags) (now : Int) :
    ∀ (path : List Str) (dir : Str) (n : Node), distinctNames n = true →
      path.getLast? ≠ some (ascii "index.html") →
      contentAt path (processNode lib flags now dir n).1 = contentAt path n := by
  intro path
  induction path with
  | nil =>
    intro dir n _ _
    cases n with
    | file content t r w => rw [processNode]
    | dir es t o l c =>
      by_cases hn : (es.map Prod.fst).Nodup
      · obtain ⟨es1, t1, h1, _⟩ := processNode_entries lib flags now dir es t o l c hn
        rw [h1]
        rfl
      · rename_i hd
        exact absurd (distinctNames_dir hd).1 hn
  | cons name rest ih =>
    intro dir n hd hlast
    cases n with
    | file content t r w => rw [processNode]
    | dir es t o l c =>
      obtain ⟨hn, hin⟩ := distinctNames_dir hd
      obtain ⟨es1, t1, h1, hP1, hP2⟩ := processNode_entries lib flags now dir es t o l c hn
      rw [h1, contentAt_dir, contentAt_dir]
      by_cases hname : name = ascii "index.html"
      · subst hname
        rcases hP2 with h | ⟨⟨data, tm, r, w, hf⟩, hnd⟩
        · rw [h]
        · cases rest with
          | nil => exact absurd rfl hlast
          | cons r2 rs =>
            rw [hf]
            cases hl : lookupNode es (ascii "index.html") with
            | none => rfl
            | some x => exact (contentAt_cons_not_dir r2 rs x (hnd x hl)).symm
      · rcases hP1 name hname with h | ⟨child, hm, _, h⟩
        · rw [h]
        · rw [h, lookupNode_of_mem hn hm]
          refine ih _ child (distinctNamesIn_mem hin hm) ?_
          cases rest with
          | nil => simp
          | cons r2 rs =>
            rw [List.getLast?_cons_cons] at hlast
            exact hlast

theorem processNode_untouched (lib : Lib) (flags : Flags) (now : Int) (dir : Str)
    (es : List (Str × Node)) (t : Int) (o l c : Bool) (hn : (es.map Prod.fst).Nodup)
    (name : Str) (child : Node) (hm : (name, child) ∈ es) (hne : name ≠ ascii "index.html")
    (h : recursedInto flags (name, child) = false ∨ flags.recursiveOpt = false) :
    ∃ es1 t1, (processNode lib flags now dir (.dir es t o l c)).1 = .dir es1 t1 o l c ∧
      lookupNode es1 name = some child := by
  have hl := lookupNode_of_mem hn hm
  by_cases hol : o = false ∨ l = false
  · exact ⟨es, t, processNode_closed lib flags now dir es t o l c hol, hl⟩
  · have ho : o = true := by cases o <;> simp_all
    have hl2 : l = true := by cases l <;> simp_all
    subst ho
    subst hl2
    cases hg : (generateIndex lib flags now dir ⟨es, t, c⟩ (es.map infoOf)).2 with
    | some err => exact ⟨es, t, by rw [processNode_dir_err lib flags now dir es t c err hg], hl⟩
    | none =>
      have hgl := generateIndex_lookup_ne lib flags now dir ⟨es, t, c⟩ (es.map infoOf) hne
      cases hrec : flags.recursiveOpt with
      | false =>
        exact ⟨_, _, by rw [processNode_dir_flat lib flags now dir es t c hg hrec],
          hgl.trans hl⟩
      | true =>
        refine ⟨_, _, by rw [processNode_dir_rec lib flags now dir es t c hg hrec], ?_⟩
        have hr : recursedInto flags (name, child) = false := by
          rcases h with h | h
          · exact h
          · rw [hrec] at h
            cases h
        rw [processChildren_lookup_untouched]
        · exact hgl.trans hl
        · intro c2 hc2
          have : c2 = child := by
            have h2 := lookupNode_of_mem hn hc2
            rw [hl] at h2
            exact (Option.some.inj h2).symm
          rw [this]
          exact hr

theorem processNode_ok_dir {lib : Lib} {flags : Flags} {now : Int} {dir : Str}
    {es : List (Str × Node)} {t : Int} {c : Bool}
    (h : (processNode lib flags now dir (.dir es t true true c)).2 = none) :
    (generateIndex lib flags now dir ⟨es, t, c⟩ (es.map infoOf)).2 = none := by
  cases hg : (generateIndex lib flags now dir ⟨es, t, c⟩ (es.map infoOf)).2 with
  | none => rfl
  | some err =>
    rw [processNode_dir_err lib flags now dir es t c err hg] at h
    cases h

theorem processNode_index_written (lib : Lib) (flags : Flags) (now : Int) (dir : Str)
    (es : List (Str × Node)) (t : Int) (c : Bool) (hn : (es.map Prod.fst).Nodup)
    (hs : safeToReplace es (ascii "index.html") = true)
    (hok : (processNode lib flags now dir (.dir es t true true c)).2 = none) :
    ∃ es1 t1, (processNode lib flags now dir (.dir es t true true c)).1 = .dir es1 t1 true true c ∧
      contentOf es1 (ascii "index.html") =
        some (composed lib flags ⟨es, t, c⟩ (es.map infoOf)) := by
  have hg := processNode_ok_dir hok
  have hw := generateIndex_written hs hg
  have hc := contentOf_WriteFile hw
  cases hrec : flags.recursiveOpt with
  | false => exact ⟨_, _, by rw [processNode_dir_flat lib flags now dir es t c hg hrec], hc⟩
  | true =>
    refine ⟨_, _, by rw [processNode_dir_rec lib flags now dir es t c hg hrec], ?_⟩
    unfold contentOf at hc ⊢
    rw [processChildren_lookup_untouched]
    · exact hc
    · intro child hm
      have hd := generateIndex_ok_index_not_dir hg (lookupNode_of_mem hn hm)
      simp [recursedInto, hd]

theorem main_cons_ok (lib : Lib) (flags : Flags) (now : Int) (dest : Str) (n : Option Node)
    (rest : List (Str × Option Node)) (h : (process lib flags now dest true n).2 = none) :
    main lib flags now ((dest, n) :: rest) =
      ((dest, (process lib flags now dest true n).1) :: (main lib flags now rest).1,
        (main lib flags now rest).2) := by
  rw [main]
  rcases hp : process lib flags now dest true n with ⟨n1, _ | err⟩
  · rfl
  · rw [hp] at h
    cases h

theorem main_cons_err (lib : Lib) (flags : Flags) (now : Int) (dest : Str) (n : Option Node)
    (rest : List (Str × Option Node)) (err : Failure)
    (h : (process lib flags now dest true n).2 = some err) :
    main lib flags now ((dest, n) :: rest) =
      ((dest, (process lib flags now dest true n).1) :: rest, some err) := by
  rw [main]
  rcases hp : process lib flags now dest true n with ⟨n1, _ | e2⟩
  · rw [hp] at h
    cases h
  · rw [hp] at h
    simp only [Option.some.injEq] at h
    rw [h]

theorem main_append_ok (lib : Lib) (flags : Flags) (now : Int)
    (pre post : List (Str × Option Node))
    (h : ∀ r ∈ pre, (process lib flags now r.1 true r.2).2 = none) :
    main lib flags now (pre ++ post) =
      (pre.map (fun r => (r.1, (process lib flags now r.1 true r.2).1))
          ++ (main lib flags now post).1,
        (main lib flags now post).2) := by
  induction pre with
  | nil => rfl
  | cons r rest ih =>
    obtain ⟨dest, n⟩ := r
    rw [List.cons_append, main_cons_ok lib flags now dest n _ (h _ (List.mem_cons_self _ _)),
      ih (fun r hr => h r (List.mem_cons_of_mem _ hr))]
    rfl

theorem processChildren_fail_fast (lib : Lib) (flags : Flags) (now : Int) (dir : Str)
    (pre post cur : List (Str × Node)) (name : Str) (child : Node) (err : Failure)
    (hpre : ∀ e ∈ pre, recursedInto flags e = true →
      (processNode lib flags now (lib.pathJoin dir e.1) e.2).2 = none)
    (hr : recursedInto flags (name, child) = true)
    (herr : (processNode lib flags now (lib.pathJoin dir name) child).2 = some err) :
    processChildren lib flags now dir (pre ++ (name, child) :: post) cur =
      (replaceNode (processChildren lib flags now dir pre cur).1 name
        (processNode lib flags now (lib.pathJoin dir name) child).1, some err) ∧
    visitsChildren lib flags now dir (pre ++ (name, child) :: post) =
      visitsChildren lib flags now dir pre
        ++ visitsNode lib flags now (lib.pathJoin dir name) child := by
  constructor
  · rw [processChildren_append_ok lib flags now dir pre _ cur
      ((processChildren_ok_iff lib flags now dir pre cur).2 hpre),
      processChildren_cons_err lib flags now dir name child post _ hr err herr]
  · rw [visitsChildren_append_ok lib flags now dir pre _ hpre,
      visitsChildren_cons_err lib flags now dir name child post hr err herr]

theorem lookupNode_perm {es es2 : List (Str × Node)} (hn : (es.map Prod.fst).Nodup)
    (hp : es.Perm es2) (name : Str) : lookupNode es name = lookupNode es2 name := by
  have hn2 : (es2.map Prod.fst).Nodup := (hp.map _).nodup_iff.1 hn
  cases h1 : lookupNode es name with
  | some x => rw [lookupNode_of_mem hn2 (hp.mem_iff.1 (lookupNode_mem h1))]
  | none =>
    cases h2 : lookupNode es2 name with
    | none => rfl
    | some x =>
      rw [lookupNode_of_mem hn (hp.mem_iff.2 (lookupNode_mem h2))] at h1
      cases h1

theorem generateIndex_err_congr (lib : Lib) (flags : Flags) (now : Int) (dir : Str)
    (d d2 : DirState) (s s2 : List FileInfo)
    (hl : lookupNode d.entries (ascii "index.html") = lookupNode d2.entries (ascii "index.html"))
    (hc : d.creatable = d2.creatable) :
    (generateIndex lib flags now dir d s).2 = (generateIndex lib flags now dir d2 s2).2 := by
  have hs : safeToReplace d.entries (ascii "index.html") =
      safeToReplace d2.entries (ascii "index.html") := by
    simp only [safeToReplace, ReadFile, hl]
  cases hs1 : safeToReplace d.entries (ascii "index.html") with
  | false =>
    rw [generateIndex_skip _ _ _ _ _ _ hs1, generateIndex_skip _ _ _ _ _ _ (hs ▸ hs1)]
  | true =>
    rw [generateIndex_safe _ _ _ _ _ _ hs1, generateIndex_safe _ _ _ _ _ _ (hs ▸ hs1)]
    unfold WriteFile
    rw [← hl, ← hc]
    cases lookupNode d.entries (ascii "index.html") with
    | none => cases d.creatable <;> rfl
    | some x =>
      cases x with
      | file content t r w => cases w <;> rfl
      | dir es t o l c => rfl

theorem processNode_ok_iff (lib : Lib) (flags : Flags) (now : Int) (dir : Str)
    (es : List (Str × Node)) (t : Int) (c : Bool) :
    (processNode lib flags now dir (.dir es t true true c)).2 = none ↔
      (generateIndex lib flags now dir ⟨es, t, c⟩ (es.map infoOf)).2 = none ∧
      (flags.recursiveOpt = true → ∀ e ∈ es, recursedInto flags e = true →
        (processNode lib flags now (lib.pathJoin dir e.1) e.2).2 = none) := by
  cases hg : (generateIndex lib flags now dir ⟨es, t, c⟩ (es.map infoOf)).2 with
  | some err =>
    rw [processNode_dir_err lib flags now dir es t c err hg]
    simp
  | none =>
    cases hrec : flags.recursiveOpt with
    | false =>
      rw [processNode_dir_flat lib flags now dir es t c hg hrec]
      simp
    | true =>
      rw [processNode_dir_rec lib flags now dir es t c hg hrec, processChildren_ok_iff]
      simp

theorem processChildren_replace_file (lib : Lib) (flags : Flags) (now : Int) (dir : Str)
    (es cur : List (Str × Node)) (n : Str) (x y : Node) (hx : lookupNode es n = some x)
    (hxd : x.isDir = false) (hyd : y.isDir = false) :
    processChildren lib flags now dir (replaceNode es n y) cur =
      processChildren lib flags now dir es cur := by
  induction es generalizing cur with
  | nil => rfl
  | cons e rest ih =>
    obtain ⟨k, z⟩ := e
    by_cases hk : k = n
    · subst hk
      simp only [lookupNode, if_true, Option.some.injEq] at hx
      subst hx
      simp only [replaceNode, if_true]
      rw [processChildren_cons_skip lib flags now dir k y rest cur (by simp [recursedInto, hyd]),
        processChildren_cons_skip lib flags now dir k z rest cur (by simp [recursedInto, hxd])]
    · simp only [lookupNode, hk, if_false] at hx
      simp only [replaceNode, hk, if_false]
      cases hr : recursedInto flags (k, z) with
      | false =>
        rw [processChildren_cons_skip lib flags now dir k z _ cur hr,
          processChildren_cons_skip lib flags now dir k z _ cur hr]
        exact ih cur hx
      | true =>
        cases hp : (processNode lib flags now (lib.pathJoin dir k) z).2 with
        | none =>
          rw [processChildren_cons_ok lib flags now dir k z _ cur hr hp,
            processChildren_cons_ok lib flags now dir k z _ cur hr hp]
          exact ih _ hx
        | some err =>
          rw [processChildren_cons_err lib flags now dir k z _ cur hr err hp,
            processChildren_cons_err lib flags now dir k z _ cur hr err hp]

theorem visitsChildren_replace_file (lib : Lib) (flags : Flags) (now : Int) (dir : Str)
    (es : List (Str × Node)) (n : Str) (x y : Node) (hx : lookupNode es n = some x)
    (hxd : x.isDir = false) (hyd : y.isDir = false) :
    visitsChildren lib flags now dir (replaceNode es n y) =
      visitsChildren lib flags now dir es := by
  induction es with
  | nil => rfl
  | cons e rest ih =>
    obtain ⟨k, z⟩ := e
    by_cases hk : k = n
    · subst hk
      simp only [lookupNode, if_true, Option.some.injEq] at hx
      subst hx
      simp only [replaceNode, if_true]
      rw [visitsChildren_cons_skip lib flags now dir k y rest (by simp [recursedInto, hyd]),
        visitsChildren_cons_skip lib flags now dir k z rest (by simp [recursedInto, hxd])]
    · simp only [lookupNode, hk, if_false] at hx
      simp only [replaceNode, hk, if_false]
      cases hr : recursedInto flags (k, z) with
      | false =>
        rw [visitsChildren_cons_skip lib flags now dir k z _ hr,
          visitsChildren_cons_skip lib flags now dir k z _ hr]
        exact ih hx
      | true =>
        cases hp : (processNode lib flags now (lib.pathJoin dir k) z).2 with
        | none =>
          rw [visitsChildren_cons_ok lib flags now dir k z _ hr hp,
            visitsChildren_cons_ok lib flags now dir k z _ hr hp, ih hx]
        | some err =>
          rw [visitsChildren_cons_err lib flags now dir k z _ hr err hp,
            visitsChildren_cons_err lib flags now dir k z _ hr err hp]

theorem processChildren_congr (lib : Lib) (flags : Flags) (now : Int) (dir : Str)
    (es cur cur2 : List (Str × Node)) :
    (processChildren lib flags now dir es cur).2 = (processChildren lib flags now dir es cur2).2 ∧
    ∀ name, lookupNode cur name = lookupNode cur2 name →
      lookupNode (processChildren lib flags now dir es cur).1 name =
        lookupNode (processChildren lib flags now dir es cur2).1 name := by
  induction es generalizing cur cur2 with
  | nil => exact ⟨by simp [processChildren], fun name h => by simpa [processChildren] using h⟩
  | cons e rest ih =>
    obtain ⟨k, z⟩ := e
    have hrep : ∀ (y : Node) (name : Str), lookupNode cur name = lookupNode cur2 name →
        lookupNode (replaceNode cur k y) name = lookupNode (replaceNode cur2 k y) name := by
      intro y name h
      by_cases hk : name = k
      · subst hk
        cases h1 : lookupNode cur name with
        | none =>
          rw [replaceNode_of_none y h1, replaceNode_of_none y (h ▸ h1), h1, ← h, h1]
        | some x =>
          rw [lookupNode_replaceNode y h1, lookupNode_replaceNode y (h ▸ h1)]
      · rw [lookupNode_replaceNode_ne y hk, lookupNode_replaceNode_ne y hk, h]
    cases hr : recursedInto flags (k, z) with
    | false =>
      rw [processChildren_cons_skip lib flags now dir k z rest cur hr,
        processChildren_cons_skip lib flags now dir k z rest cur2 hr]
      exact ih cur cur2
    | true =>
      cases hp : (processNode lib flags now (lib.pathJoin dir k) z).2 with
      | none =>
        rw [processChildren_cons_ok lib flags now dir k z rest cur hr hp,
          processChildren_cons_ok lib flags now dir k z rest cur2 hr hp]
        refine ⟨(ih _ _).1, fun name h => (ih _ _).2 name (hrep _ name h)⟩
      | some err =>
        rw [processChildren_cons_err lib flags now dir k z rest cur hr err hp,
          processChildren_cons_err lib flags now dir k z rest cur2 hr err hp]
        exact ⟨rfl, fun name h => hrep _ name h⟩

theorem visitsChildren_prefix (lib : Lib) (flags : Flags) (now : Int) (dir : Str)
    (es : List (Str × Node)) :
    visitsChildren lib flags now dir es <+:
      (es.filter (recursedInto flags)).flatMap
        (fun e => visitsNode lib flags now (lib.pathJoin dir e.1) e.2) := by
  induction es with
  | nil => simp [visitsChildren]
  | cons e rest ih =>
    obtain ⟨name, child⟩ := e
    cases hr : recursedInto flags (name, child) with
    | false =>
      rw [visitsChildren_cons_skip lib flags now dir name child rest hr,
        List.filter_cons_of_neg (by simp [hr])]
      exact ih
    | true =>
      rw [List.filter_cons_of_pos hr, List.flatMap_cons]
      cases hp : (processNode lib flags now (lib.pathJoin dir name) child).2 with
      | none =>
        rw [visitsChildren_cons_ok lib flags now dir name child rest hr hp]
        exact (List.prefix_append_right_inj _).2 ih
      | some err =>
        rw [visitsChildren_cons_err lib flags now dir name child rest hr err hp]
        exact List.prefix_append _ _

theorem processNode_index_frame (lib : Lib) (flags : Flags) (now : Int) :
    ∀ (path : List Str) (dir : Str) (n : Node), distinctNames n = true →
      walkReaches flags path n = false →
      contentAt (path ++ [ascii "index.html"]) (processNode lib flags now dir n).1 =
        contentAt (path ++ [ascii "index.html"]) n := by
  intro path
  induction path with
  | nil =>
    intro dir n _ h
    cases n <;> simp [walkReaches] at h
  | cons name rest ih =>
    intro dir n hd hw
    cases n with
    | file content t r w => rw [processNode]
    | dir es t o l c =>
      obtain ⟨hn, hin⟩ := distinctNames_dir hd
      obtain ⟨es1, t1, h1, hP1, hP2⟩ := processNode_entries lib flags now dir es t o l c hn
      rw [h1, List.cons_append, contentAt_dir, contentAt_dir]
      by_cases hname : name = ascii "index.html"
      · subst hname
        rcases hP2 with h | ⟨⟨data, tm, r, w, hf⟩, hnd⟩
        · rw [h]
        · rw [hf]
          have hcons : ∃ a b, rest ++ [ascii "index.html"] = a :: b := by
            cases rest with
            | nil => exact ⟨_, _, rfl⟩
            | cons a b => exact ⟨_, _, rfl⟩
          obtain ⟨a, b, hab⟩ := hcons
          rw [hab]
          cases hl : lookupNode es (ascii "index.html") with
          | none => rfl
          | some x => exact (contentAt_cons_not_dir a b x (hnd x hl)).symm
      · rcases hP1 name hname with h | ⟨child, hm, hr, h⟩
        · rw [h]
        · have hl := lookupNode_of_mem hn hm
          cases hrec : flags.recursiveOpt with
          | false =>
            obtain ⟨es2, t2, h2, h3⟩ := processNode_untouched lib flags now dir es t o l c hn
              name child hm hname (Or.inr hrec)
            rw [h1] at h2
            simp only [Node.dir.injEq] at h2
            rw [h2.1, h3, hl]
          | true =>
            rw [h, hl]
            refine ih _ child (distinctNamesIn_mem hin hm) ?_
            rw [walkReaches, hrec, hl] at hw
            simpa [hr] using hw

/-! ## Lemmas: the children in the resulting tree -/

theorem processNode_children_done (lib : Lib) (flags : Flags) (now : Int) (dir : Str)
    (es : List (Str × Node)) (t : Int) (c : Bool) (hn : (es.map Prod.fst).Nodup)
    (hrec : flags.recursiveOpt = true)
    (hok : (processNode lib flags now dir (.dir es t true true c)).2 = none) :
    ∃ es1 t1, (processNode lib flags now dir (.dir es t true true c)).1 =
        .dir es1 t1 true true c ∧
      ∀ name child, (name, child) ∈ es → name ≠ ascii "index.html" →
        lookupNode es1 name = some
          (if recursedInto flags (name, child) = true
            then (processNode lib flags now (lib.pathJoin dir name) child).1 else child) := by
  have hg := processNode_ok_dir hok
  have hpc : (processChildren lib flags now dir es
      (generateIndex lib flags now dir ⟨es, t, c⟩ (es.map infoOf)).1.entries).2 = none := by
    rw [processNode_dir_rec lib flags now dir es t c hg hrec] at hok
    exact hok
  refine ⟨_, _, by rw [processNode_dir_rec lib flags now dir es t c hg hrec], ?_⟩
  intro name child hm hne
  have hgl := generateIndex_lookup_ne lib flags now dir ⟨es, t, c⟩ (es.map infoOf) hne
  have hl := lookupNode_of_mem hn hm
  cases hr : recursedInto flags (name, child) with
  | true =>
    rw [if_pos rfl]
    refine processChildren_lookup_ok lib flags now dir es _ hn hpc name child hm hr ?_
    rw [hgl, hl]
    rfl
  | false =>
    rw [if_neg (by simp)]
    rw [processChildren_lookup_untouched]
    · exact hgl.trans hl
    · intro c2 hc2
      have h2 := lookupNode_of_mem hn hc2
      rw [hl] at h2
      rw [← Option.some.inj h2]
      exact hr

theorem processNode_abort (lib : Lib) (flags : Flags) (now : Int) (dir : Str)
    (pre post : List (Str × Node)) (name : Str) (child : Node) (t : Int) (c : Bool)
    (err : Failure)
    (hn : ((pre ++ (name, child) :: post).map Prod.fst).Nodup)
    (hrec : flags.recursiveOpt = true)
    (hg : (generateIndex lib flags now dir ⟨pre ++ (name, child) :: post, t, c⟩
      ((pre ++ (name, child) :: post).map infoOf)).2 = none)
    (hpre : ∀ e ∈ pre, recursedInto flags e = true →
      (processNode lib flags now (lib.pathJoin dir e.1) e.2).2 = none)
    (hr : recursedInto flags (name, child) = true)
    (herr : (processNode lib flags now (lib.pathJoin dir name) child).2 = some err) :
    (processNode lib flags now dir (.dir (pre ++ (name, child) :: post) t true true c)).2 =
      some err ∧
    ∃ es1 t1, (processNode lib flags now dir
        (.dir (pre ++ (name, child) :: post) t true true c)).1 = .dir es1 t1 true true c ∧
      (∀ n x, (n, x) ∈ pre → n ≠ ascii "index.html" →
        lookupNode es1 n = some
          (if recursedInto flags (n, x) = true
            then (processNode lib flags now (lib.pathJoin dir n) x).1 else x)) ∧
      lookupNode es1 name = some (processNode lib flags now (lib.pathJoin dir name) child).1 ∧
      (∀ n x, (n, x) ∈ post → n ≠ ascii "index.html" → lookupNode es1 n = some x) := by
  have hff := processChildren_fail_fast lib flags now dir pre post
    (generateIndex lib flags now dir ⟨pre ++ (name, child) :: post, t, c⟩
      ((pre ++ (name, child) :: post).map infoOf)).1.entries name child err hpre hr herr
  have hmemc : (name, child) ∈ pre ++ (name, child) :: post :=
    List.mem_append_right _ (List.mem_cons_self _ _)
  have hlc := lookupNode_of_mem hn hmemc
  have hname : name ≠ ascii "index.html" := by
    intro e
    subst e
    have hd := generateIndex_ok_index_not_dir hg hlc
    rw [((recursedInto_true_iff flags _ child).1 hr).1] at hd
    cases hd
  have hn0 := hn
  rw [List.map_append, List.map_cons, List.nodup_append] at hn
  obtain ⟨hnpre, hn2, hdisj⟩ := hn
  rw [List.nodup_cons] at hn2
  have hpcpre : (processChildren lib flags now dir pre
      (generateIndex lib flags now dir ⟨pre ++ (name, child) :: post, t, c⟩
        ((pre ++ (name, child) :: post).map infoOf)).1.entries).2 = none :=
    (processChildren_ok_iff lib flags now dir pre _).2 hpre
  have hnotpre : ∀ c2, (name, c2) ∈ pre → recursedInto flags (name, c2) = false := by
    intro c2 hc2
    have h1 : name ∈ pre.map Prod.fst := List.mem_map_of_mem Prod.fst hc2
    exact (hdisj h1 (List.mem_cons_self _ _)).elim
  refine ⟨by rw [processNode_dir_rec lib flags now dir _ t c hg hrec, hff.1], _, _,
    by rw [processNode_dir_rec lib flags now dir _ t c hg hrec, hff.1], ?_, ?_, ?_⟩
  · intro n x hm hne
    have hmem : (n, x) ∈ pre ++ (name, child) :: post := List.mem_append_left _ hm
    have hl := lookupNode_of_mem hn0 hmem
    have hgl := generateIndex_lookup_ne lib flags now dir
      ⟨pre ++ (name, child) :: post, t, c⟩ ((pre ++ (name, child) :: post).map infoOf) hne
    have hne2 : n ≠ name := by
      intro e
      have h1 : n ∈ pre.map Prod.fst := List.mem_map_of_mem Prod.fst hm
      exact hdisj h1 (e ▸ List.mem_cons_self _ _)
    rw [lookupNode_replaceNode_ne _ hne2]
    cases hrx : recursedInto flags (n, x) with
    | true =>
      rw [if_pos rfl]
      refine processChildren_lookup_ok lib flags now dir pre _ hnpre hpcpre n x hm hrx ?_
      rw [hgl, hl]
      rfl
    | false =>
      rw [if_neg (by simp)]
      rw [processChildren_lookup_untouched]
      · exact hgl.trans hl
      · intro c2 hc2
        have h2 := lookupNode_of_mem hn0 (List.mem_append_left _ hc2)
        rw [hl] at h2
        rw [← Option.some.inj h2]
        exact hrx
  · refine lookupNode_replaceNode _ (x := child) ?_
    rw [processChildren_lookup_untouched lib flags now dir pre _ name hnotpre,
      generateIndex_lookup_ne lib flags now dir _ _ hname]
    exact hlc
  · intro n x hm hne
    have hmem : (n, x) ∈ pre ++ (name, child) :: post :=
      List.mem_append_right _ (List.mem_cons_of_mem _ hm)
    have hl := lookupNode_of_mem hn0 hmem
    have hnm : n ∈ List.map Prod.fst post := List.mem_map_of_mem Prod.fst hm
    have hne2 : n ≠ name := by
      intro e
      exact hn2.1 (e ▸ hnm)
    rw [lookupNode_replaceNode_ne _ hne2, processChildren_lookup_untouched]
    · rw [generateIndex_lookup_ne lib flags now dir _ _ hne]
      exact hl
    · intro c2 hc2
      have h1 : n ∈ pre.map Prod.fst := List.mem_map_of_mem Prod.fst hc2
      exact (hdisj h1 (List.mem_cons_of_mem _ hnm)).elim


theorem composed_perm (lib : Lib) (flags : Flags) {es es2 : List (Str × Node)} (t : Int) (c : Bool)
    (hn : (es.map Prod.fst).Nodup) (hp : es.Perm es2) :
    composed lib flags ⟨es, t, c⟩ (es.map infoOf) =
      composed lib flags ⟨es2, t, c⟩ (es2.map infoOf) := by
  have hte : tableEntries flags.hidden (es.map infoOf) =
      tableEntries flags.hidden (es2.map infoOf) :=
    tableEntries_perm (by rw [map_name_infoOf]; exact hn) (hp.map infoOf)
  simp only [composed, ReadFile, lookupNode_perm hn hp, hte]

theorem generateIndex_lookup_congr (lib : Lib) (flags : Flags) (now : Int) (dir : Str)
    (d d2 : DirState) (s s2 : List FileInfo)
    (hl : ∀ name, lookupNode d.entries name = lookupNode d2.entries name)
    (hc : d.creatable = d2.creatable)
    (hpage : composed lib flags d s = composed lib flags d2 s2) (name : Str) :
    lookupNode (generateIndex lib flags now dir d s).1.entries name =
      lookupNode (generateIndex lib flags now dir d2 s2).1.entries name := by
  have hs : safeToReplace d.entries (ascii "index.html") =
      safeToReplace d2.entries (ascii "index.html") := by
    simp only [safeToReplace, ReadFile, hl]
  cases hs1 : safeToReplace d.entries (ascii "index.html") with
  | false =>
    rw [generateIndex_skip _ _ _ _ _ _ hs1, generateIndex_skip _ _ _ _ _ _ (hs ▸ hs1)]
    exact hl name
  | true =>
    rw [generateIndex_safe _ _ _ _ _ _ hs1, generateIndex_safe _ _ _ _ _ _ (hs ▸ hs1), ← hpage]
    unfold WriteFile
    rw [← hl (ascii "index.html"), ← hc]
    cases hli : lookupNode d.entries (ascii "index.html") with
    | none =>
      have hli2 : lookupNode d2.entries (ascii "index.html") = none := by
        rw [← hl, hli]
      cases d.creatable with
      | false => exact hl name
      | true =>
        simp only [if_true]
        by_cases hname : name = ascii "index.html"
        · rw [hname, lookupNode_append_of_none _ hli, lookupNode_append_of_none _ hli2]
        · rw [lookupNode_append_ne _ hname, lookupNode_append_ne _ hname]
          exact hl name
    | some x =>
      have hli2 : lookupNode d2.entries (ascii "index.html") = some x := by
        rw [← hl, hli]
      cases x with
      | dir es t o l c => exact hl name
      | file content t r w =>
        cases w with
        | false => exact hl name
        | true =>
          simp only
          by_cases hname : name = ascii "index.html"
          · rw [hname, lookupNode_replaceNode _ hli, lookupNode_replaceNode _ hli2]
          · rw [lookupNode_replaceNode_ne _ hname, lookupNode_replaceNode_ne _ hname]
            exact hl name

theorem processNode_perm (lib : Lib) (flags : Flags) (now : Int) (dir : Str)
    (es es2 : List (Str × Node)) (t : Int) (c : Bool) (hn : (es.map Prod.fst).Nodup)
    (hrec : flags.recursiveOpt = true) (hp : es.Perm es2)
    (hok : (processNode lib flags now dir (.dir es t true true c)).2 = none) :
    (processNode lib flags now dir (.dir es2 t true true c)).2 = none ∧
    ∃ es1 t1 es3 t3,
      (processNode lib flags now dir (.dir es t true true c)).1 = .dir es1 t1 true true c ∧
      (processNode lib flags now dir (.dir es2 t true true c)).1 = .dir es3 t3 true true c ∧
      ∀ name, lookupNode es3 name = lookupNode es1 name := by
  have hn2 : (es2.map Prod.fst).Nodup := (hp.map _).nodup_iff.1 hn
  obtain ⟨hg, hch⟩ := (processNode_ok_iff lib flags now dir es t c).1 hok
  have hg2 : (generateIndex lib flags now dir ⟨es2, t, c⟩ (es2.map infoOf)).2 = none := by
    rw [← generateIndex_err_congr lib flags now dir ⟨es, t, c⟩ ⟨es2, t, c⟩ (es.map infoOf) _
      (lookupNode_perm hn hp _) rfl]
    exact hg
  have hch2 : ∀ e ∈ es2, recursedInto flags e = true →
      (processNode lib flags now (lib.pathJoin dir e.1) e.2).2 = none :=
    fun e he => hch hrec e (hp.mem_iff.2 he)
  have hpc : (processChildren lib flags now dir es
      (generateIndex lib flags now dir ⟨es, t, c⟩ (es.map infoOf)).1.entries).2 = none :=
    (processChildren_ok_iff lib flags now dir es _).2 (hch hrec)
  have hpc2 : (processChildren lib flags now dir es2
      (generateIndex lib flags now dir ⟨es2, t, c⟩ (es2.map infoOf)).1.entries).2 = none :=
    (processChildren_ok_iff lib flags now dir es2 _).2 hch2
  have hgl : ∀ name,
      lookupNode (generateIndex lib flags now dir ⟨es2, t, c⟩ (es2.map infoOf)).1.entries name =
        lookupNode (generateIndex lib flags now dir ⟨es, t, c⟩ (es.map infoOf)).1.entries name :=
    fun name => (generateIndex_lookup_congr lib flags now dir ⟨es, t, c⟩ ⟨es2, t, c⟩ _ _
      (fun k => lookupNode_perm hn hp k) rfl (composed_perm lib flags t c hn hp) name).symm
  refine ⟨(processNode_ok_iff lib flags now dir es2 t c).2 ⟨hg2, fun _ => hch2⟩, _, _, _, _,
    by rw [processNode_dir_rec lib flags now dir es t c hg hrec],
    by rw [processNode_dir_rec lib flags now dir es2 t c hg2 hrec], ?_⟩
  intro name
  have huntouched : (∀ child, (name, child) ∈ es → recursedInto flags (name, child) = false) →
      lookupNode (processChildren lib flags now dir es2
          (generateIndex lib flags now dir ⟨es2, t, c⟩ (es2.map infoOf)).1.entries).1 name =
        lookupNode (processChildren lib flags now dir es
          (generateIndex lib flags now dir ⟨es, t, c⟩ (es.map infoOf)).1.entries).1 name := by
    intro h
    rw [processChildren_lookup_untouched lib flags now dir es _ name h,
      processChildren_lookup_untouched lib flags now dir es2 _ name
        (fun child hm => h child (hp.mem_iff.2 hm))]
    exact hgl name
  cases hl : lookupNode es name with
  | none =>
    refine huntouched (fun child hm => ?_)
    rw [lookupNode_of_mem hn hm] at hl
    cases hl
  | some child =>
    have hm := lookupNode_mem hl
    cases hr : recursedInto flags (name, child) with
    | false =>
      refine huntouched (fun c2 hm2 => ?_)
      have h2 := lookupNode_of_mem hn hm2
      rw [hl] at h2
      rw [← Option.some.inj h2]
      exact hr
    | true =>
      have hname : name ≠ ascii "index.html" := by
        intro e
        subst e
        have hd := generateIndex_ok_index_not_dir hg hl
        rw [((recursedInto_true_iff flags _ child).1 hr).1] at hd
        cases hd
      rw [processChildren_lookup_ok lib flags now dir es _ hn hpc name child hm hr
          (by rw [generateIndex_lookup_ne lib flags now dir _ _ hname, hl]; rfl),
        processChildren_lookup_ok lib flags now dir es2 _ hn2 hpc2 name child
          (hp.mem_iff.1 hm) hr
          (by rw [generateIndex_lookup_ne lib flags now dir _ _ hname,
            ← lookupNode_perm hn hp, hl]; rfl)]

theorem indexOf_process_written (lib : Lib) (flags : Flags) (now : Int) (dir : Str) (top : Bool)
    (es : List (Str × Node)) (t : Int) (c : Bool) (hn : (es.map Prod.fst).Nodup)
    (hs : safeToReplace es (ascii "index.html") = true)
    (hok : (process lib flags now dir top (some (.dir es t true true c))).2 = none) :
    indexOf (process lib flags now dir top (some (.dir es t true true c))).1 =
      some (composed lib flags ⟨es, t, c⟩ (es.map infoOf)) := by
  obtain ⟨es1, t1, h1, h2⟩ := processNode_index_written lib flags now dir es t c hn hs hok
  simp only [process, h1, indexOf]
  exact h2

/-! ## Claims C11 to C20 -/

/-- C11. A page `generateIndex` writes contains the marker; after the write
`safeToReplace` on `index.html` is true, so the next call on the directory
does not skip it but hands its page to the write. -/
theorem written_page_marked (lib : Lib) (flags : Flags) (now : Int) (dir : Str) (d : DirState)
    (stList : List FileInfo) (hs : safeToReplace d.entries (ascii "index.html") = true)
    (hok : (generateIndex lib flags now dir d stList).2 = none) :
    (∃ page, contentOf (generateIndex lib flags now dir d stList).1.entries (ascii "index.html")
        = some page ∧ magic <:+: page) ∧
    safeToReplace (generateIndex lib flags now dir d stList).1.entries (ascii "index.html")
      = true ∧
    ∀ (lib2 : Lib) (flags2 : Flags) (now2 : Int) (dir2 : Str) (stList2 : List FileInfo),
      generateIndex lib2 flags2 now2 dir2 (generateIndex lib flags now dir d stList).1 stList2 =
        match WriteFile now2 (generateIndex lib flags now dir d stList).1 (ascii "index.html")
            (composed lib2 flags2 (generateIndex lib flags now dir d stList).1 stList2) with
        | some d1 => (d1, none)
        | none => ((generateIndex lib flags now dir d stList).1,
            some (.write (lib2.pathJoin dir2 (ascii "index.html")))) := by
  have hw := generateIndex_written hs hok
  have hsafe := safeToReplace_after_write hw (magic_infix_composed lib flags d stList)
  refine ⟨⟨_, contentOf_WriteFile hw, magic_infix_composed lib flags d stList⟩, hsafe, ?_⟩
  intro lib2 flags2 now2 dir2 stList2
  exact generateIndex_safe _ _ _ _ _ _ hsafe

/-- Witness for C11: the directory with `a.txt` and `HEADER.html`. -/
theorem written_page_marked_witness :
    safeToReplace (generateIndex sampleLib ⟨false, false⟩ 10 (ascii "d") headerDir
      (headerDir.entries.map infoOf)).1.entries (ascii "index.html") = true :=
  (written_page_marked sampleLib ⟨false, false⟩ 10 (ascii "d") headerDir
    (headerDir.entries.map infoOf) (by decide) (by decide)).2.1

/-- C12. The table is the header literal, then the rows of the rendered
entries, then the spacer row and closing tags.  The rendered entries follow
the sorted names other than `index.htm;`, each is a kept entry of the
listing, and every kept entry whose name is not exactly `index.htm;` has its
name among them, an entry named `index.html` included; with no kept entry
the table is the header followed by the spacer row. -/
theorem generateTable_rows (lib : Lib) (flags : Flags) (dir : Str) (stList : List FileInfo) :
    generateTable lib flags dir stList =
      some (tableOpen ++ rowsOf lib (tableEntries flags.hidden stList) ++ tableClose) ∧
    (tableEntries flags.hidden stList).map FileInfo.name =
      (paresStList flags.hidden stList).1.filter (fun n => decide (n ≠ ascii "index.htm;")) ∧
    (∀ fi ∈ tableEntries flags.hidden stList,
      fi ∈ stList ∧ (HasPrefix fi.name (ascii ".") && !flags.hidden) = false ∧
        fi.name ≠ ascii "index.htm;") ∧
    (∀ fi ∈ stList, (HasPrefix fi.name (ascii ".") && !flags.hidden) = false →
      fi.name ≠ ascii "index.htm;" →
      fi.name ∈ (tableEntries flags.hidden stList).map FileInfo.name) ∧
    (∀ fi ∈ stList, fi.name = ascii "index.html" →
      fi.name ∈ (tableEntries flags.hidden stList).map FileInfo.name) ∧
    ((stList.map FileInfo.name).Nodup →
      ∀ fi ∈ stList, (HasPrefix fi.name (ascii ".") && !flags.hidden) = false →
        fi.name ≠ ascii "index.htm;" → fi ∈ tableEntries flags.hidden stList) ∧
    ((∀ fi ∈ stList, (HasPrefix fi.name (ascii ".") && !flags.hidden) = true) →
      generateTable lib flags dir stList = some (tableOpen ++ tableClose)) := by
  have hshown : ∀ fi : FileInfo, shown flags.hidden fi = true ↔
      (HasPrefix fi.name (ascii ".") && !flags.hidden) = false := by
    intro fi
    unfold shown
    cases (HasPrefix fi.name (ascii ".") && !flags.hidden) <;> simp
  have hmemnames : ∀ fi ∈ stList, (HasPrefix fi.name (ascii ".") && !flags.hidden) = false →
      fi.name ≠ ascii "index.htm;" →
      fi.name ∈ (tableEntries flags.hidden stList).map FileInfo.name := by
    intro fi hfi hs hne
    rw [names_eq_map_tableEntries, List.mem_filter, paresStList_names]
    refine ⟨(sortStrings_perm _).mem_iff.2 (List.mem_map_of_mem _ (List.mem_filter.2
      ⟨hfi, (hshown fi).2 hs⟩)), by simpa using hne⟩
  refine ⟨generateTable_eq _ _ _ _, names_eq_map_tableEntries _ _, ?_, hmemnames, ?_, ?_, ?_⟩
  · intro fi hfi
    refine ⟨(mem_tableEntries hfi).1, (hshown fi).1 (mem_tableEntries hfi).2, ?_⟩
    have := List.mem_map_of_mem FileInfo.name hfi
    rw [names_eq_map_tableEntries, List.mem_filter] at this
    simpa using this.2
  · intro fi hfi hname
    refine hmemnames fi hfi ?_ ?_
    · have : HasPrefix fi.name (ascii ".") = false := by rw [hname]; decide
      simp [this]
    · rw [hname]
      decide
  · intro hn fi hfi hs hne
    have hmem := hmemnames fi hfi hs hne
    rw [List.mem_map] at hmem
    obtain ⟨e, he, hename⟩ := hmem
    have := List.inj_on_of_nodup_map hn (mem_tableEntries he).1 hfi hename
    exact this ▸ he
  · intro hall
    have hnil : tableEntries flags.hidden stList = [] := by
      cases hte : tableEntries flags.hidden stList with
      | nil => rfl
      | cons e rest =>
        have he : e ∈ tableEntries flags.hidden stList := hte ▸ List.mem_cons_self _ _
        have h1 := (hshown e).1 (mem_tableEntries he).2
        rw [hall e (mem_tableEntries he).1] at h1
        cases h1
    rw [generateTable_eq, hnil]
    rfl

/-- Witness for C12: a listing with `index.html`, `index.htm;` and a
dot-named file; the rendered names are `index.html` alone. -/
theorem generateTable_rows_witness :
    (tableEntries false [⟨ascii "index.htm;", false, 1⟩, ⟨ascii "index.html", false, 2⟩,
      ⟨ascii ".x", false, 3⟩]).map FileInfo.name = [ascii "index.html"] :=
  ((generateTable_rows sampleLib ⟨false, false⟩ (ascii "d")
    [⟨ascii "index.htm;", false, 1⟩, ⟨ascii "index.html", false, 2⟩,
      ⟨ascii ".x", false, 3⟩]).2.1).trans (by decide)

/-- C13. In recursive mode an error-free `process` on a directory with
distinct names calls itself on exactly the children that are directories and
not dot-named with the hidden flag on, in listing order, and leaves every
other child as it was; a run that a child aborts makes a leading part of
those calls; in non-recursive mode it calls itself on no child.  A
dot-named child directory is recursed into and has no row in the table with
the hidden flag off, and is not recursed into and has a row with the hidden
flag on; a directory recursed into whose index is safe to replace holds its
page afterwards. -/
theorem process_recursion (lib : Lib) (flags : Flags) (now : Int) (dir : Str)
    (es : List (Str × Node)) (t : Int) (c : Bool) (hn : (es.map Prod.fst).Nodup) :
    (flags.recursiveOpt = true →
      (processNode lib flags now dir (.dir es t true true c)).2 = none →
      visitsNode lib flags now dir (.dir es t true true c) =
        dir :: (es.filter (fun e =>
            e.2.isDir && !(HasPrefix e.1 (ascii ".") && flags.hidden))).flatMap
          (fun e => visitsNode lib flags now (lib.pathJoin dir e.1) e.2) ∧
      ∃ es1 t1, (processNode lib flags now dir (.dir es t true true c)).1 =
          .dir es1 t1 true true c ∧
        ∀ name child, (name, child) ∈ es → name ≠ ascii "index.html" →
          lookupNode es1 name = some
            (if child.isDir && !(HasPrefix name (ascii ".") && flags.hidden)
              then (processNode lib flags now (lib.pathJoin dir name) child).1 else child)) ∧
    (flags.recursiveOpt = true →
      (generateIndex lib flags now dir ⟨es, t, c⟩ (es.map infoOf)).2 = none →
      ∃ calls, visitsNode lib flags now dir (.dir es t true true c) = dir :: calls ∧
        calls <+: (es.filter (fun e =>
            e.2.isDir && !(HasPrefix e.1 (ascii ".") && flags.hidden))).flatMap
          (fun e => visitsNode lib flags now (lib.pathJoin dir e.1) e.2)) ∧
    (flags.recursiveOpt = false →
      visitsNode lib flags now dir (.dir es t true true c) = [dir] ∧
      ∃ es1 t1, (processNode lib flags now dir (.dir es t true true c)).1 =
          .dir es1 t1 true true c ∧
        ∀ name child, (name, child) ∈ es → name ≠ ascii "index.html" →
          lookupNode es1 name = some child) ∧
    (∀ name child, (name, child) ∈ es → child.isDir = true →
      HasPrefix name (ascii ".") = true →
      (flags.hidden = false →
        (child.isDir && !(HasPrefix name (ascii ".") && flags.hidden)) = true ∧
        infoOf (name, child) ∉ tableEntries flags.hidden (es.map infoOf)) ∧
      (flags.hidden = true →
        (child.isDir && !(HasPrefix name (ascii ".") && flags.hidden)) = false ∧
        infoOf (name, child) ∈ tableEntries flags.hidden (es.map infoOf))) ∧
    (∀ (dir2 : Str) (ces : List (Str × Node)) (ct : Int) (cc : Bool),
      (ces.map Prod.fst).Nodup → safeToReplace ces (ascii "index.html") = true →
      (processNode lib flags now dir2 (.dir ces ct true true cc)).2 = none →
      ∃ ces1 t1, (processNode lib flags now dir2 (.dir ces ct true true cc)).1 =
          .dir ces1 t1 true true cc ∧
        contentOf ces1 (ascii "index.html") =
          some (composed lib flags ⟨ces, ct, cc⟩ (ces.map infoOf))) := by
  refine ⟨?_, fun hrec hg => ⟨_, visitsNode_dir_rec lib flags now dir es t c hg hrec,
    visitsChildren_prefix lib flags now dir es⟩, ?_, ?_, ?_⟩
  · intro hrec hok
    have hg := processNode_ok_dir hok
    have hpc : (processChildren lib flags now dir es
        (generateIndex lib flags now dir ⟨es, t, c⟩ (es.map infoOf)).1.entries).2 = none := by
      rw [processNode_dir_rec lib flags now dir es t c hg hrec] at hok
      exact hok
    constructor
    · rw [visitsNode_dir_rec lib flags now dir es t c hg hrec,
        visitsChildren_ok lib flags now dir es
          ((processChildren_ok_iff lib flags now dir es _).1 hpc)]
      rfl
    · refine ⟨_, _, by rw [processNode_dir_rec lib flags now dir es t c hg hrec], ?_⟩
      intro name child hm hne
      have hgl := generateIndex_lookup_ne lib flags now dir ⟨es, t, c⟩ (es.map infoOf) hne
      have hl := lookupNode_of_mem hn hm
      cases hr : recursedInto flags (name, child) with
      | true =>
        have hr2 : (child.isDir && !(HasPrefix name (ascii ".") && flags.hidden)) = true := hr
        rw [hr2, if_pos rfl]
        refine processChildren_lookup_ok lib flags now dir es _ hn hpc name child hm hr ?_
        rw [hgl, hl]
        rfl
      | false =>
        have hr2 : (child.isDir && !(HasPrefix name (ascii ".") && flags.hidden)) = false := hr
        rw [hr2, if_neg (by simp)]
        rw [processChildren_lookup_untouched]
        · exact hgl.trans hl
        · intro c2 hc2
          have h2 := lookupNode_of_mem hn hc2
          rw [hl] at h2
          rw [← Option.some.inj h2]
          exact hr
  · intro hrec
    refine ⟨visitsNode_flat lib flags now dir _ hrec, ?_⟩
    have hshape : ∃ es1 t1, (processNode lib flags now dir (.dir es t true true c)).1 =
        .dir es1 t1 true true c ∧ ∀ name, name ≠ ascii "index.html" →
          lookupNode es1 name = lookupNode es name := by
      cases hg : (generateIndex lib flags now dir ⟨es, t, c⟩ (es.map infoOf)).2 with
      | some err =>
        exact ⟨es, t, by rw [processNode_dir_err lib flags now dir es t c err hg],
          fun _ _ => rfl⟩
      | none =>
        exact ⟨_, _, by rw [processNode_dir_flat lib flags now dir es t c hg hrec],
          fun name h => generateIndex_lookup_ne lib flags now dir ⟨es, t, c⟩ _ h⟩
    obtain ⟨es1, t1, h1, h2⟩ := hshape
    exact ⟨es1, t1, h1, fun name child hm hne => (h2 name hne).trans (lookupNode_of_mem hn hm)⟩
  · intro name child hm hd hp
    constructor
    · intro hh
      refine ⟨by simp [hd, hh], fun hmem => ?_⟩
      have := hasPrefix_of_not_shown (hh ▸ (mem_tableEntries hmem).2)
      simp only [infoOf] at this
      rw [hp] at this
      cases this
    · intro hh
      refine ⟨by simp [hp, hh], ?_⟩
      refine mem_tableEntries_of ?_ (List.mem_map_of_mem infoOf hm) ?_ ?_
      · rw [map_name_infoOf]
        exact hn
      · simp [shown, hh]
      · intro he
        simp only [infoOf] at he
        rw [he] at hp
        revert hp
        decide
  · intro dir2 ces ct cc hcn hs hok
    exact processNode_index_written lib flags now dir2 ces ct cc hcn hs hok

/-- Witness for C13: the sample tree in a recursive run with the hidden flag
off; the calls are made on the root, on `sub` and on `.g`. -/
theorem process_recursion_witness :
    visitsNode sampleLib ⟨true, false⟩ 10 (ascii "d") sampleTree =
      [ascii "d", ascii "d/sub", ascii "d/.g"] ∧
    contentAt [ascii ".g", ascii "index.html"]
      (processNode sampleLib ⟨true, false⟩ 10 (ascii "d") sampleTree).1 ≠ none ∧
    infoOf (ascii ".g", .dir [] 8 true true true) ∉ tableEntries false
      [⟨ascii "a.txt", false, 5⟩, ⟨ascii "HEADER.html", false, 6⟩,
        ⟨ascii "README.html", false, 6⟩, ⟨ascii "sub", true, 7⟩, ⟨ascii ".g", true, 8⟩] := by
  refine ⟨?_, by decide, ?_⟩
  · have h := (process_recursion sampleLib ⟨true, false⟩ 10 (ascii "d")
      [(ascii "a.txt", .file (ascii "hello") 5 true true),
        (ascii "HEADER.html", .file (ascii "<style></style>") 6 true true),
        (ascii "README.html", .file (ascii "<p>read me</p>") 6 true true),
        (ascii "sub", .dir [(ascii "x.txt", .file (ascii "x") 7 true true)] 7 true true true),
        (ascii ".g", .dir [] 8 true true true)] 9 true (by decide)).1 rfl (by decide)
    exact h.1.trans (by decide)
  · exact ((process_recursion sampleLib ⟨true, false⟩ 10 (ascii "d")
      [(ascii "a.txt", .file (ascii "hello") 5 true true),
        (ascii "HEADER.html", .file (ascii "<style></style>") 6 true true),
        (ascii "README.html", .file (ascii "<p>read me</p>") 6 true true),
        (ascii "sub", .dir [(ascii "x.txt", .file (ascii "x") 7 true true)] 7 true true true),
        (ascii ".g", .dir [] 8 true true true)] 9 true (by decide)).2.2.2.1
      (ascii ".g") (.dir [] 8 true true true) (by simp) rfl (by decide)).1 rfl |>.2

/-- C14. `process` returns an error for a missing path, for a path that is
not a directory, for a directory that cannot be opened or read, and when the
write of `index.html` fails; when a child recursed into returns an error the
parent returns that error, the calls end with the calls of that child, and
the later siblings are left as they were; `main` ends at the first root whose
`process` returns an error and leaves the later roots as they were. -/
theorem fail_fast (lib : Lib) (flags : Flags) (now : Int) (dir : Str) (top : Bool) :
    process lib flags now dir top none = (none, some (.stat dir)) ∧
    (∀ content t r w, process lib flags now dir top (some (.file content t r w)) =
      (some (.file content t r w), some (.notDir dir))) ∧
    (∀ es t l c, process lib flags now dir top (some (.dir es t false l c)) =
      (some (.dir es t false l c), some (.openDir dir))) ∧
    (∀ es t c, process lib flags now dir top (some (.dir es t true false c)) =
      (some (.dir es t true false c), some (.readDir dir))) ∧
    (∀ es t c, safeToReplace es (ascii "index.html") = true →
      WriteFile now ⟨es, t, c⟩ (ascii "index.html")
        (composed lib flags ⟨es, t, c⟩ (es.map infoOf)) = none →
      process lib flags now dir top (some (.dir es t true true c)) =
        (some (.dir es t true true c),
          some (.write (lib.pathJoin dir (ascii "index.html"))))) ∧
    (∀ pre post name child t c err, flags.recursiveOpt = true →
      (generateIndex lib flags now dir ⟨pre ++ (name, child) :: post, t, c⟩
        ((pre ++ (name, child) :: post).map infoOf)).2 = none →
      (∀ e ∈ pre, (e.2.isDir && !(HasPrefix e.1 (ascii ".") && flags.hidden)) = true →
        (processNode lib flags now (lib.pathJoin dir e.1) e.2).2 = none) →
      (child.isDir && !(HasPrefix name (ascii ".") && flags.hidden)) = true →
      (processNode lib flags now (lib.pathJoin dir name) child).2 = some err →
      (process lib flags now dir top
        (some (.dir (pre ++ (name, child) :: post) t true true c))).2 = some err ∧
      visitsNode lib flags now dir (.dir (pre ++ (name, child) :: post) t true true c) =
        dir :: (visitsChildren lib flags now dir pre
          ++ visitsNode lib flags now (lib.pathJoin dir name) child) ∧
      (((pre ++ (name, child) :: post).map Prod.fst).Nodup →
        ∃ es1 t1, (process lib flags now dir top
            (some (.dir (pre ++ (name, child) :: post) t true true c))).1 =
              some (.dir es1 t1 true true c) ∧
          ∀ nm x, (nm, x) ∈ post → nm ≠ ascii "index.html" → lookupNode es1 nm = some x)) ∧
    (∀ (pre post : List (Str × Option Node)) (dest : Str) (n : Option Node) (err : Failure),
      (∀ r ∈ pre, (process lib flags now r.1 true r.2).2 = none) →
      (process lib flags now dest true n).2 = some err →
      main lib flags now (pre ++ (dest, n) :: post) =
        (pre.map (fun r => (r.1, (process lib flags now r.1 true r.2).1))
          ++ (dest, (process lib flags now dest true n).1) :: post, some err)) := by
  refine ⟨rfl, ?_, ?_, ?_, ?_, ?_, ?_⟩
  · intro content t r w
    simp only [process]
    rw [processNode]
  · intro es t l c
    simp only [process]
    rw [processNode]
    simp
  · intro es t c
    simp only [process]
    rw [processNode]
    simp
  · intro es t c hs hw
    have hg : (generateIndex lib flags now dir ⟨es, t, c⟩ (es.map infoOf)).2 =
        some (.write (lib.pathJoin dir (ascii "index.html"))) := by
      rw [generateIndex_safe _ _ _ _ _ _ hs, hw]
    simp only [process]
    rw [processNode_dir_err lib flags now dir es t c _ hg]
  · intro pre post name child t c err hrec hg hpre hr herr
    have hff := processChildren_fail_fast lib flags now dir pre post
      (generateIndex lib flags now dir ⟨pre ++ (name, child) :: post, t, c⟩
        ((pre ++ (name, child) :: post).map infoOf)).1.entries name child err hpre hr herr
    refine ⟨?_, ?_, ?_⟩
    · simp only [process]
      rw [processNode_dir_rec lib flags now dir _ t c hg hrec, hff.1]
    · rw [visitsNode_dir_rec lib flags now dir _ t c hg hrec, hff.2]
    · intro hn
      refine ⟨_, _, by simp only [process]; rw [processNode_dir_rec lib flags now dir _ t c hg hrec,
        hff.1], ?_⟩
      intro nm x hm hne
      have hmem : (nm, x) ∈ pre ++ (name, child) :: post :=
        List.mem_append_right _ (List.mem_cons_of_mem _ hm)
      have hl := lookupNode_of_mem hn hmem
      rw [List.map_append, List.map_cons, List.nodup_append] at hn
      obtain ⟨_, hn2, hdisj⟩ := hn
      have hnm : nm ∈ List.map Prod.fst post := List.mem_map_of_mem Prod.fst hm
      have hne2 : nm ≠ name := by
        intro e
        rw [List.nodup_cons] at hn2
        exact hn2.1 (e ▸ hnm)
      rw [lookupNode_replaceNode_ne _ hne2, processChildren_lookup_untouched]
      · rw [generateIndex_lookup_ne lib flags now dir _ _ hne]
        exact hl
      · intro c2 hc2
        exact absurd (List.mem_cons_of_mem _ hnm)
          (hdisj (List.mem_map_of_mem Prod.fst hc2))
  · intro pre post dest n err hpre herr
    rw [main_append_ok lib flags now pre _ hpre, main_cons_err lib flags now dest n post err herr]

/-- Witness for C14: of the roots `x`, `y`, `z`, where `y` is missing, `main`
returns the error of `y` and leaves `z` as it was. -/
theorem fail_fast_witness :
    main sampleLib ⟨false, false⟩ 1
        [(ascii "x", some emptyDir), (ascii "y", none), (ascii "z", some emptyDir)] =
      ([(ascii "x", (process sampleLib ⟨false, false⟩ 1 (ascii "x") true (some emptyDir)).1),
        (ascii "y", none), (ascii "z", some emptyDir)], some (.stat (ascii "y"))) :=
  (fail_fast sampleLib ⟨false, false⟩ 1 (ascii "d") true).2.2.2.2.2.2
    [(ascii "x", some emptyDir)] [(ascii "z", some emptyDir)] (ascii "y") none
    (.stat (ascii "y")) (by decide) rfl

/-- C15, as stated, fails: `process` takes the children in readdir order,
not in alphabetical order.  The listings `a, b` and `b, a` are permutations
of each other and `b` cannot be opened, so both runs return the error of
`b`; the run on `a, b` has written the index of `a` by then, and the run on
`b, a` has left `a` as it was, without an index. -/
theorem visit_order_counterexample :
    List.Perm [(ascii "a", emptyDir), (ascii "b", lockedDir)]
      [(ascii "b", lockedDir), (ascii "a", emptyDir)] ∧
    (processNode sampleLib ⟨true, false⟩ 1 (ascii "d")
        (.dir [(ascii "a", emptyDir), (ascii "b", lockedDir)] 0 true true true)).2 =
      some (.openDir (ascii "d/b")) ∧
    (processNode sampleLib ⟨true, false⟩ 1 (ascii "d")
        (.dir [(ascii "b", lockedDir), (ascii "a", emptyDir)] 0 true true true)).2 =
      some (.openDir (ascii "d/b")) ∧
    contentAt [ascii "a", ascii "index.html"] (processNode sampleLib ⟨true, false⟩ 1 (ascii "d")
        (.dir [(ascii "a", emptyDir), (ascii "b", lockedDir)] 0 true true true)).1 ≠ none ∧
    contentAt [ascii "a", ascii "index.html"] (processNode sampleLib ⟨true, false⟩ 1 (ascii "d")
        (.dir [(ascii "b", lockedDir), (ascii "a", emptyDir)] 0 true true true)).1 = none ∧
    nodeAt [ascii "a"] (processNode sampleLib ⟨true, false⟩ 1 (ascii "d")
        (.dir [(ascii "b", lockedDir), (ascii "a", emptyDir)] 0 true true true)).1 =
      some emptyDir := by
  refine ⟨List.Perm.swap _ _ _, by decide, by decide, by decide, by decide, rfl⟩

/-- C15, amended. A recursive `process` on a directory with distinct names
handles the child directories in the order of the raw listing.  When the
index step returns no error and a recursed child fails, the children listed
before it succeeding, the run returns the error of that child and the tree
it leaves has the children listed before it processed, the failing child as
its own run left it, and the children listed after it as they were.  An
error-free run leaves every recursed child processed; the run on a raw
listing that is a permutation of it is error-free too and leaves the same
node under every name. -/
theorem visit_order (lib : Lib) (flags : Flags) (now : Int) (dir : Str)
    (es : List (Str × Node)) (t : Int) (c : Bool) (hn : (es.map Prod.fst).Nodup)
    (hrec : flags.recursiveOpt = true) :
    (∀ (pre post : List (Str × Node)) (name : Str) (child : Node) (err : Failure),
      es = pre ++ (name, child) :: post →
      (generateIndex lib flags now dir ⟨es, t, c⟩ (es.map infoOf)).2 = none →
      (∀ e ∈ pre, recursedInto flags e = true →
        (processNode lib flags now (lib.pathJoin dir e.1) e.2).2 = none) →
      recursedInto flags (name, child) = true →
      (processNode lib flags now (lib.pathJoin dir name) child).2 = some err →
      (processNode lib flags now dir (.dir es t true true c)).2 = some err ∧
      ∃ es1 t1,
        (processNode lib flags now dir (.dir es t true true c)).1 = .dir es1 t1 true true c ∧
        (∀ n x, (n, x) ∈ pre → n ≠ ascii "index.html" →
          lookupNode es1 n = some (if recursedInto flags (n, x) = true
            then (processNode lib flags now (lib.pathJoin dir n) x).1 else x)) ∧
        lookupNode es1 name = some (processNode lib flags now (lib.pathJoin dir name) child).1 ∧
        (∀ n x, (n, x) ∈ post → n ≠ ascii "index.html" → lookupNode es1 n = some x)) ∧
    ((processNode lib flags now dir (.dir es t true true c)).2 = none →
      (∃ es1 t1,
        (processNode lib flags now dir (.dir es t true true c)).1 = .dir es1 t1 true true c ∧
        ∀ name child, (name, child) ∈ es → name ≠ ascii "index.html" →
          lookupNode es1 name = some (if recursedInto flags (name, child) = true
            then (processNode lib flags now (lib.pathJoin dir name) child).1 else child)) ∧
      ∀ es2 : List (Str × Node), es.Perm es2 →
        (processNode lib flags now dir (.dir es2 t true true c)).2 = none ∧
        ∃ es1 t1 es3 t3,
          (processNode lib flags now dir (.dir es t true true c)).1 = .dir es1 t1 true true c ∧
          (processNode lib flags now dir (.dir es2 t true true c)).1 =
            .dir es3 t3 true true c ∧
          ∀ name, lookupNode es3 name = lookupNode es1 name) := by
  refine ⟨?_, fun hok => ⟨processNode_children_done lib flags now dir es t c hn hrec hok,
    fun es2 hp => processNode_perm lib flags now dir es es2 t c hn hrec hp hok⟩⟩
  intro pre post name child err he hg hpre hr herr
  subst he
  exact processNode_abort lib flags now dir pre post name child t c err hn hrec hg hpre hr herr

/-- Witness for the amended C15: the children `c`, `b`, `a` in this order,
where `b` cannot be opened: `c` is processed and `a` is left as it was. -/
theorem visit_order_witness :
    (processNode sampleLib ⟨true, false⟩ 1 (ascii "d")
        (.dir [(ascii "c", emptyDir), (ascii "b", lockedDir), (ascii "a", emptyDir)]
          0 true true true)).2 = some (.openDir (ascii "d/b")) ∧
      ∃ es1 t1,
        (processNode sampleLib ⟨true, false⟩ 1 (ascii "d")
          (.dir [(ascii "c", emptyDir), (ascii "b", lockedDir), (ascii "a", emptyDir)]
            0 true true true)).1 = .dir es1 t1 true true true ∧
        (∀ n x, (n, x) ∈ [(ascii "c", emptyDir)] → n ≠ ascii "index.html" →
          lookupNode es1 n = some (if recursedInto ⟨true, false⟩ (n, x) = true
            then (processNode sampleLib ⟨true, false⟩ 1
              (sampleLib.pathJoin (ascii "d") n) x).1 else x)) ∧
        lookupNode es1 (ascii "b") = some (processNode sampleLib ⟨true, false⟩ 1
          (sampleLib.pathJoin (ascii "d") (ascii "b")) lockedDir).1 ∧
        (∀ n x, (n, x) ∈ [(ascii "a", emptyDir)] → n ≠ ascii "index.html" →
          lookupNode es1 n = some x) :=
  (visit_order sampleLib ⟨true, false⟩ 1 (ascii "d")
    [(ascii "c", emptyDir), (ascii "b", lockedDir), (ascii "a", emptyDir)] 0 true
    (by decide) rfl).1 [(ascii "c", emptyDir)] [(ascii "a", emptyDir)] (ascii "b") lockedDir
    (.openDir (ascii "d/b")) rfl (by decide) (by decide) (by decide) (by decide)

/-- C16. A run of `process` on a tree with distinct names in every directory
leaves the bytes at every path that does not end in `index.html` as they
were, `HEADER.html` and `README.html` among them, and creates no file
there; it leaves the `index.html` of every directory that the recursion rule
does not let the walk reach as it was; a child that is not recursed into,
and in non-recursive mode every child other than `index.html`, is left as it
was with everything below it; and a run on a missing root creates nothing. -/
theorem process_frame (lib : Lib) (flags : Flags) (now : Int) (dir : Str) (top : Bool)
    (n : Node) (hd : distinctNames n = true) :
    (∀ path : List Str, path.getLast? ≠ some (ascii "index.html") →
      ∃ n1, (process lib flags now dir top (some n)).1 = some n1 ∧
        contentAt path n1 = contentAt path n) ∧
    (∃ n1, (process lib flags now dir top (some n)).1 = some n1 ∧
      contentAt [ascii "HEADER.html"] n1 = contentAt [ascii "HEADER.html"] n ∧
      contentAt [ascii "README.html"] n1 = contentAt [ascii "README.html"] n) ∧
    (∀ path : List Str, walkReaches flags path n = false →
      ∃ n1, (process lib flags now dir top (some n)).1 = some n1 ∧
        contentAt (path ++ [ascii "index.html"]) n1 =
          contentAt (path ++ [ascii "index.html"]) n) ∧
    (∀ es t o l c, n = .dir es t o l c →
      ∀ name child, (name, child) ∈ es → name ≠ ascii "index.html" →
        (flags.recursiveOpt = false ∨ child.isDir = false ∨
          (HasPrefix name (ascii ".") && flags.hidden) = true) →
        ∃ es1 t1, (process lib flags now dir top (some n)).1 = some (.dir es1 t1 o l c) ∧
          lookupNode es1 name = some child) ∧
    (process lib flags now dir top none).1 = none := by
  refine ⟨?_, ?_, fun path hp =>
    ⟨_, rfl, processNode_index_frame lib flags now path dir n hd hp⟩, ?_, rfl⟩
  · intro path hp
    exact ⟨_, rfl, processNode_frame lib flags now path dir n hd hp⟩
  · exact ⟨_, rfl, processNode_frame lib flags now _ dir n hd (by decide),
      processNode_frame lib flags now _ dir n hd (by decide)⟩
  · intro es t o l c hn name child hm hne h
    subst hn
    have h2 : recursedInto flags (name, child) = false ∨ flags.recursiveOpt = false := by
      rcases h with h | h
      · exact Or.inr h
      · exact Or.inl ((recursedInto_false_iff flags name child).2 h)
    obtain ⟨es1, t1, h1, h3⟩ := processNode_untouched lib flags now dir es t o l c
      (distinctNames_dir hd).1 name child hm hne h2
    exact ⟨es1, t1, by simp only [process, h1], h3⟩

/-- Witness for C16: the file `sub/x.txt` of the sample tree in a recursive
run. -/
theorem process_frame_witness :
    ∃ n1, (process sampleLib ⟨true, false⟩ 10 (ascii "d") true (some sampleTree)).1 = some n1 ∧
      contentAt [ascii "sub", ascii "x.txt"] n1 = some (ascii "x") :=
  (process_frame sampleLib ⟨true, false⟩ 10 (ascii "d") true sampleTree (by decide)).1
    [ascii "sub", ascii "x.txt"] (by decide)

/-- C17, as stated, fails for a file that is missing: through `process`, the
directory that holds `a.txt` alone and the directory that holds `a.txt` and
an empty `HEADER.html` both get their index without an error, and the two
pages differ, the second table having a row for `HEADER.html`. -/
theorem missing_override_counterexample :
    ReadFile [(ascii "a.txt", Node.file (ascii "hello") 5 true true)] (ascii "HEADER.html")
      = none ∧
    ReadFile emptyHeaderDir.entries (ascii "HEADER.html") = some [] ∧
    (process sampleLib ⟨false, false⟩ 10 (ascii "d") true
      (some (.dir [(ascii "a.txt", .file (ascii "hello") 5 true true)] 9 true true true))).2
      = none ∧
    (process sampleLib ⟨false, false⟩ 10 (ascii "d") true
      (some (.dir emptyHeaderDir.entries 9 true true true))).2 = none ∧
    indexOf (process sampleLib ⟨false, false⟩ 10 (ascii "d") true
      (some (.dir [(ascii "a.txt", .file (ascii "hello") 5 true true)] 9 true true true))).1 =
      some (pageOf sampleLib []
        (tableOpen
          ++ rowWith (ascii "file-alt") (ascii "\"a.txt\"") (ascii "a.txt") (ascii "t=5")
          ++ tableClose) []) ∧
    indexOf (process sampleLib ⟨false, false⟩ 10 (ascii "d") true
      (some (.dir emptyHeaderDir.entries 9 true true true))).1 =
      some (pageOf sampleLib []
        (tableOpen
          ++ rowWith (ascii "file-alt") (ascii "\"HEADER.html\"") (ascii "HEADER.html")
            (ascii "t=6")
          ++ rowWith (ascii "file-alt") (ascii "\"a.txt\"") (ascii "a.txt") (ascii "t=5")
          ++ tableClose) []) ∧
    indexOf (process sampleLib ⟨false, false⟩ 10 (ascii "d") true
      (some (.dir [(ascii "a.txt", .file (ascii "hello") 5 true true)] 9 true true true))).1 ≠
    indexOf (process sampleLib ⟨false, false⟩ 10 (ascii "d") true
      (some (.dir emptyHeaderDir.entries 9 true true true))).1 := by
  have h1 : indexOf (process sampleLib ⟨false, false⟩ 10 (ascii "d") true
      (some (.dir [(ascii "a.txt", .file (ascii "hello") 5 true true)] 9 true true true))).1 =
      some (pageOf sampleLib []
        (tableOpen
          ++ rowWith (ascii "file-alt") (ascii "\"a.txt\"") (ascii "a.txt") (ascii "t=5")
          ++ tableClose) []) := rfl
  have h2 : indexOf (process sampleLib ⟨false, false⟩ 10 (ascii "d") true
      (some (.dir emptyHeaderDir.entries 9 true true true))).1 =
      some (pageOf sampleLib []
        (tableOpen
          ++ rowWith (ascii "file-alt") (ascii "\"HEADER.html\"") (ascii "HEADER.html")
            (ascii "t=6")
          ++ rowWith (ascii "file-alt") (ascii "\"a.txt\"") (ascii "a.txt") (ascii "t=5")
          ++ tableClose) []) := rfl
  refine ⟨by decide, by decide, by decide, by decide, h1, h2, ?_⟩
  rw [h1, h2]
  intro h
  simp only [pageOf, Option.some.injEq, List.append_assoc, List.append_cancel_left_eq,
    List.append_cancel_right_eq] at h
  have hl := congrArg List.length h
  simp only [List.length_append] at hl
  revert hl
  decide

/-- C17, amended. `generateIndex` returns an error only when the final write
fails, and none when that write succeeds, whatever the override files.  For
two directories that `process` indexes without an error, one where
`HEADER.html` (or `README.html`) cannot be read and one where it reads as
empty, the other override file reading the same, the two pages are the same
around their tables; they are byte-identical when the two listings are the
same, as for a file that exists and cannot be read against one that is
empty. -/
theorem missing_override (lib : Lib) (flags : Flags) (now : Int) (dir : Str) :
    (∀ (d : DirState) (stList : List FileInfo) (e : Failure),
      (generateIndex lib flags now dir d stList).2 = some e →
      safeToReplace d.entries (ascii "index.html") = true ∧
      WriteFile now d (ascii "index.html") (composed lib flags d stList) = none ∧
      e = .write (lib.pathJoin dir (ascii "index.html"))) ∧
    (∀ (d : DirState) (stList : List FileInfo) (page : Str) (d1 : DirState),
      WriteFile now d (ascii "index.html") page = some d1 →
      (generateIndex lib flags now dir d stList).2 = none) ∧
    (∀ (top : Bool) (es es2 : List (Str × Node)) (t t2 : Int) (c c2 : Bool),
      (es.map Prod.fst).Nodup → (es2.map Prod.fst).Nodup →
      safeToReplace es (ascii "index.html") = true →
      safeToReplace es2 (ascii "index.html") = true →
      (process lib flags now dir top (some (.dir es t true true c))).2 = none →
      (process lib flags now dir top (some (.dir es2 t2 true true c2))).2 = none →
      (ReadFile es (ascii "HEADER.html") = none ∧
          ReadFile es2 (ascii "HEADER.html") = some [] ∧
          ReadFile es (ascii "README.html") = ReadFile es2 (ascii "README.html")) ∨
        (ReadFile es (ascii "README.html") = none ∧
          ReadFile es2 (ascii "README.html") = some [] ∧
          ReadFile es (ascii "HEADER.html") = ReadFile es2 (ascii "HEADER.html")) →
      (∃ header readme,
        indexOf (process lib flags now dir top (some (.dir es t true true c))).1 =
          some (pageOf lib header
            (tableOpen ++ rowsOf lib (tableEntries flags.hidden (es.map infoOf)) ++ tableClose)
            readme) ∧
        indexOf (process lib flags now dir top (some (.dir es2 t2 true true c2))).1 =
          some (pageOf lib header
            (tableOpen ++ rowsOf lib (tableEntries flags.hidden (es2.map infoOf)) ++ tableClose)
            readme)) ∧
      (es.map infoOf = es2.map infoOf →
        indexOf (process lib flags now dir top (some (.dir es t true true c))).1 =
          indexOf (process lib flags now dir top (some (.dir es2 t2 true true c2))).1)) := by
  refine ⟨?_, ?_, ?_⟩
  · intro d stList e he
    obtain ⟨h1, h2, h3, _⟩ := generateIndex_error he
    exact ⟨h1, h2, h3⟩
  · intro d stList page d1 hw
    cases hs : safeToReplace d.entries (ascii "index.html") with
    | false => rw [generateIndex_skip _ _ _ _ _ _ hs]
    | true =>
      rw [generateIndex_safe _ _ _ _ _ _ hs]
      cases hw2 : WriteFile now d (ascii "index.html") (composed lib flags d stList) with
      | some d3 => rfl
      | none =>
        exfalso
        unfold WriteFile at hw hw2
        split at hw <;> simp_all
  · intro top es es2 t t2 c c2 hn hn2 hs hs2 hok hok2 hov
    rw [indexOf_process_written lib flags now dir top es t c hn hs hok,
      indexOf_process_written lib flags now dir top es2 t2 c2 hn2 hs2 hok2]
    have key : ∃ header readme,
        composed lib flags ⟨es, t, c⟩ (es.map infoOf) = pageOf lib header
          (tableOpen ++ rowsOf lib (tableEntries flags.hidden (es.map infoOf)) ++ tableClose)
          readme ∧
        composed lib flags ⟨es2, t2, c2⟩ (es2.map infoOf) = pageOf lib header
          (tableOpen ++ rowsOf lib (tableEntries flags.hidden (es2.map infoOf)) ++ tableClose)
          readme := by
      rcases hov with ⟨h1, h2, h3⟩ | ⟨h1, h2, h3⟩
      · exact ⟨_, _, by simp only [composed, h1, h3]; rfl, by simp only [composed, h2]⟩
      · exact ⟨_, _, by simp only [composed, h1, h3]; rfl, by simp only [composed, h2]⟩
    obtain ⟨header, readme, k1, k2⟩ := key
    refine ⟨⟨header, readme, by rw [k1], by rw [k2]⟩, fun he => ?_⟩
    rw [k1, k2, he]

/-- Witness for the amended C17: through `process`, a directory whose
`HEADER.html` cannot be read against one whose `HEADER.html` is empty. -/
theorem missing_override_witness :
    indexOf (process sampleLib ⟨false, false⟩ 10 (ascii "d") true
        (some (.dir lockedHeaderDir.entries 9 true true true))).1 =
      indexOf (process sampleLib ⟨false, false⟩ 10 (ascii "d") true
        (some (.dir emptyHeaderDir.entries 9 true true true))).1 :=
  ((missing_override sampleLib ⟨false, false⟩ 10 (ascii "d")).2.2 true
    lockedHeaderDir.entries emptyHeaderDir.entries 9 9 true true (by decide) (by decide)
    (by decide) (by decide) (by decide) (by decide)
    (Or.inl ⟨by decide, by decide, by decide⟩)).2 (by decide)

/-- C18. When `index.html` is readable and has no marker, `generateIndex`
returns no error and leaves the directory as it was.  A recursive `process`
on a directory with distinct names then goes on with the children: when the
recursed children succeed the run returns no error and the tree it leaves
has the same `index.html`, every recursed child processed and every other
entry as it was; when a recursed child fails, the ones listed before it
succeeding, the run returns that error and the tree has the children listed
before it processed.  The error and every child are those of the run on the
directory that differs only in holding a writable `index.html` with the
marker. -/
theorem skip_goes_on (lib : Lib) (flags : Flags) (now : Int) (dir : Str)
    (es : List (Str × Node)) (t : Int) (c : Bool) (C : Str) (t0 : Int) (w : Bool)
    (h : lookupNode es (ascii "index.html") = some (.file C t0 true w))
    (hm : ¬ magic <:+: C) :
    (∀ stList, generateIndex lib flags now dir ⟨es, t, c⟩ stList = (⟨es, t, c⟩, none)) ∧
    (flags.recursiveOpt = true →
      ((es.map Prod.fst).Nodup →
        ((∀ e ∈ es, recursedInto flags e = true →
            (processNode lib flags now (lib.pathJoin dir e.1) e.2).2 = none) →
          (processNode lib flags now dir (.dir es t true true c)).2 = none ∧
          ∃ es1,
            (processNode lib flags now dir (.dir es t true true c)).1 =
              .dir es1 t true true c ∧
            lookupNode es1 (ascii "index.html") = some (.file C t0 true w) ∧
            ∀ name child, (name, child) ∈ es → name ≠ ascii "index.html" →
              lookupNode es1 name = some (if recursedInto flags (name, child) = true
                then (processNode lib flags now (lib.pathJoin dir name) child).1 else child)) ∧
        (∀ (pre post : List (Str × Node)) (name : Str) (child : Node) (err : Failure),
          es = pre ++ (name, child) :: post →
          (∀ e ∈ pre, recursedInto flags e = true →
            (processNode lib flags now (lib.pathJoin dir e.1) e.2).2 = none) →
          recursedInto flags (name, child) = true →
          (processNode lib flags now (lib.pathJoin dir name) child).2 = some err →
          (processNode lib flags now dir (.dir es t true true c)).2 = some err ∧
          ∃ es1,
            (processNode lib flags now dir (.dir es t true true c)).1 =
              .dir es1 t true true c ∧
            lookupNode es1 (ascii "index.html") = some (.file C t0 true w) ∧
            (∀ n x, (n, x) ∈ pre → n ≠ ascii "index.html" →
              lookupNode es1 n = some (if recursedInto flags (n, x) = true
                then (processNode lib flags now (lib.pathJoin dir n) x).1 else x)) ∧
            lookupNode es1 name =
              some (processNode lib flags now (lib.pathJoin dir name) child).1 ∧
            (∀ n x, (n, x) ∈ post → n ≠ ascii "index.html" → lookupNode es1 n = some x))) ∧
      ∀ (C2 : Str) (t2 : Int), magic <:+: C2 →
        (processNode lib flags now dir
          (.dir (replaceNode es (ascii "index.html") (.file C2 t2 true true)) t true true c)).2 =
          (processNode lib flags now dir (.dir es t true true c)).2 ∧
        ∃ es1 t1 es3 t3,
          (processNode lib flags now dir (.dir es t true true c)).1 = .dir es1 t1 true true c ∧
          (processNode lib flags now dir
            (.dir (replaceNode es (ascii "index.html") (.file C2 t2 true true)) t true true c)).1
            = .dir es3 t3 true true c ∧
          ∀ name, name ≠ ascii "index.html" → lookupNode es3 name = lookupNode es1 name) := by
  have hread : ReadFile es (ascii "index.html") = some C := by simp [ReadFile, h]
  have hskip : safeToReplace es (ascii "index.html") = false := by
    cases hs : safeToReplace es (ascii "index.html") with
    | false => rfl
    | true => exact absurd ((safeToReplace_of_read hread).1 hs) hm
  have hgi : ∀ stList, generateIndex lib flags now dir ⟨es, t, c⟩ stList = (⟨es, t, c⟩, none) :=
    fun stList => generateIndex_skip lib flags now dir ⟨es, t, c⟩ stList hskip
  refine ⟨hgi, ?_⟩
  intro hrec
  have hg : (generateIndex lib flags now dir ⟨es, t, c⟩ (es.map infoOf)).2 = none := by
    rw [hgi]
  have hp1 : processNode lib flags now dir (.dir es t true true c) =
      (.dir (processChildren lib flags now dir es es).1 t true true c,
        (processChildren lib flags now dir es es).2) := by
    rw [processNode_dir_rec lib flags now dir es t c hg hrec, hgi]
  refine ⟨fun hn => ?_, ?_⟩
  · have hidx : lookupNode (processChildren lib flags now dir es es).1 (ascii "index.html") =
        some (.file C t0 true w) := by
      rw [processChildren_lookup_untouched lib flags now dir es es (ascii "index.html"), h]
      intro child hmem
      have h2 := lookupNode_of_mem hn hmem
      rw [h] at h2
      rw [← Option.some.inj h2]
      rfl
    refine ⟨fun hch => ?_, ?_⟩
    · have hok : (processNode lib flags now dir (.dir es t true true c)).2 = none :=
        (processNode_ok_iff lib flags now dir es t c).2 ⟨hg, fun _ => hch⟩
      obtain ⟨es1, t1, h1, h2⟩ := processNode_children_done lib flags now dir es t c hn hrec hok
      rw [hp1] at h1
      simp only [Node.dir.injEq, and_true] at h1
      refine ⟨hok, _, by rw [hp1], hidx, ?_⟩
      rw [h1.1]
      exact h2
    · intro pre post name child err he hpre hr herr
      subst he
      obtain ⟨e1, es1, t1, h1, h2, h3, h4⟩ := processNode_abort lib flags now dir pre post name
        child t c err hn hrec hg hpre hr herr
      rw [hp1] at h1
      simp only [Node.dir.injEq, and_true] at h1
      refine ⟨e1, _, by rw [hp1], hidx, ?_, ?_, ?_⟩
      · rw [h1.1]
        exact h2
      · rw [h1.1]
        exact h3
      · rw [h1.1]
        exact h4
  · intro C2 t2 hm2
    have hl2 : lookupNode (replaceNode es (ascii "index.html") (.file C2 t2 true true))
        (ascii "index.html") = some (.file C2 t2 true true) := lookupNode_replaceNode _ h
    have hg2full := generateIndex_rewrite lib flags now dir
      ⟨replaceNode es (ascii "index.html") (.file C2 t2 true true), t, c⟩
      ((replaceNode es (ascii "index.html") (.file C2 t2 true true)).map infoOf) C2 t2 hl2 hm2
    have hg2 : (generateIndex lib flags now dir
        ⟨replaceNode es (ascii "index.html") (.file C2 t2 true true), t, c⟩
        ((replaceNode es (ascii "index.html") (.file C2 t2 true true)).map infoOf)).2 = none := by
      rw [hg2full]
    have hp2 := processNode_dir_rec lib flags now dir
      (replaceNode es (ascii "index.html") (.file C2 t2 true true)) t c hg2 hrec
    rw [hg2full] at hp2
    simp only at hp2
    rw [processChildren_replace_file lib flags now dir es _ _ _ (.file C2 t2 true true) h rfl rfl]
      at hp2
    refine ⟨?_, ?_⟩
    · rw [hp2, hp1]
      exact (processChildren_congr lib flags now dir es _ _).1
    · refine ⟨_, _, _, _, by rw [hp1], by rw [hp2], ?_⟩
      intro name hne
      refine (processChildren_congr lib flags now dir es _ _).2 name ?_
      rw [lookupNode_replaceNode_ne _ hne, lookupNode_replaceNode_ne _ hne]

/-- Witness for C18: a directory with a hand-written `index.html` and a
subdirectory; after the recursive run the hand-written file is as it was and
the subdirectory holds its index. -/
theorem skip_goes_on_witness :
    ((processNode sampleLib ⟨true, false⟩ 5 (ascii "d")
        (.dir handWrittenDir 2 true true true)).2 = none ∧
      ∃ es1,
        (processNode sampleLib ⟨true, false⟩ 5 (ascii "d")
          (.dir handWrittenDir 2 true true true)).1 = .dir es1 2 true true true ∧
        lookupNode es1 (ascii "index.html") =
          some (.file (ascii "<h1>mine</h1>") 3 true true) ∧
        ∀ name child, (name, child) ∈ handWrittenDir → name ≠ ascii "index.html" →
          lookupNode es1 name = some (if recursedInto ⟨true, false⟩ (name, child) = true
            then (processNode sampleLib ⟨true, false⟩ 5
              (sampleLib.pathJoin (ascii "d") name) child).1 else child)) ∧
    contentAt [ascii "index.html"] (processNode sampleLib ⟨true, false⟩ 5 (ascii "d")
        (.dir handWrittenDir 2 true true true)).1 = some (ascii "<h1>mine</h1>") ∧
    contentAt [ascii "sub", ascii "index.html"] (processNode sampleLib ⟨true, false⟩ 5
        (ascii "d") (.dir handWrittenDir 2 true true true)).1 =
      some (pageOf sampleLib [] (tableOpen ++ tableClose) []) :=
  ⟨(((skip_goes_on sampleLib ⟨true, false⟩ 5 (ascii "d") handWrittenDir 2 true
    (ascii "<h1>mine</h1>") 3 true rfl
    (by rw [← bytesContains_iff]; decide)).2 rfl).1 (by decide)).1 (by decide), rfl, rfl⟩

/-- C19. Every name `paresStList` returns is a key of the returned map; the
entry held for it has that name and is the last entry of the raw listing
with that name; so `generateTable` never looks up a missing entry and
returns a table. -/
theorem paresStList_resolves (hidden : Bool) (stList : List FileInfo) :
    (∀ n ∈ (paresStList hidden stList).1,
      ∃ fi, (paresStList hidden stList).2 n = some fi ∧ fi.name = n ∧
        ∃ pre post, stList = pre ++ fi :: post ∧ ∀ x ∈ post, x.name ≠ n) ∧
    (∀ n ∈ (paresStList hidden stList).1, (paresStList hidden stList).2 n ≠ none) ∧
    ∀ (lib : Lib) (recursiveOpt : Bool) (dir : Str),
      generateTable lib ⟨recursiveOpt, hidden⟩ dir stList ≠ none := by
  refine ⟨?_, ?_, ?_⟩
  · intro n hn
    obtain ⟨fi, hfi⟩ := paresStList_lookup hidden stList n hn
    refine ⟨fi, hfi, ?_, ?_⟩
    · rw [paresStList_map] at hfi
      exact (lastNamed_some hfi).2
    · rw [paresStList_map] at hfi
      exact lastNamed_split (lastNamed_filter hfi)
  · intro n hn
    obtain ⟨fi, hfi⟩ := paresStList_lookup hidden stList n hn
    rw [hfi]
    exact Option.some_ne_none fi
  · intro lib recursiveOpt dir
    rw [generateTable_eq]
    exact Option.some_ne_none _

/-- Witness for C19: the listing `b`, `a`, `b`; the map holds the last `b`. -/
theorem paresStList_resolves_witness :
    ∃ fi, (paresStList false [⟨ascii "b", false, 1⟩, ⟨ascii "a", false, 2⟩,
        ⟨ascii "b", true, 3⟩]).2 (ascii "b") = some fi ∧ fi.name = ascii "b" ∧
      ∃ pre post, [⟨ascii "b", false, 1⟩, ⟨ascii "a", false, 2⟩, ⟨ascii "b", true, 3⟩] =
        pre ++ fi :: post ∧ ∀ x ∈ post, x.name ≠ ascii "b" :=
  (paresStList_resolves false [⟨ascii "b", false, 1⟩, ⟨ascii "a", false, 2⟩,
    ⟨ascii "b", true, 3⟩]).1 (ascii "b") (by decide)

/-- C20. With the hidden flag off every non-directory row of the table
carries the icon `file-alt`: every key of the icon table other than
`default` starts with a dot, and the lower-cased name of a listed file does
not.  The Unicode lower-casing of the standard library is taken to leave a
name without a leading dot without one. -/
theorem listed_files_default_icon (lib : Lib)
    (hlib : ∀ s, HasPrefix s (ascii ".") = false →
      HasPrefix (lib.unicodeToLower s) (ascii ".") = false)
    (recursiveOpt : Bool) (dir : Str) (stList : List FileInfo) :
    generateTable lib ⟨recursiveOpt, false⟩ dir stList =
      some (tableOpen ++ rowsOf lib (tableEntries false stList) ++ tableClose) ∧
    (∀ fi ∈ tableEntries false stList, fi.isDir = false →
      row lib fi = rowWith (ascii "file-alt") (Quote lib fi.name) (EscapeString fi.name)
        (lib.formatTime fi.modTime)) ∧
    (∀ e ∈ icons, e.1 ≠ ascii "default" → HasPrefix e.1 (ascii ".") = true) := by
  refine ⟨generateTable_eq _ _ _ _, ?_, ?_⟩
  · intro fi hfi hd
    have hp := hasPrefix_of_not_shown (mem_tableEntries hfi).2
    rw [row_eq, iconOf_plain lib fi hd (hasPrefix_ToLower lib hlib _ hp)]
    simp only [linkTarget, hd, Bool.false_eq_true, if_false]
  · intro e he hne
    rcases icons_keys e he with h | h
    · exact absurd h hne
    · exact h

/-- Witness for C20: the listing `b.jpg`, `.jpg`, `sub`. -/
theorem listed_files_default_icon_witness :
    row sampleLib ⟨ascii "b.jpg", false, 2⟩ =
      rowWith (ascii "file-alt") (ascii "\"b.jpg\"") (ascii "b.jpg") (ascii "t=2") :=
  (listed_files_default_icon sampleLib (fun _ h => h) false (ascii "d")
    [⟨ascii "b.jpg", false, 2⟩, ⟨ascii ".jpg", false, 3⟩, ⟨ascii "sub", true, 4⟩]).2.1
    ⟨ascii "b.jpg", false, 2⟩ (by decide) rfl

end StaticIndexes
